import Mathlib

/-!
# Verification of the Teambuilder team-generation engine

This file gives a shallow embedding, in Lean 4, of the team-generation core of
the Teambuilder repository (`src/utils/teams.ts`, together with its helper
module `src/utils/normalize.ts`), and proves properties of the embedding
corresponding to the specification's claims.

Modelling conventions:
* JavaScript `Map` / `Set` objects are modelled as association lists with
  insertion-order iteration, matching the iteration-order guarantees of
  JS `Map`/`Set` (`alSet` updates in place keeping the key's position,
  otherwise appends; `setAdd` appends when absent).
* JS numbers are modelled as `ℚ` where fractional values occur (scores,
  ideal skill, quality deviations) and as `ℕ` for counts.  The sentinel
  `Number.POSITIVE_INFINITY` is modelled by the dedicated type `QVal`.
* `Math.random()` results are modelled by an oracle `Nat → Nat`; the JS
  expression `Math.floor(Math.random() * k)` at the `i`-th draw of a call
  becomes `o i % k`.  All universal theorems quantify over the oracle.
* `toLocaleLowerCase("sv-SE")` is modelled as character-wise `Char.toLower`;
  only the induced equivalence on names matters for the properties proved.
* `Array.prototype.sort` (stable since ES2019) with a total-preorder
  comparator is modelled by `List.insertionSort`, which is also stable, so
  the two agree on every input.
* The recursive union-find `find` with path compression is modelled with
  explicit fuel; the development proves that the fuel used
  (`keys.length + 1`) always suffices on the states the program constructs.
-/

namespace Teambuilder

/-- Student skill level: 1, 2 or 3 (`StudentLevel` in `types.ts`). -/
inductive StudentLevel where
| one
| two
| three
deriving DecidableEq, Repr

/-- Numeric value of a level, used wherever the code adds levels. -/
def StudentLevel.val : StudentLevel → Nat
| .one => 1
| .two => 2
| .three => 3

/-- Student gender (`StudentGender` in `types.ts`): "tjej", "kille", "okänd". -/
inductive Gender where
| tjej
| kille
| okand
deriving DecidableEq, Repr

/-- `Student` record from `types.ts`. -/
structure Student where
  name : String
  level : StudentLevel
  gender : Gender
  present : Bool
deriving DecidableEq, Repr

/-- A pairwise rule (`BlockRule` in `types.ts`): used both for exclusion
("blocks") and cohesion ("togetherRules"). -/
structure BlockRule where
  a : String
  b : String
deriving DecidableEq, Repr

/-- `cleanName` from `normalize.ts`: trim surrounding whitespace
(character-list implementation of `String.trim`, chosen so that proofs can
evaluate it). -/
def cleanName (value : String) : String :=
  String.mk
    (((value.data.dropWhile Char.isWhitespace).reverse.dropWhile
      Char.isWhitespace).reverse)

/-- `normalizeName` from `normalize.ts`: trim and lower-case
(`toLocaleLowerCase("sv-SE")` modelled as character-wise lowering). -/
def normalizeName (value : String) : String :=
  String.mk ((cleanName value).data.map Char.toLower)

/-- `makePairKey` from `normalize.ts`: canonical unordered pair key. -/
def makePairKey (a b : String) : String :=
  let first := normalizeName a
  let second := normalizeName b
  if first < second then first ++ "||" ++ second else second ++ "||" ++ first

/-- Result of `dedupeStudents` from `normalize.ts`. -/
structure DedupeStudentsResult where
  unique : List Student
  duplicates : List String
deriving Repr

/-- Insertion into a JS `Set` modelled as a list: append if absent. -/
def setAdd (s : List String) (k : String) : List String :=
  if k ∈ s then s else s ++ [k]

/-- Build a JS `Set` from a list (insertion order, duplicates dropped). -/
def mkSet (l : List String) : List String := l.foldl setAdd []

/-- Loop body of `dedupeStudents`: state is (seen keys, duplicates, unique). -/
def dedupeStep (st : List String × List String × List Student) (student : Student) :
    List String × List String × List Student :=
  let cleanedName := cleanName student.name
  if cleanedName = "" then st
  else
    let key := normalizeName cleanedName
    if key ∈ st.1 then (st.1, setAdd st.2.1 cleanedName, st.2.2)
    else (st.1 ++ [key], st.2.1, st.2.2 ++ [{ student with name := cleanedName }])

/-- `dedupeStudents` from `normalize.ts`: drop empty names, report duplicate
normalized names, keep the first occurrence with a trimmed name. -/
def dedupeStudents (students : List Student) : DedupeStudentsResult :=
  let st := students.foldl dedupeStep ([], [], [])
  { unique := st.2.2, duplicates := st.2.1 }

/-! ## Association lists modelling JS `Map` -/

/-- `Map.get`: value of the first (and only) entry with the given key. -/
def alGet {α : Type} (m : List (String × α)) (k : String) : Option α :=
  (m.find? (fun e => e.1 == k)).map (·.2)

/-- `Map.set`: update in place if the key exists (keeping its position),
otherwise append — exactly the JS `Map` iteration-order contract. -/
def alSet {α : Type} : List (String × α) → String → α → List (String × α)
| [], k, v => [(k, v)]
| (k', v') :: t, k, v =>
    if k' = k then (k', v) :: t else (k', v') :: alSet t k v

/-- Value of a possibly-missing adjacency entry (`?? []`-like access). -/
def alGetD {α : Type} (m : List (String × α)) (k : String) (d : α) : α :=
  (alGet m k).getD d

theorem alGet_alSet_self {α : Type} (m : List (String × α)) (k : String) (v : α) :
    alGet (alSet m k v) k = some v := by
  induction m with
  | nil => simp [alSet, alGet]
  | cons e t ih =>
    by_cases h : e.1 = k
    · simp [alSet, h, alGet, List.find?_cons_of_pos]
    · simp only [alSet, if_neg h]
      rw [alGet, List.find?_cons_of_neg _ (by simpa using h)]
      exact ih

theorem alGet_alSet_ne {α : Type} (m : List (String × α)) (k k' : String) (v : α)
    (h : k ≠ k') : alGet (alSet m k v) k' = alGet m k' := by
  induction m with
  | nil => simp [alSet, alGet, List.find?_cons_of_neg, h]
  | cons e t ih =>
    by_cases he : e.1 = k
    · subst he
      have hred : alSet (e :: t) e.1 v = (e.1, v) :: t := by
        simp [alSet]
      rw [hred, alGet, List.find?_cons_of_neg _ (by simp [h]),
        alGet, List.find?_cons_of_neg _ (by simp [h])]
    · simp only [alSet, if_neg he]
      by_cases he' : e.1 = k'
      · rw [alGet, List.find?_cons_of_pos _ (by simp [he']),
          alGet, List.find?_cons_of_pos _ (by simp [he'])]
      · rw [alGet, List.find?_cons_of_neg _ (by simp [he']),
          alGet, List.find?_cons_of_neg _ (by simp [he'])]
        exact ih

theorem alSet_mem {α : Type} (m : List (String × α)) (k : String) (v : α) :
    ∀ e ∈ alSet m k v, e ∈ m ∨ e = (k, v) := by
  induction m with
  | nil => simp [alSet]
  | cons hd t ih =>
    intro e he
    by_cases h : hd.1 = k
    · simp only [alSet, if_pos h, List.mem_cons] at he
      rcases he with he | he
      · subst h
        exact Or.inr (by simp [he])
      · exact Or.inl (List.mem_cons_of_mem _ he)
    · simp only [alSet, if_neg h, List.mem_cons] at he
      rcases he with he | he
      · exact Or.inl (by simp [he])
      · rcases ih e he with h' | h'
        · exact Or.inl (List.mem_cons_of_mem _ h')
        · exact Or.inr h'

theorem alGet_mem {α : Type} (m : List (String × α)) (k : String) (v : α)
    (h : alGet m k = some v) : (k, v) ∈ m := by
  induction m with
  | nil => simp [alGet] at h
  | cons hd t ih =>
    by_cases hk : hd.1 = k
    · rw [alGet, List.find?_cons_of_pos _ (by simp [hk])] at h
      rw [List.mem_cons]
      left
      cases hd
      simp_all
    · rw [alGet, List.find?_cons_of_neg _ (by simp [hk])] at h
      exact List.mem_cons_of_mem _ (ih h)

/-! ## Rule validation (`buildPairValidation` in `teams.ts`) -/

/-- An adjacency map from identity key to the set of keys it is linked to. -/
abbrev Adj := List (String × List String)

/-- Membership of a (directed) edge in an adjacency map. -/
def adjMem (m : Adj) (x y : String) : Prop := y ∈ alGetD m x []

instance (m : Adj) (x y : String) : Decidable (adjMem m x y) := by
  unfold adjMem
  infer_instance

/-- `adjacency.get(u)?.add(w)`: add `w` to the set at `u` if the entry exists. -/
def adjAdd (m : Adj) (u w : String) : Adj :=
  match alGet m u with
  | some s => alSet m u (setAdd s w)
  | none => m

/-- Result of `buildPairValidation`. -/
structure PairValidation where
  adjacency : Adj
  invalidMissing : List BlockRule
  invalidSelf : List BlockRule

/-- Loop state of `buildPairValidation`: the result so far plus the set of
canonical pair keys already seen. -/
structure PairState where
  adjacency : Adj
  invalidMissing : List BlockRule
  invalidSelf : List BlockRule
  pairSeen : List String

/-- One iteration of the rule loop in `buildPairValidation`. -/
def pairStep (allKeys presentKeys : List String) (st : PairState) (rule : BlockRule) :
    PairState :=
  let a := normalizeName rule.a
  let b := normalizeName rule.b
  if a = "" ∨ b = "" then st
  else if a = b then { st with invalidSelf := st.invalidSelf ++ [rule] }
  else if a ∉ allKeys ∨ b ∉ allKeys then
    { st with invalidMissing := st.invalidMissing ++ [rule] }
  else if a ∉ presentKeys ∨ b ∉ presentKeys then st
  else
    let pairKey := makePairKey a b
    if pairKey ∈ st.pairSeen then st
    else
      { st with
        adjacency := adjAdd (adjAdd st.adjacency a b) b a
        pairSeen := st.pairSeen ++ [pairKey] }

/-- `buildPairValidation` from `teams.ts`: classify rules and build the
active-rule adjacency over present keys. -/
def buildPairValidation (allKeys presentKeys : List String) (rules : List BlockRule) :
    PairValidation :=
  let adj0 : Adj := presentKeys.foldl (fun m k => alSet m k []) []
  let st := rules.foldl (pairStep allKeys presentKeys)
    { adjacency := adj0, invalidMissing := [], invalidSelf := [], pairSeen := [] }
  { adjacency := st.adjacency, invalidMissing := st.invalidMissing,
    invalidSelf := st.invalidSelf }

theorem setAdd_mem (s : List String) (w y : String) :
    y ∈ setAdd s w ↔ y ∈ s ∨ y = w := by
  unfold setAdd
  by_cases h : w ∈ s
  · simp only [if_pos h]
    constructor
    · exact Or.inl
    · rintro (hy | rfl) <;> assumption
  · simp [if_neg h]

theorem adjMem_adjAdd (m : Adj) (u w x y : String) :
    adjMem (adjAdd m u w) x y ↔
      adjMem m x y ∨ (x = u ∧ y = w ∧ (alGet m u).isSome) := by
  unfold adjAdd
  cases h : alGet m u with
  | none => simp [h]
  | some s =>
    by_cases hx : x = u
    · subst hx
      unfold adjMem alGetD
      rw [alGet_alSet_self, h]
      simp only [Option.getD_some, Option.isSome_some, setAdd_mem]
      tauto
    · unfold adjMem alGetD
      rw [alGet_alSet_ne _ _ _ _ (fun hh => hx hh.symm)]
      simp [hx]

theorem alGet_eq_none_iff {α : Type} (m : List (String × α)) (k : String) :
    alGet m k = none ↔ k ∉ m.map Prod.fst := by
  induction m with
  | nil => simp [alGet]
  | cons hd t ih =>
    by_cases h : hd.1 = k
    · rw [alGet, List.find?_cons_of_pos _ (by simp [h])]
      simp [h]
    · rw [alGet, List.find?_cons_of_neg _ (by simp [h])]
      simp only [List.map_cons, List.mem_cons]
      rw [← alGet]
      constructor
      · intro hn hc
        rcases hc with hc | hc
        · exact h hc.symm
        · exact (ih.mp hn) hc
      · intro hn
        exact ih.mpr (fun hc => hn (Or.inr hc))

theorem keys_alSet {α : Type} (m : List (String × α)) (k : String) (v : α) :
    (alSet m k v).map Prod.fst =
      if k ∈ m.map Prod.fst then m.map Prod.fst else m.map Prod.fst ++ [k] := by
  induction m with
  | nil => simp [alSet]
  | cons hd t ih =>
    by_cases h : hd.1 = k
    · simp [alSet, h]
    · simp only [alSet, if_neg h, List.map_cons, ih, List.mem_cons]
      by_cases hk : k ∈ t.map Prod.fst
      · rw [if_pos hk, if_pos (Or.inr hk)]
      · rw [if_neg hk, if_neg (by rintro (hc | hc); exact h hc.symm; exact hk hc)]
        simp

theorem nodupKeys_alSet {α : Type} (m : List (String × α)) (k : String) (v : α)
    (h : (m.map Prod.fst).Nodup) : ((alSet m k v).map Prod.fst).Nodup := by
  rw [keys_alSet]
  by_cases hk : k ∈ m.map Prod.fst
  · rwa [if_pos hk]
  · rw [if_neg hk]
    rw [List.nodup_append]
    refine ⟨h, List.nodup_singleton k, ?_⟩
    intro x hx hx'
    simp only [List.mem_singleton] at hx'
    exact hk (hx' ▸ hx)

theorem alGet_of_mem_nodup {α : Type} (m : List (String × α)) (k : String) (v : α)
    (hn : (m.map Prod.fst).Nodup) (h : (k, v) ∈ m) : alGet m k = some v := by
  induction m with
  | nil => simp at h
  | cons hd t ih =>
    rcases List.mem_cons.mp h with h' | h'
    · rw [alGet, List.find?_cons_of_pos _ (by simp [← h'])]
      simp [← h']
    · have hk : hd.1 ≠ k := by
        intro he
        have : k ∈ t.map Prod.fst := List.mem_map.mpr ⟨(k, v), h', rfl⟩
        simp only [List.map_cons, List.nodup_cons] at hn
        exact hn.1 (he ▸ this)
      rw [alGet, List.find?_cons_of_neg _ (by simp [hk])]
      exact ih (by simp only [List.map_cons, List.nodup_cons] at hn; exact hn.2) h'

/-- Structural invariant of the adjacency maps produced by
`buildPairValidation`: symmetric, irreflexive, keyed exactly by the present
keys (with no duplicate keys), and with all linked keys present. -/
structure AdjOK (presentKeys : List String) (m : Adj) : Prop where
  symm : ∀ x y, adjMem m x y → adjMem m y x
  irrefl : ∀ x, ¬ adjMem m x x
  entryVal : ∀ e ∈ m, ∀ y ∈ e.2, y ∈ presentKeys
  keyDom : ∀ k, (alGet m k).isSome ↔ k ∈ presentKeys
  keysNodup : (m.map Prod.fst).Nodup

theorem initAdj_get (ks : List String) (m0 : Adj) (k : String) :
    alGet (ks.foldl (fun m k' => alSet m k' ([] : List String)) m0) k =
      if k ∈ ks then some [] else alGet m0 k := by
  induction ks generalizing m0 with
  | nil => simp
  | cons k' t ih =>
    rw [List.foldl_cons, ih]
    by_cases ht : k ∈ t
    · simp [ht]
    · rw [if_neg ht]
      by_cases hk : k' = k
      · subst hk
        simp [alGet_alSet_self]
      · rw [alGet_alSet_ne _ _ _ _ hk]
        simp only [List.mem_cons]
        rw [if_neg (by rintro (hc | hc); exact hk hc.symm; exact ht hc)]

theorem initAdj_keys (ks : List String) :
    ∀ e ∈ ks.foldl (fun m k' => alSet m k' ([] : List String)) ([] : Adj),
      e.2 = ([] : List String) := by
  have main : ∀ (ks : List String) (m0 : Adj),
      (∀ e ∈ m0, e.2 = ([] : List String)) →
      ∀ e ∈ ks.foldl (fun m k' => alSet m k' ([] : List String)) m0,
        e.2 = ([] : List String) := by
    intro ks
    induction ks with
    | nil => intro m0 h; simpa using h
    | cons k' t ih =>
      intro m0 h
      rw [List.foldl_cons]
      refine ih _ ?_
      intro e he
      rcases alSet_mem m0 k' [] e he with h' | h'
      · exact h e h'
      · simp [h']
  exact main ks [] (by simp)

theorem initAdj_nodup (ks : List String) :
    (((ks.foldl (fun m k' => alSet m k' ([] : List String)) ([] : Adj))).map
      Prod.fst).Nodup := by
  have main : ∀ (ks : List String) (m0 : Adj), (m0.map Prod.fst).Nodup →
      (((ks.foldl (fun m k' => alSet m k' ([] : List String)) m0)).map
        Prod.fst).Nodup := by
    intro ks
    induction ks with
    | nil => intro m0 h; simpa using h
    | cons k' t ih =>
      intro m0 h
      rw [List.foldl_cons]
      exact ih _ (nodupKeys_alSet _ _ _ h)
  exact main ks [] (by simp)

/-- The initial adjacency (one empty set per present key) satisfies `AdjOK`. -/
theorem initAdj_ok (presentKeys : List String) :
    AdjOK presentKeys
      (presentKeys.foldl (fun m k' => alSet m k' ([] : List String)) []) := by
  constructor
  · intro x y h
    exfalso
    unfold adjMem alGetD at h
    rw [initAdj_get] at h
    by_cases hx : x ∈ presentKeys <;> simp [hx, alGet] at h
  · intro x h
    unfold adjMem alGetD at h
    rw [initAdj_get] at h
    by_cases hx : x ∈ presentKeys <;> simp [hx, alGet] at h
  · intro e he y hy
    rw [initAdj_keys _ e he] at hy
    simp at hy
  · intro k
    rw [initAdj_get]
    by_cases hk : k ∈ presentKeys <;> simp [hk, alGet]
  · exact initAdj_nodup _

theorem alGet_adjAdd_isSome (m : Adj) (u w k : String) :
    (alGet (adjAdd m u w) k).isSome = (alGet m k).isSome := by
  unfold adjAdd
  cases h : alGet m u with
  | none => rfl
  | some s =>
    by_cases hk : u = k
    · subst hk
      rw [alGet_alSet_self, h]
      rfl
    · rw [alGet_alSet_ne _ _ _ _ hk]

theorem adjAdd_entryVal {P : String → Prop} (m : Adj) (u w : String)
    (hm : ∀ e ∈ m, ∀ y ∈ e.2, P y) (hw : P w) :
    ∀ e ∈ adjAdd m u w, ∀ y ∈ e.2, P y := by
  unfold adjAdd
  cases h : alGet m u with
  | none => exact hm
  | some s =>
    intro e he y hy
    rcases alSet_mem _ _ _ e he with h' | h'
    · exact hm e h' y hy
    · subst h'
      simp only at hy
      rcases (setAdd_mem s w y).mp hy with h'' | h''
      · exact hm (u, s) (alGet_mem _ _ _ h) y h''
      · exact h'' ▸ hw

theorem keys_adjAdd (m : Adj) (u w : String) :
    (adjAdd m u w).map Prod.fst = m.map Prod.fst := by
  unfold adjAdd
  cases h : alGet m u with
  | none => rfl
  | some s =>
    rw [keys_alSet, if_pos]
    have : ¬ (alGet m u = none) := by simp [h]
    rw [alGet_eq_none_iff] at this
    exact not_not.mp this

theorem adjMem_adjAdd_mono (m : Adj) (u w x y : String) (h : adjMem m x y) :
    adjMem (adjAdd m u w) x y :=
  (adjMem_adjAdd m u w x y).mpr (Or.inl h)

/-- Effect of adding one undirected edge between two present keys. -/
theorem adjMem_addEdge (presentKeys : List String) (m : Adj) (a b : String)
    (hOK : AdjOK presentKeys m) (ha : a ∈ presentKeys) (hb : b ∈ presentKeys) :
    ∀ x y, adjMem (adjAdd (adjAdd m a b) b a) x y ↔
      adjMem m x y ∨ (x = a ∧ y = b) ∨ (x = b ∧ y = a) := by
  intro x y
  have hsa : (alGet m a).isSome := (hOK.keyDom a).mpr ha
  have hsb : (alGet (adjAdd m a b) b).isSome := by
    rw [alGet_adjAdd_isSome]
    exact (hOK.keyDom b).mpr hb
  rw [adjMem_adjAdd, adjMem_adjAdd]
  constructor
  · rintro ((h | h) | h)
    · exact Or.inl h
    · exact Or.inr (Or.inl ⟨h.1, h.2.1⟩)
    · exact Or.inr (Or.inr ⟨h.1, h.2.1⟩)
  · rintro (h | h | h)
    · exact Or.inl (Or.inl h)
    · exact Or.inl (Or.inr ⟨h.1, h.2, hsa⟩)
    · exact Or.inr ⟨h.1, h.2, hsb⟩

/-- Invariant carried through the rule loop of `buildPairValidation`. -/
structure PairInv (presentKeys : List String) (st : PairState) : Prop where
  adjOK : AdjOK presentKeys st.adjacency
  seenSound : ∀ pk ∈ st.pairSeen,
    ∃ x y, adjMem st.adjacency x y ∧ pk = makePairKey x y

theorem pairStep_cases (allKeys presentKeys : List String) (st : PairState)
    (rule : BlockRule) :
    ((pairStep allKeys presentKeys st rule).adjacency = st.adjacency ∧
     (pairStep allKeys presentKeys st rule).pairSeen = st.pairSeen) ∨
    ∃ a b, a = normalizeName rule.a ∧ b = normalizeName rule.b ∧
      a ≠ "" ∧ b ≠ "" ∧ a ≠ b ∧ a ∈ allKeys ∧ b ∈ allKeys ∧
      a ∈ presentKeys ∧ b ∈ presentKeys ∧ makePairKey a b ∉ st.pairSeen ∧
      (pairStep allKeys presentKeys st rule).adjacency =
        adjAdd (adjAdd st.adjacency a b) b a ∧
      (pairStep allKeys presentKeys st rule).pairSeen =
        st.pairSeen ++ [makePairKey a b] := by
  unfold pairStep
  dsimp only
  split_ifs with h1 h2 h3 h4 h5
  · exact Or.inl ⟨rfl, rfl⟩
  · exact Or.inl ⟨rfl, rfl⟩
  · exact Or.inl ⟨rfl, rfl⟩
  · exact Or.inl ⟨rfl, rfl⟩
  · exact Or.inl ⟨rfl, rfl⟩
  · push_neg at h1 h3 h4
    exact Or.inr ⟨_, _, rfl, rfl, h1.1, h1.2, h2, h3.1, h3.2, h4.1, h4.2, h5,
      rfl, rfl⟩

theorem pairStep_inv (allKeys presentKeys : List String) (st : PairState)
    (rule : BlockRule) (h : PairInv presentKeys st) :
    PairInv presentKeys (pairStep allKeys presentKeys st rule) := by
  rcases pairStep_cases allKeys presentKeys st rule with ⟨ha, hs⟩ |
    ⟨a, b, _, _, _, _, hab, _, _, hap, hbp, _, ha, hs⟩
  · constructor
    · rw [ha]
      exact h.adjOK
    · intro pk hpk
      rw [hs] at hpk
      rw [ha]
      exact h.seenSound pk hpk
  · have hedge := adjMem_addEdge presentKeys st.adjacency a b h.adjOK hap hbp
    constructor
    · rw [ha]
      constructor
      · intro x y hxy
        rcases (hedge x y).mp hxy with h' | h' | h'
        · exact (hedge y x).mpr (Or.inl (h.adjOK.symm x y h'))
        · exact (hedge y x).mpr (Or.inr (Or.inr ⟨h'.2, h'.1⟩))
        · exact (hedge y x).mpr (Or.inr (Or.inl ⟨h'.2, h'.1⟩))
      · intro x hx
        rcases (hedge x x).mp hx with h' | h' | h'
        · exact h.adjOK.irrefl x h'
        · exact hab (h'.1.symm.trans h'.2)
        · exact hab (h'.2.symm.trans h'.1)
      · refine adjAdd_entryVal _ _ _ (adjAdd_entryVal _ _ _ ?_ hbp) hap
        exact h.adjOK.entryVal
      · intro k
        rw [alGet_adjAdd_isSome, alGet_adjAdd_isSome]
        exact h.adjOK.keyDom k
      · rw [keys_adjAdd, keys_adjAdd]
        exact h.adjOK.keysNodup
    · intro pk hpk
      rw [hs] at hpk
      rcases List.mem_append.mp hpk with hpk' | hpk'
      · obtain ⟨x, y, hxy, hk⟩ := h.seenSound pk hpk'
        exact ⟨x, y, ha ▸ adjMem_adjAdd_mono _ _ _ _ _
          (adjMem_adjAdd_mono _ _ _ _ _ hxy), hk⟩
      · refine ⟨a, b, ?_, by simpa using hpk'⟩
        rw [ha]
        exact (hedge a b).mpr (Or.inr (Or.inl ⟨rfl, rfl⟩))

theorem adjMem_isSome (m : Adj) (x y : String) (h : adjMem m x y) :
    (alGet m x).isSome := by
  unfold adjMem alGetD at h
  cases hg : alGet m x with
  | none => rw [hg] at h; simp at h
  | some s => simp

theorem pairStep_invalidSelf_mem (allKeys presentKeys : List String)
    (st : PairState) (rule r' : BlockRule) (h : r' ∈ st.invalidSelf) :
    r' ∈ (pairStep allKeys presentKeys st rule).invalidSelf := by
  unfold pairStep
  dsimp only
  split_ifs <;> simp [h]

theorem pairStep_invalidMissing_mem (allKeys presentKeys : List String)
    (st : PairState) (rule r' : BlockRule) (h : r' ∈ st.invalidMissing) :
    r' ∈ (pairStep allKeys presentKeys st rule).invalidMissing := by
  unfold pairStep
  dsimp only
  split_ifs <;> simp [h]

theorem pairStep_adj_mono (allKeys presentKeys : List String) (st : PairState)
    (rule : BlockRule) (x y : String) (h : adjMem st.adjacency x y) :
    adjMem (pairStep allKeys presentKeys st rule).adjacency x y := by
  rcases pairStep_cases allKeys presentKeys st rule with ⟨ha, _⟩ |
    ⟨a, b, _, _, _, _, _, _, _, _, _, _, ha, _⟩
  · rw [ha]; exact h
  · rw [ha]
    exact adjMem_adjAdd_mono _ _ _ _ _ (adjMem_adjAdd_mono _ _ _ _ _ h)

theorem pairFold_invalidSelf_mono (allKeys presentKeys : List String)
    (rules : List BlockRule) (st : PairState) (r' : BlockRule)
    (h : r' ∈ st.invalidSelf) :
    r' ∈ (rules.foldl (pairStep allKeys presentKeys) st).invalidSelf := by
  induction rules generalizing st with
  | nil => exact h
  | cons hd t ih =>
    exact ih _ (pairStep_invalidSelf_mem allKeys presentKeys st hd r' h)

theorem pairFold_invalidMissing_mono (allKeys presentKeys : List String)
    (rules : List BlockRule) (st : PairState) (r' : BlockRule)
    (h : r' ∈ st.invalidMissing) :
    r' ∈ (rules.foldl (pairStep allKeys presentKeys) st).invalidMissing := by
  induction rules generalizing st with
  | nil => exact h
  | cons hd t ih =>
    exact ih _ (pairStep_invalidMissing_mem allKeys presentKeys st hd r' h)

theorem pairFold_adj_mono (allKeys presentKeys : List String)
    (rules : List BlockRule) (st : PairState) (x y : String)
    (h : adjMem st.adjacency x y) :
    adjMem (rules.foldl (pairStep allKeys presentKeys) st).adjacency x y := by
  induction rules generalizing st with
  | nil => exact h
  | cons hd t ih =>
    exact ih _ (pairStep_adj_mono allKeys presentKeys st hd x y h)

theorem pairFold_inv (allKeys presentKeys : List String) (rules : List BlockRule)
    (st : PairState) (h : PairInv presentKeys st) :
    PairInv presentKeys (rules.foldl (pairStep allKeys presentKeys) st) := by
  induction rules generalizing st with
  | nil => exact h
  | cons hd t ih => exact ih _ (pairStep_inv allKeys presentKeys st hd h)

/-- A rule whose two sides normalize to the same non-empty key lands in
`invalidSelf`. -/
theorem pairStep_self_intro (allKeys presentKeys : List String) (st : PairState)
    (rule : BlockRule) (h1 : normalizeName rule.a ≠ "")
    (h2 : normalizeName rule.a = normalizeName rule.b) :
    rule ∈ (pairStep allKeys presentKeys st rule).invalidSelf := by
  unfold pairStep
  dsimp only
  rw [if_neg (by rw [← h2]; simpa using h1), if_pos h2]
  simp

/-- A rule with non-empty, distinct sides referencing a key outside the full
roster lands in `invalidMissing`. -/
theorem pairStep_missing_intro (allKeys presentKeys : List String)
    (st : PairState) (rule : BlockRule) (h1 : normalizeName rule.a ≠ "")
    (h2 : normalizeName rule.b ≠ "") (h3 : normalizeName rule.a ≠ normalizeName rule.b)
    (h4 : normalizeName rule.a ∉ allKeys ∨ normalizeName rule.b ∉ allKeys) :
    rule ∈ (pairStep allKeys presentKeys st rule).invalidMissing := by
  unfold pairStep
  dsimp only
  rw [if_neg (by simp [h1, h2]), if_neg h3, if_pos h4]
  simp

/-- Behaviour of `pairStep` on an active rule: either the canonical pair key
was already seen (state unchanged), or the edge is added. -/
theorem pairStep_active (allKeys presentKeys : List String) (st : PairState)
    (rule : BlockRule) (h1 : normalizeName rule.a ≠ "")
    (h2 : normalizeName rule.b ≠ "")
    (h3 : normalizeName rule.a ≠ normalizeName rule.b)
    (h4 : normalizeName rule.a ∈ allKeys) (h5 : normalizeName rule.b ∈ allKeys)
    (h6 : normalizeName rule.a ∈ presentKeys)
    (h7 : normalizeName rule.b ∈ presentKeys) :
    (makePairKey (normalizeName rule.a) (normalizeName rule.b) ∈ st.pairSeen ∧
      pairStep allKeys presentKeys st rule = st) ∨
    (pairStep allKeys presentKeys st rule).adjacency =
      adjAdd (adjAdd st.adjacency (normalizeName rule.a) (normalizeName rule.b))
        (normalizeName rule.b) (normalizeName rule.a) := by
  unfold pairStep
  dsimp only
  rw [if_neg (by simp [h1, h2]), if_neg h3, if_neg (by simp [h4, h5]),
    if_neg (by simp [h6, h7])]
  by_cases hseen :
      makePairKey (normalizeName rule.a) (normalizeName rule.b) ∈ st.pairSeen
  · rw [if_pos hseen]
    exact Or.inl ⟨hseen, rfl⟩
  · rw [if_neg hseen]
    exact Or.inr rfl

/-- Collision-freedom of canonical pair keys over a set of keys: distinct
unordered pairs have distinct `makePairKey` values.  The code relies on this
implicitly; it can fail when key strings contain the separator `"||"`. -/
def pairKeyInjOn (keys : List String) : Prop :=
  ∀ x ∈ keys, ∀ y ∈ keys, ∀ u ∈ keys, ∀ v ∈ keys,
    makePairKey x y = makePairKey u v → (x = u ∧ y = v) ∨ (x = v ∧ y = u)

/-- Under collision-freedom, every active rule contributes its edge to the
adjacency built by the rule loop. -/
theorem pairFold_edge_intro (allKeys presentKeys : List String)
    (rules : List BlockRule) (st : PairState) (hinv : PairInv presentKeys st)
    (hcf : pairKeyInjOn presentKeys) (rule : BlockRule) (hr : rule ∈ rules)
    (h1 : normalizeName rule.a ≠ "") (h2 : normalizeName rule.b ≠ "")
    (h3 : normalizeName rule.a ≠ normalizeName rule.b)
    (h4 : normalizeName rule.a ∈ allKeys) (h5 : normalizeName rule.b ∈ allKeys)
    (h6 : normalizeName rule.a ∈ presentKeys)
    (h7 : normalizeName rule.b ∈ presentKeys) :
    adjMem (rules.foldl (pairStep allKeys presentKeys) st).adjacency
      (normalizeName rule.a) (normalizeName rule.b) := by
  induction rules generalizing st with
  | nil => simp at hr
  | cons hd t ih =>
    rw [List.foldl_cons]
    rcases List.mem_cons.mp hr with hr' | hr'
    · subst hr'
      rcases pairStep_active allKeys presentKeys st rule h1 h2 h3 h4 h5 h6 h7
        with ⟨hseen, heq⟩ | hadd
      · -- the canonical key was seen before: recover the edge from the
        -- invariant and collision-freedom
        obtain ⟨x, y, hxy, hk⟩ := hinv.seenSound _ hseen
        have hx : x ∈ presentKeys := by
          have := adjMem_isSome _ _ _ hxy
          exact (hinv.adjOK.keyDom x).mp this
        have hy : y ∈ presentKeys := by
          obtain ⟨s, hs⟩ := Option.isSome_iff_exists.mp (adjMem_isSome _ _ _ hxy)
          have := hinv.adjOK.entryVal (x, s) (alGet_mem _ _ _ hs) y
          refine this ?_
          unfold adjMem alGetD at hxy
          rw [hs] at hxy
          exact hxy
        have hedge : adjMem st.adjacency (normalizeName rule.a)
            (normalizeName rule.b) := by
          rcases hcf x hx y hy (normalizeName rule.a) h6 (normalizeName rule.b)
            h7 hk.symm with ⟨hxu, hyv⟩ | ⟨hxv, hyu⟩
          · exact hxu ▸ hyv ▸ hxy
          · exact hyu ▸ hxv ▸ hinv.adjOK.symm x y hxy
        rw [heq]
        exact pairFold_adj_mono allKeys presentKeys t st _ _ hedge
      · refine pairFold_adj_mono allKeys presentKeys t _ _ _ ?_
        rw [hadd]
        exact (adjMem_addEdge presentKeys st.adjacency _ _ hinv.adjOK h6 h7 _ _).mpr
          (Or.inr (Or.inl ⟨rfl, rfl⟩))
    · exact ih _ (pairStep_inv allKeys presentKeys st hd hinv) hr'

/-- The adjacency produced by `buildPairValidation` satisfies `AdjOK`. -/
theorem buildPairValidation_adjOK (allKeys presentKeys : List String)
    (rules : List BlockRule) :
    AdjOK presentKeys (buildPairValidation allKeys presentKeys rules).adjacency := by
  unfold buildPairValidation
  exact (pairFold_inv allKeys presentKeys rules _
    ⟨initAdj_ok presentKeys, by simp⟩).adjOK

theorem buildPairValidation_self_mem (allKeys presentKeys : List String)
    (rules : List BlockRule) (rule : BlockRule) (hr : rule ∈ rules)
    (h1 : normalizeName rule.a ≠ "")
    (h2 : normalizeName rule.a = normalizeName rule.b) :
    rule ∈ (buildPairValidation allKeys presentKeys rules).invalidSelf := by
  unfold buildPairValidation
  dsimp only
  obtain ⟨l1, l2, hsplit⟩ := List.append_of_mem hr
  subst hsplit
  rw [List.foldl_append, List.foldl_cons]
  exact pairFold_invalidSelf_mono allKeys presentKeys l2 _ rule
    (pairStep_self_intro allKeys presentKeys _ rule h1 h2)

theorem buildPairValidation_missing_mem (allKeys presentKeys : List String)
    (rules : List BlockRule) (rule : BlockRule) (hr : rule ∈ rules)
    (h1 : normalizeName rule.a ≠ "") (h2 : normalizeName rule.b ≠ "")
    (h3 : normalizeName rule.a ≠ normalizeName rule.b)
    (h4 : normalizeName rule.a ∉ allKeys ∨ normalizeName rule.b ∉ allKeys) :
    rule ∈ (buildPairValidation allKeys presentKeys rules).invalidMissing := by
  unfold buildPairValidation
  dsimp only
  obtain ⟨l1, l2, hsplit⟩ := List.append_of_mem hr
  subst hsplit
  rw [List.foldl_append, List.foldl_cons]
  exact pairFold_invalidMissing_mono allKeys presentKeys l2 _ rule
    (pairStep_missing_intro allKeys presentKeys _ rule h1 h2 h3 h4)

/-- Under collision-freedom, `buildPairValidation` records an edge for every
active rule. -/
theorem buildPairValidation_edge (allKeys presentKeys : List String)
    (rules : List BlockRule) (hcf : pairKeyInjOn presentKeys) (rule : BlockRule)
    (hr : rule ∈ rules) (h1 : normalizeName rule.a ≠ "")
    (h2 : normalizeName rule.b ≠ "")
    (h3 : normalizeName rule.a ≠ normalizeName rule.b)
    (h4 : normalizeName rule.a ∈ allKeys) (h5 : normalizeName rule.b ∈ allKeys)
    (h6 : normalizeName rule.a ∈ presentKeys)
    (h7 : normalizeName rule.b ∈ presentKeys) :
    adjMem (buildPairValidation allKeys presentKeys rules).adjacency
      (normalizeName rule.a) (normalizeName rule.b) := by
  unfold buildPairValidation
  exact pairFold_edge_intro allKeys presentKeys rules _
    ⟨initAdj_ok presentKeys, by simp⟩ hcf rule hr h1 h2 h3 h4 h5 h6 h7

/-! ## Union-find (`createDisjointSet` in `teams.ts`)

The source `find` is recursive with path compression on a mutable `Map`.
We model the parent map as an association list and give `find` explicit
fuel; `keys.length + 1` fuel is proved sufficient on every state the
program builds (`UFInv` below). -/

/-- Parent map of the disjoint set. -/
abbrev PMap := List (String × String)

/-- Parent pointer: a missing entry behaves as a root (the source `find`
returns `value` when `parent.get(value)` is undefined). -/
def pfun (p : PMap) (x : String) : String := (alGet p x).getD x

/-- Iterated parent pointer. -/
def iterP (p : PMap) : Nat → String → String
| 0, x => x
| n + 1, x => iterP p n (pfun p x)

/-- The chain from `x` reaches a fixpoint within `n` steps. -/
def rootReached (p : PMap) (x : String) (n : Nat) : Prop :=
  pfun p (iterP p n x) = iterP p n x

instance (p : PMap) (x : String) (n : Nat) : Decidable (rootReached p x n) := by
  unfold rootReached
  infer_instance

/-- Invariant of every parent map the program constructs: entries stay
inside the key universe and every chain terminates. -/
structure UFInv (keys : List String) (p : PMap) : Prop where
  entries : ∀ e ∈ p, e.1 ∈ keys ∧ e.2 ∈ keys
  term : ∀ x, ∃ n, rootReached p x n

/-- Root of `x`: the parent chain iterated `keys.length + 1` times, which
under `UFInv` always reaches the fixpoint. -/
def rootF (keys : List String) (p : PMap) (x : String) : String :=
  iterP p (keys.length + 1) x

/-- `x` reaches `r` along the parent chain. -/
def Reach (p : PMap) (x r : String) : Prop := ∃ n, iterP p n x = r

theorem iterP_tail (p : PMap) (n : Nat) (x : String) :
    iterP p (n + 1) x = pfun p (iterP p n x) := by
  induction n generalizing x with
  | zero => rfl
  | succ m ih =>
    show iterP p (m + 1) (pfun p x) = _
    rw [ih (pfun p x)]
    rfl

theorem iterP_head (p : PMap) (n : Nat) (x : String) :
    iterP p (n + 1) x = iterP p n (pfun p x) := rfl

theorem iterP_add (p : PMap) (m n : Nat) (x : String) :
    iterP p (m + n) x = iterP p n (iterP p m x) := by
  induction m generalizing x with
  | zero => rw [Nat.zero_add]; rfl
  | succ k ih =>
    have h : k + 1 + n = (k + n) + 1 := by omega
    rw [h, iterP_head, iterP_head, ih]

theorem rootReached_succ (p : PMap) (x : String) (n : Nat)
    (h : rootReached p x n) :
    iterP p (n + 1) x = iterP p n x ∧ rootReached p x (n + 1) := by
  have h1 : iterP p (n + 1) x = iterP p n x := by
    rw [iterP_tail]
    exact h
  exact ⟨h1, by unfold rootReached; rw [h1]; exact h⟩

theorem rootReached_mono (p : PMap) (x : String) (n m : Nat)
    (h : rootReached p x n) (hnm : n ≤ m) :
    rootReached p x m ∧ iterP p m x = iterP p n x := by
  induction m with
  | zero =>
    have : n = 0 := Nat.le_zero.mp hnm
    subst this
    exact ⟨h, rfl⟩
  | succ k ih =>
    rcases Nat.lt_or_ge n (k + 1) with hlt | hge
    · have hk : n ≤ k := Nat.lt_succ_iff.mp hlt
      obtain ⟨hr, he⟩ := ih hk
      obtain ⟨he', hr'⟩ := rootReached_succ p x k hr
      exact ⟨hr', he'.trans he⟩
    · have : n = k + 1 := Nat.le_antisymm hnm hge
      subst this
      exact ⟨h, rfl⟩

theorem iterP_of_root (p : PMap) (x : String) (h : pfun p x = x) (n : Nat) :
    iterP p n x = x := by
  induction n with
  | zero => rfl
  | succ k ih =>
    rw [iterP_head, h]
    exact ih

theorem pfun_mem_keys (keys : List String) (p : PMap)
    (inv : UFInv keys p) (x : String) (hx : x ∈ keys) : pfun p x ∈ keys := by
  unfold pfun
  cases h : alGet p x with
  | none => exact hx
  | some v => exact (inv.entries (x, v) (alGet_mem _ _ _ h)).2

theorem iterP_mem_keys (keys : List String) (p : PMap)
    (inv : UFInv keys p) (x : String) (hx : x ∈ keys) (n : Nat) :
    iterP p n x ∈ keys := by
  induction n generalizing x with
  | zero => exact hx
  | succ k ih =>
    rw [iterP_head]
    exact ih (pfun p x) (pfun_mem_keys keys p inv x hx)

theorem nonroot_mem_keys (keys : List String) (p : PMap)
    (inv : UFInv keys p) (x : String) (hx : pfun p x ≠ x) : x ∈ keys := by
  unfold pfun at hx
  cases h : alGet p x with
  | none => rw [h] at hx; simp at hx
  | some v => exact (inv.entries (x, v) (alGet_mem _ _ _ h)).1

/-- Pigeonhole bound: under the invariant every chain reaches its root
within `keys.length` steps. -/
theorem rootReached_bound (keys : List String) (p : PMap)
    (inv : UFInv keys p) (x : String) : rootReached p x keys.length := by
  obtain ⟨n, hn⟩ := inv.term x
  have hex : ∃ k, rootReached p x k := ⟨n, hn⟩
  set m := Nat.find hex with hm
  have hspec : rootReached p x m := Nat.find_spec hex
  have hmin : ∀ k < m, ¬ rootReached p x k := fun k hk => Nat.find_min hex hk
  have hle : m ≤ keys.length := by
    by_contra hgt
    push_neg at hgt
    -- the first `m` iterates are pairwise distinct members of `keys`
    have hinj : ∀ i ∈ List.range m, ∀ j ∈ List.range m,
        iterP p i x = iterP p j x → i = j := by
      have key : ∀ i j, i < j → j < m → iterP p i x = iterP p j x → False := by
        intro i j hij hjm heq
        have hshift : ∀ t, iterP p (i + t) x = iterP p (j + t) x := by
          intro t
          rw [iterP_add, iterP_add, heq]
        have harith : i + (m - j) < m := by omega
        have : rootReached p x (i + (m - j)) := by
          unfold rootReached
          rw [hshift (m - j)]
          have : j + (m - j) = m := by omega
          rw [this]
          exact hspec
        exact hmin _ harith this
      intro i hi j hj heq
      simp only [List.mem_range] at hi hj
      rcases Nat.lt_trichotomy i j with h | h | h
      · exact absurd heq (fun he => key i j h hj he)
      · exact h
      · exact absurd heq.symm (fun he => key j i h hi he)
    have hnodup : ((List.range m).map (fun i => iterP p i x)).Nodup :=
      (List.nodup_range m).map_on hinj
    have hsub : ∀ y ∈ (List.range m).map (fun i => iterP p i x), y ∈ keys := by
      intro y hy
      obtain ⟨i, hi, hiy⟩ := List.mem_map.mp hy
      simp only [List.mem_range] at hi
      have : pfun p (iterP p i x) ≠ iterP p i x := hmin i hi
      exact hiy ▸ nonroot_mem_keys keys p inv _ this
    have hcard : m ≤ keys.length := by
      have h1 : ((List.range m).map (fun i => iterP p i x)).toFinset.card = m := by
        rw [List.toFinset_card_of_nodup hnodup]
        simp
      have h2 : ((List.range m).map (fun i => iterP p i x)).toFinset ⊆
          keys.toFinset := by
        intro y hy
        rw [List.mem_toFinset] at hy ⊢
        exact hsub y hy
      calc m = _ := h1.symm
      _ ≤ keys.toFinset.card := Finset.card_le_card h2
      _ ≤ keys.length := List.toFinset_card_le keys
    omega
  exact (rootReached_mono p x m keys.length hspec hle).1

theorem rootF_isRoot (keys : List String) (p : PMap) (inv : UFInv keys p)
    (x : String) : pfun p (rootF keys p x) = rootF keys p x := by
  have hb := rootReached_bound keys p inv x
  have := (rootReached_succ p x keys.length hb).2
  unfold rootReached at this
  exact this

theorem rootF_eq_iter_len (keys : List String) (p : PMap) (inv : UFInv keys p)
    (x : String) : rootF keys p x = iterP p keys.length x := by
  have hb := rootReached_bound keys p inv x
  exact (rootReached_succ p x keys.length hb).1

theorem reach_rootF (keys : List String) (p : PMap) (x : String) :
    Reach p x (rootF keys p x) := ⟨keys.length + 1, rfl⟩

theorem rootF_unique (keys : List String) (p : PMap) (inv : UFInv keys p)
    (x r : String) (hr : Reach p x r) (hroot : pfun p r = r) :
    r = rootF keys p x := by
  obtain ⟨n, hn⟩ := hr
  have hrr : rootReached p x n := by
    unfold rootReached
    rw [hn, hroot]
  rcases Nat.le_total n (keys.length + 1) with h | h
  · have := (rootReached_mono p x n (keys.length + 1) hrr h).2
    unfold rootF
    rw [this, hn]
  · have hb := rootReached_bound keys p inv x
    have h1 := (rootReached_mono p x keys.length n hb (by omega)).2
    have h2 := (rootReached_mono p x keys.length (keys.length + 1) hb
      (by omega)).2
    unfold rootF
    rw [h2, ← h1, hn]

theorem rootF_step (keys : List String) (p : PMap) (inv : UFInv keys p)
    (x : String) : rootF keys p x = rootF keys p (pfun p x) := by
  have h1 : rootF keys p x = iterP p keys.length (pfun p x) := by
    unfold rootF
    rw [iterP_head]
  rw [h1, ← rootF_eq_iter_len keys p inv (pfun p x)]

theorem rootF_of_root (keys : List String) (p : PMap) (x : String)
    (h : pfun p x = x) : rootF keys p x = x := iterP_of_root p x h _

theorem root_of_rootF_self (keys : List String) (p : PMap) (inv : UFInv keys p)
    (z : String) (h : rootF keys p z = z) : pfun p z = z := by
  have := rootF_isRoot keys p inv z
  rwa [h] at this

theorem rootF_mem (keys : List String) (p : PMap) (inv : UFInv keys p)
    (x : String) (hx : x ∈ keys) : rootF keys p x ∈ keys :=
  iterP_mem_keys keys p inv x hx _

theorem pfun_alSet (p : PMap) (v w y : String) :
    pfun (alSet p v w) y = if y = v then w else pfun p y := by
  by_cases h : y = v
  · subst h
    unfold pfun
    rw [alGet_alSet_self]
    simp
  · unfold pfun
    rw [alGet_alSet_ne _ _ _ _ (fun he => h he.symm)]
    simp [h]

theorem reach_cons (p : PMap) (x y r : String) (hxy : pfun p x = y)
    (h : Reach p y r) : Reach p x r := by
  obtain ⟨n, hn⟩ := h
  exact ⟨n + 1, by rw [iterP_head, hxy]; exact hn⟩

/-- Central update lemma: writing `v ↦ w` where `w` is a root and either
`w` is `v`'s current root (path compression) or `v` is itself a root
(union of two roots) rewires exactly the chains that ended at `v`, and
preserves the invariant. -/
theorem uf_set_rootF (keys : List String) (p : PMap) (v w : String)
    (inv : UFInv keys p) (hw : pfun p w = w) (hvk : v ∈ keys) (hwk : w ∈ keys)
    (hv : w = rootF keys p v ∨ pfun p v = v) :
    UFInv keys (alSet p v w) ∧
    ∀ x, rootF keys (alSet p v w) x =
      if rootF keys p x = v then w else rootF keys p x := by
  set p' := alSet p v w with hp'
  have hpf : ∀ y, pfun p' y = if y = v then w else pfun p y :=
    fun y => pfun_alSet p v w y
  -- the rewired target of each chain
  set tgt : String → String :=
    fun x => if rootF keys p x = v then w else rootF keys p x with htgt
  have htgt_root : ∀ x, pfun p' (tgt x) = tgt x := by
    intro x
    by_cases hc : rootF keys p x = v
    · simp only [htgt, if_pos hc]
      by_cases hwv : w = v
      · rw [hpf, if_pos hwv, hwv]
      · rw [hpf, if_neg hwv]
        exact hw
    · simp only [htgt, if_neg hc]
      rw [hpf, if_neg hc]
      exact rootF_isRoot keys p inv x
  have hreach : ∀ n x, rootReached p x n → Reach p' x (tgt x) := by
    intro n
    induction n with
    | zero =>
      intro x hx
      -- `x` is a root of `p`
      have hroot : pfun p x = x := hx
      have hrfx : rootF keys p x = x := rootF_of_root keys p x hroot
      by_cases hxv : x = v
      · have hc : rootF keys p x = v := by rw [hrfx, hxv]
        simp only [htgt, if_pos hc]
        refine ⟨1, ?_⟩
        rw [iterP_head]
        show pfun p' x = w
        rw [hpf, if_pos hxv]
      · have hc : rootF keys p x ≠ v := by rw [hrfx]; exact hxv
        simp only [htgt, if_neg hc]
        rw [hrfx]
        exact ⟨0, rfl⟩
    | succ k ih =>
      intro x hx
      by_cases hroot : pfun p x = x
      · -- still a root: same argument as the base case
        have hrfx : rootF keys p x = x := rootF_of_root keys p x hroot
        by_cases hxv : x = v
        · have hc : rootF keys p x = v := by rw [hrfx, hxv]
          simp only [htgt, if_pos hc]
          refine ⟨1, ?_⟩
          rw [iterP_head]
          show pfun p' x = w
          rw [hpf, if_pos hxv]
        · have hc : rootF keys p x ≠ v := by rw [hrfx]; exact hxv
          simp only [htgt, if_neg hc]
          rw [hrfx]
          exact ⟨0, rfl⟩
      · by_cases hxv : x = v
        · -- `v` is not a root, so `w` is its root by hypothesis
          rcases hv with hv' | hv'
          · have hne : rootF keys p x ≠ v := by
              intro he
              apply hroot
              have h1 := rootF_isRoot keys p inv x
              rw [he, ← hxv] at h1
              exact h1
            simp only [htgt, if_neg hne]
            rw [hxv, ← hv']
            refine ⟨1, ?_⟩
            rw [iterP_head]
            show pfun p' v = w
            rw [hpf, if_pos rfl]
          · refine absurd ?_ hroot
            rw [hxv]
            exact hv'
        · -- interior step: follow the unchanged pointer
          have hstep : pfun p' x = pfun p x := by rw [hpf, if_neg hxv]
          have hrr : rootReached p (pfun p x) k := by
            unfold rootReached at hx ⊢
            rwa [← iterP_head]
          have hsame : rootF keys p x = rootF keys p (pfun p x) :=
            rootF_step keys p inv x
          have := ih (pfun p x) hrr
          refine reach_cons p' x (pfun p x) _ hstep ?_
          simpa only [htgt, hsame] using this
  have hinv' : UFInv keys p' := by
    constructor
    · intro e he
      rcases alSet_mem p v w e he with h' | h'
      · exact inv.entries e h'
      · exact h' ▸ ⟨hvk, hwk⟩
    · intro x
      obtain ⟨n, hn⟩ := inv.term x
      obtain ⟨n', hn'⟩ := hreach n x hn
      exact ⟨n', by unfold rootReached; rw [hn', htgt_root x]⟩
  refine ⟨hinv', ?_⟩
  intro x
  obtain ⟨n, hn⟩ := inv.term x
  exact (rootF_unique keys p' hinv' x _ (hreach n x hn) (htgt_root x)).symm

/-- The source `find` with path compression, with explicit fuel.  The
program always calls it with fuel `keys.length + 1`, which `findF_spec`
proves sufficient. -/
def findF : Nat → PMap → String → String × PMap
| 0, p, v => (v, p)
| fuel + 1, p, v =>
    match alGet p v with
    | none => (v, p)
    | some w =>
      if w = v then (v, p)
      else
        let r := findF fuel p w
        (r.1, alSet r.2 v r.1)

theorem findF_spec (keys : List String) (fuel n : Nat) (p : PMap) (v : String)
    (inv : UFInv keys p) (hvk : v ∈ keys) (hn : rootReached p v n)
    (hfuel : n < fuel) :
    (findF fuel p v).1 = rootF keys p v ∧ UFInv keys (findF fuel p v).2 ∧
    ∀ x, rootF keys (findF fuel p v).2 x = rootF keys p x := by
  induction n generalizing fuel p v with
  | zero =>
    -- `v` is a root
    have hroot : pfun p v = v := hn
    obtain ⟨f, rfl⟩ : ∃ f, fuel = f + 1 := ⟨fuel - 1, by omega⟩
    have hrf : rootF keys p v = v := rootF_of_root keys p v hroot
    unfold pfun at hroot
    cases hg : alGet p v with
    | none => simp [findF, hg, hrf, inv]
    | some w =>
      have hwv : w = v := by rw [hg] at hroot; simpa using hroot
      simp [findF, hg, hwv, hrf, inv]
  | succ k ih =>
    by_cases hroot : pfun p v = v
    · -- already a root: rootReached holds at 0
      have h0 : rootReached p v 0 := hroot
      obtain ⟨f, rfl⟩ : ∃ f, fuel = f + 1 := ⟨fuel - 1, by omega⟩
      have hrf : rootF keys p v = v := rootF_of_root keys p v hroot
      unfold pfun at hroot
      cases hg : alGet p v with
      | none => simp [findF, hg, hrf, inv]
      | some w =>
        have hwv : w = v := by rw [hg] at hroot; simpa using hroot
        simp [findF, hg, hwv, hrf, inv]
    · obtain ⟨f, rfl⟩ : ∃ f, fuel = f + 1 := ⟨fuel - 1, by omega⟩
      have hg : ∃ w, alGet p v = some w ∧ w ≠ v := by
        unfold pfun at hroot
        cases hg : alGet p v with
        | none => rw [hg] at hroot; simp at hroot
        | some w =>
          rw [hg] at hroot
          exact ⟨w, rfl, by simpa using hroot⟩
      obtain ⟨w, hg, hwv⟩ := hg
      have hpv : pfun p v = w := by unfold pfun; rw [hg]; rfl
      have hwk : w ∈ keys := (inv.entries (v, w) (alGet_mem _ _ _ hg)).2
      have hrrw : rootReached p w k := by
        unfold rootReached at hn ⊢
        rwa [← hpv, ← iterP_head]
      have ihw := ih f p w inv hwk hrrw (by omega)
      set res := findF f p w with hres
      obtain ⟨ih1, ih2, ih3⟩ := ihw
      have hstep : findF (f + 1) p v = (res.1, alSet res.2 v res.1) := by
        show (match alGet p v with
          | none => (v, p)
          | some w' =>
            if w' = v then (v, p)
            else ((findF f p w').1, alSet (findF f p w').2 v (findF f p w').1)) =
          (res.1, alSet res.2 v res.1)
        rw [hg]
        simp [hwv, hres]
      rw [hstep]
      have hr1 : res.1 = rootF keys p v := by
        rw [ih1, rootF_step keys p inv v, hpv]
      -- the compression write `v ↦ res.1` does not change any root
      have hwroot : pfun res.2 res.1 = res.1 := by
        apply root_of_rootF_self keys res.2 ih2
        rw [ih3, hr1]
        exact rootF_of_root keys p _ (rootF_isRoot keys p inv v)
      have hset := uf_set_rootF keys res.2 v res.1 ih2 hwroot hvk
        (by rw [hr1]; exact rootF_mem keys p inv v hvk)
        (Or.inl (by rw [ih3, hr1]))
      refine ⟨by simpa using hr1, hset.1, ?_⟩
      intro x
      have := hset.2 x
      simp only at this
      rw [this, ih3]
      by_cases hc : rootF keys p x = v
      · rw [if_pos hc]
        -- then `v` is a root of `p`, contradicting this branch
        exfalso
        have : pfun p v = v := by
          have hroot' := rootF_isRoot keys p inv x
          rw [hc] at hroot'
          exact hroot'
        exact hroot this
      · rw [if_neg hc]

/-- The source `union`: find both roots, then point `rootB` at `rootA`. -/
def unionF (fuel : Nat) (p : PMap) (a b : String) : PMap :=
  let ra := findF fuel p a
  let rb := findF fuel ra.2 b
  if ra.1 = rb.1 then rb.2 else alSet rb.2 rb.1 ra.1

theorem findN_spec (keys : List String) (p : PMap) (v : String)
    (inv : UFInv keys p) (hvk : v ∈ keys) :
    (findF (keys.length + 1) p v).1 = rootF keys p v ∧
    UFInv keys (findF (keys.length + 1) p v).2 ∧
    ∀ x, rootF keys (findF (keys.length + 1) p v).2 x = rootF keys p x :=
  findF_spec keys (keys.length + 1) keys.length p v inv hvk
    (rootReached_bound keys p inv v) (by omega)

theorem unionF_spec (keys : List String) (p : PMap) (a b : String)
    (inv : UFInv keys p) (hak : a ∈ keys) (hbk : b ∈ keys) :
    UFInv keys (unionF (keys.length + 1) p a b) ∧
    ∀ x, rootF keys (unionF (keys.length + 1) p a b) x =
      if rootF keys p x = rootF keys p b then rootF keys p a
      else rootF keys p x := by
  unfold unionF
  obtain ⟨ha1, ha2, ha3⟩ := findN_spec keys p a inv hak
  set p1 := (findF (keys.length + 1) p a).2 with hp1
  obtain ⟨hb1, hb2, hb3⟩ := findN_spec keys p1 b ha2 hbk
  set p2 := (findF (keys.length + 1) p1 b).2 with hp2
  have hra : (findF (keys.length + 1) p a).1 = rootF keys p a := ha1
  have hrb : (findF (keys.length + 1) p1 b).1 = rootF keys p b := by
    rw [hb1, ha3]
  have hpres2 : ∀ x, rootF keys p2 x = rootF keys p x := by
    intro x
    rw [hb3, ha3]
  by_cases heq : (findF (keys.length + 1) p a).1 = (findF (keys.length + 1) p1 b).1
  · rw [if_pos heq]
    refine ⟨hb2, ?_⟩
    intro x
    have hab : rootF keys p a = rootF keys p b := by
      rw [← hra, ← hrb, heq]
    rw [hpres2]
    by_cases hc : rootF keys p x = rootF keys p b
    · rw [if_pos hc, hc, hab]
    · rw [if_neg hc]
  · rw [if_neg heq]
    have hrbroot : pfun p2 (findF (keys.length + 1) p1 b).1 =
        (findF (keys.length + 1) p1 b).1 := by
      apply root_of_rootF_self keys p2 hb2
      rw [hpres2, hrb]
      exact rootF_of_root keys p _ (rootF_isRoot keys p inv b)
    have hraroot : pfun p2 (findF (keys.length + 1) p a).1 =
        (findF (keys.length + 1) p a).1 := by
      apply root_of_rootF_self keys p2 hb2
      rw [hpres2, hra]
      exact rootF_of_root keys p _ (rootF_isRoot keys p inv a)
    have hset := uf_set_rootF keys p2 (findF (keys.length + 1) p1 b).1
      (findF (keys.length + 1) p a).1 hb2 hraroot
      (by rw [hrb]; exact rootF_mem keys p inv b hbk)
      (by rw [hra]; exact rootF_mem keys p inv a hak)
      (Or.inr hrbroot)
    refine ⟨hset.1, ?_⟩
    intro x
    rw [hset.2 x, hpres2, hra, hrb]

/-- Equal roots are preserved by a union. -/
theorem unionF_sameRoot_mono (keys : List String) (p : PMap) (a b x y : String)
    (inv : UFInv keys p) (hak : a ∈ keys) (hbk : b ∈ keys)
    (h : rootF keys p x = rootF keys p y) :
    rootF keys (unionF (keys.length + 1) p a b) x =
    rootF keys (unionF (keys.length + 1) p a b) y := by
  have hs := (unionF_spec keys p a b inv hak hbk).2
  rw [hs x, hs y, h]

/-- A union makes its two arguments share a root. -/
theorem unionF_joins (keys : List String) (p : PMap) (a b : String)
    (inv : UFInv keys p) (hak : a ∈ keys) (hbk : b ∈ keys) :
    rootF keys (unionF (keys.length + 1) p a b) a =
    rootF keys (unionF (keys.length + 1) p a b) b := by
  have hs := (unionF_spec keys p a b inv hak hbk).2
  rw [hs a, hs b]
  by_cases hc : rootF keys p a = rootF keys p b
  · rw [if_pos hc, if_pos rfl, hc]
  · rw [if_neg hc, if_pos rfl]

/-- `createDisjointSet`: every key starts as its own parent. -/
def initParent (keys : List String) : PMap :=
  keys.foldl (fun m k => alSet m k k) []

theorem initParent_entries (keys : List String) :
    ∀ e ∈ initParent keys, e.1 ∈ keys ∧ e.1 = e.2 := by
  have main : ∀ (ks : List String) (m0 : PMap),
      (∀ e ∈ m0, e.1 ∈ keys ∧ e.1 = e.2) → (∀ k ∈ ks, k ∈ keys) →
      ∀ e ∈ ks.foldl (fun m k' => alSet m k' k') m0, e.1 ∈ keys ∧ e.1 = e.2 := by
    intro ks
    induction ks with
    | nil => intro m0 h _; simpa using h
    | cons k' t ih =>
      intro m0 h hks
      rw [List.foldl_cons]
      refine ih _ ?_ (fun k hk => hks k (List.mem_cons_of_mem _ hk))
      intro e he
      rcases alSet_mem m0 k' k' e he with h' | h'
      · exact h e h'
      · subst h'
        exact ⟨hks k' (List.mem_cons_self _ _), rfl⟩
  exact main keys [] (by simp) (fun k hk => hk)

/-- In the initial parent map every string is already a root. -/
theorem initParent_root (keys : List String) (x : String) :
    pfun (initParent keys) x = x := by
  unfold pfun
  cases h : alGet (initParent keys) x with
  | none => rfl
  | some v =>
    have := initParent_entries keys (x, v) (alGet_mem _ _ _ h)
    simpa using this.2.symm

theorem initParent_inv (keys : List String) : UFInv keys (initParent keys) := by
  constructor
  · intro e he
    obtain ⟨h1, h2⟩ := initParent_entries keys e he
    exact ⟨h1, h2 ▸ h1⟩
  · intro x
    exact ⟨0, initParent_root keys x⟩

theorem initParent_rootF (keys : List String) (x : String) :
    rootF keys (initParent keys) x = x :=
  rootF_of_root keys _ x (initParent_root keys x)

/-! ## Atomic group formation (`buildStudentGroups` in `teams.ts`) -/

/-- Per-level counters (`Record<StudentLevel, number>`). -/
structure LevelCounts where
  l1 : Nat
  l2 : Nat
  l3 : Nat
deriving DecidableEq, Repr

def LevelCounts.get : LevelCounts → StudentLevel → Nat
| lc, .one => lc.l1
| lc, .two => lc.l2
| lc, .three => lc.l3

def LevelCounts.inc : LevelCounts → StudentLevel → LevelCounts
| lc, .one => { lc with l1 := lc.l1 + 1 }
| lc, .two => { lc with l2 := lc.l2 + 1 }
| lc, .three => { lc with l3 := lc.l3 + 1 }

def LevelCounts.add (a b : LevelCounts) : LevelCounts :=
  { l1 := a.l1 + b.l1, l2 := a.l2 + b.l2, l3 := a.l3 + b.l3 }

/-- A student together with its normalized identity key (`StudentNode`). -/
structure StudentNode extends Student where
  key : String
deriving DecidableEq, Repr

/-- Aggregated fields of a member list, as computed in `buildStudentGroups`. -/
def skillOf (ms : List StudentNode) : Nat :=
  ms.foldl (fun a s => a + s.level.val) 0

def girlsOf (ms : List StudentNode) : Nat :=
  (ms.filter (fun s => s.gender == Gender.tjej)).length

def boysOf (ms : List StudentNode) : Nat :=
  (ms.filter (fun s => s.gender == Gender.kille)).length

def levelCountsOf (ms : List StudentNode) : LevelCounts :=
  ms.foldl (fun lc s => lc.inc s.level) ⟨0, 0, 0⟩

/-- An atomic allocation unit (`StudentGroup`). -/
structure StudentGroup where
  id : String
  members : List StudentNode
  keys : List String
  size : Nat
  skillSum : Nat
  girls : Nat
  boys : Nat
  levelCounts : LevelCounts
  degree : Nat
deriving DecidableEq, Repr

/-- Group record built from a bucket of the root-indexed map. -/
def mkGroup (root : String) (members : List StudentNode) : StudentGroup :=
  { id := root, members := members, keys := members.map (·.key),
    size := members.length, skillSum := skillOf members,
    girls := girlsOf members, boys := boysOf members,
    levelCounts := levelCountsOf members, degree := 0 }

/-- The union loop of `buildStudentGroups`: one union per adjacency edge,
iterated in map insertion order. -/
def applyUnions (fuel : Nat) (p : PMap) (adj : Adj) : PMap :=
  adj.foldl (fun q e => e.2.foldl (fun q' o => unionF fuel q' e.1 o) q) p

/-- The grouping loop of `buildStudentGroups`: find each student's root
(threading the compressed map) and append the student to that bucket. -/
def collectGroups (fuel : Nat) :
    List StudentNode → PMap → List (String × List StudentNode) →
    List (String × List StudentNode) × PMap
| [], p, acc => (acc, p)
| s :: t, p, acc =>
    let r := findF fuel p s.key
    collectGroups fuel t r.2 (alSet acc r.1 (alGetD acc r.1 [] ++ [s]))

/-- Key universe of a disjoint-set run: the students' normalized keys. -/
def groupKeys (students : List StudentNode) : List String :=
  students.map (·.key)

/-- Parent map after all cohesion unions. -/
def ufMap (students : List StudentNode) (adj : Adj) : PMap :=
  applyUnions ((groupKeys students).length + 1) (initParent (groupKeys students))
    adj

/-- Root of a key after all cohesion unions: the atomic-group identifier. -/
def groupRoot (students : List StudentNode) (adj : Adj) (k : String) : String :=
  rootF (groupKeys students) (ufMap students adj) k

/-- `buildStudentGroups` from `teams.ts`. -/
def buildStudentGroups (students : List StudentNode) (togetherAdjacency : Adj) :
    List StudentGroup :=
  let keys := groupKeys students
  let buckets :=
    (collectGroups (keys.length + 1) students (ufMap students togetherAdjacency)
      []).1
  buckets.map (fun e => mkGroup e.1 e.2)

theorem unionInner_inv (keys : List String) (k : String) (os : List String)
    (p : PMap) (inv : UFInv keys p) (hk : k ∈ keys) (hos : ∀ o ∈ os, o ∈ keys) :
    UFInv keys (os.foldl (fun q o => unionF (keys.length + 1) q k o) p) := by
  induction os generalizing p with
  | nil => exact inv
  | cons o t ih =>
    rw [List.foldl_cons]
    exact ih _ ((unionF_spec keys p k o inv hk
      (hos o (List.mem_cons_self _ _))).1)
      (fun o' ho' => hos o' (List.mem_cons_of_mem _ ho'))

theorem unionInner_sameRoot (keys : List String) (k : String) (os : List String)
    (p : PMap) (inv : UFInv keys p) (hk : k ∈ keys) (hos : ∀ o ∈ os, o ∈ keys)
    (x y : String) (h : rootF keys p x = rootF keys p y) :
    rootF keys (os.foldl (fun q o => unionF (keys.length + 1) q k o) p) x =
    rootF keys (os.foldl (fun q o => unionF (keys.length + 1) q k o) p) y := by
  induction os generalizing p with
  | nil => exact h
  | cons o t ih =>
    rw [List.foldl_cons]
    exact ih _ ((unionF_spec keys p k o inv hk
      (hos o (List.mem_cons_self _ _))).1)
      (fun o' ho' => hos o' (List.mem_cons_of_mem _ ho'))
      (unionF_sameRoot_mono keys p k o x y inv hk
        (hos o (List.mem_cons_self _ _)) h)

theorem unionInner_joins (keys : List String) (k : String) (os : List String)
    (p : PMap) (inv : UFInv keys p) (hk : k ∈ keys) (hos : ∀ o ∈ os, o ∈ keys)
    (o : String) (ho : o ∈ os) :
    rootF keys (os.foldl (fun q o' => unionF (keys.length + 1) q k o') p) k =
    rootF keys (os.foldl (fun q o' => unionF (keys.length + 1) q k o') p) o := by
  induction os generalizing p with
  | nil => simp at ho
  | cons o' t ih =>
    rw [List.foldl_cons]
    have hinv1 := (unionF_spec keys p k o' inv hk
      (hos o' (List.mem_cons_self _ _))).1
    rcases List.mem_cons.mp ho with ho' | ho'
    · subst ho'
      exact unionInner_sameRoot keys k t _ hinv1 hk
        (fun o'' ho'' => hos o'' (List.mem_cons_of_mem _ ho'')) k o
        (unionF_joins keys p k o inv hk (hos o (List.mem_cons_self _ _)))
    · exact ih _ hinv1 (fun o'' ho'' => hos o'' (List.mem_cons_of_mem _ ho'')) ho'

theorem applyUnions_inv (keys : List String) (p : PMap) (adj : Adj)
    (inv : UFInv keys p)
    (hadj : ∀ e ∈ adj, e.1 ∈ keys ∧ ∀ o ∈ e.2, o ∈ keys) :
    UFInv keys (applyUnions (keys.length + 1) p adj) := by
  unfold applyUnions
  induction adj generalizing p with
  | nil => exact inv
  | cons e t ih =>
    rw [List.foldl_cons]
    exact ih _ (unionInner_inv keys e.1 e.2 p inv
      (hadj e (List.mem_cons_self _ _)).1 (hadj e (List.mem_cons_self _ _)).2)
      (fun e' he' => hadj e' (List.mem_cons_of_mem _ he'))

theorem applyUnions_sameRoot (keys : List String) (p : PMap) (adj : Adj)
    (inv : UFInv keys p)
    (hadj : ∀ e ∈ adj, e.1 ∈ keys ∧ ∀ o ∈ e.2, o ∈ keys) (x y : String)
    (h : rootF keys p x = rootF keys p y) :
    rootF keys (applyUnions (keys.length + 1) p adj) x =
    rootF keys (applyUnions (keys.length + 1) p adj) y := by
  unfold applyUnions
  induction adj generalizing p with
  | nil => exact h
  | cons e t ih =>
    rw [List.foldl_cons]
    exact ih _ (unionInner_inv keys e.1 e.2 p inv
      (hadj e (List.mem_cons_self _ _)).1 (hadj e (List.mem_cons_self _ _)).2)
      (fun e' he' => hadj e' (List.mem_cons_of_mem _ he'))
      (unionInner_sameRoot keys e.1 e.2 p inv (hadj e (List.mem_cons_self _ _)).1
        (hadj e (List.mem_cons_self _ _)).2 x y h)

theorem applyUnions_joins (keys : List String) (p : PMap) (adj : Adj)
    (inv : UFInv keys p)
    (hadj : ∀ e ∈ adj, e.1 ∈ keys ∧ ∀ o ∈ e.2, o ∈ keys) (e : String × List String)
    (he : e ∈ adj) (o : String) (ho : o ∈ e.2) :
    rootF keys (applyUnions (keys.length + 1) p adj) e.1 =
    rootF keys (applyUnions (keys.length + 1) p adj) o := by
  unfold applyUnions
  induction adj generalizing p with
  | nil => simp at he
  | cons e' t ih =>
    rw [List.foldl_cons]
    have hinv1 := unionInner_inv keys e'.1 e'.2 p inv
      (hadj e' (List.mem_cons_self _ _)).1 (hadj e' (List.mem_cons_self _ _)).2
    rcases List.mem_cons.mp he with he' | he'
    · subst he'
      exact applyUnions_sameRoot keys _ t hinv1
        (fun e'' he'' => hadj e'' (List.mem_cons_of_mem _ he'')) e.1 o
        (unionInner_joins keys e.1 e.2 p inv (hadj e (List.mem_cons_self _ _)).1
          (hadj e (List.mem_cons_self _ _)).2 o ho)
    · exact ih _ hinv1 (fun e'' he'' => hadj e'' (List.mem_cons_of_mem _ he'')) he'

theorem alGet_cons_eq {α : Type} (k : String) (v : α) (t : List (String × α)) :
    alGet ((k, v) :: t) k = some v := by
  rw [alGet, List.find?_cons_of_pos _ (by simp)]
  rfl

theorem perm_append_swap {α : Type} (u v : List α) (x : α) :
    ((u ++ [x]) ++ v).Perm ((u ++ v) ++ [x]) := by
  rw [List.append_assoc, List.append_assoc]
  exact List.Perm.append_left u List.perm_append_comm

theorem alGet_cons_ne {α : Type} (e : String × α) (t : List (String × α))
    (k : String) (h : e.1 ≠ k) : alGet (e :: t) k = alGet t k := by
  rw [alGet, List.find?_cons_of_neg _ (by simp [h])]
  rfl

/-- Appending one element to the bucket at key `r` extends the joined
contents by exactly that element, up to permutation. -/
theorem join_alSet_append {α : Type} (acc : List (String × List α)) (r : String)
    (s : α) :
    ((alSet acc r (alGetD acc r [] ++ [s])).map (·.2)).join.Perm
      ((acc.map (·.2)).join ++ [s]) := by
  induction acc with
  | nil => simp [alSet, alGetD, alGet]
  | cons e t ih =>
    by_cases h : e.1 = r
    · have hg : alGetD (e :: t) r [] = e.2 := by
        unfold alGetD
        rw [← h, alGet_cons_eq e.1 e.2 t]
        cases e
        rfl
      have hset : alSet (e :: t) r (alGetD (e :: t) r [] ++ [s]) =
          (e.1, e.2 ++ [s]) :: t := by
        rw [hg]
        cases e with
        | mk k v =>
          simp only at h
          subst h
          simp [alSet]
      rw [hset]
      simp only [List.map_cons, List.join_cons]
      exact perm_append_swap _ _ _
    · have hg : alGetD (e :: t) r [] = alGetD t r [] := by
        unfold alGetD
        rw [alGet_cons_ne e t r h]
      have hset : alSet (e :: t) r (alGetD (e :: t) r [] ++ [s]) =
          e :: alSet t r (alGetD t r [] ++ [s]) := by
        rw [hg]
        cases e with
        | mk k v => simp [alSet, h]
      rw [hset]
      simp only [List.map_cons, List.join_cons]
      rw [List.append_assoc]
      exact List.Perm.append_left e.2 ih

/-- The grouping loop distributes exactly the processed students over the
buckets (multiset identity). -/
theorem collectGroups_perm (fuel : Nat) (students : List StudentNode)
    (p : PMap) (acc : List (String × List StudentNode)) :
    (((collectGroups fuel students p acc).1.map (·.2)).join).Perm
      ((acc.map (·.2)).join ++ students) := by
  induction students generalizing p acc with
  | nil => simp [collectGroups]
  | cons s t ih =>
    rw [collectGroups]
    refine (ih _ _).trans ?_
    have hjoin := join_alSet_append acc (findF fuel p s.key).1 s
    refine (hjoin.append_right t).trans ?_
    rw [List.append_assoc]
    exact List.Perm.refl _

/-- Bucket keys stay duplicate-free through the grouping loop. -/
theorem collectGroups_keysNodup (fuel : Nat) (students : List StudentNode)
    (p : PMap) (acc : List (String × List StudentNode))
    (h : (acc.map Prod.fst).Nodup) :
    (((collectGroups fuel students p acc).1.map Prod.fst)).Nodup := by
  induction students generalizing p acc with
  | nil => exact h
  | cons s t ih =>
    rw [collectGroups]
    exact ih _ _ (nodupKeys_alSet _ _ _ h)

/-- Every student in a bucket of the grouping loop is labelled by the root
of its key in the *initial* map (path compression never changes roots). -/
theorem collectGroups_roots (keys : List String) (students : List StudentNode)
    (p : PMap) (acc : List (String × List StudentNode)) (inv : UFInv keys p)
    (hst : ∀ s ∈ students, s.key ∈ keys)
    (hacc : ∀ e ∈ acc, ∀ s ∈ e.2, e.1 = rootF keys p s.key) :
    ∀ e ∈ (collectGroups (keys.length + 1) students p acc).1, ∀ s ∈ e.2,
      e.1 = rootF keys p s.key := by
  induction students generalizing p acc with
  | nil => exact hacc
  | cons s t ih =>
    rw [collectGroups]
    obtain ⟨hf1, hf2, hf3⟩ := findN_spec keys p s.key inv
      (hst s (List.mem_cons_self _ _))
    intro e he s' hs'
    have step : ∀ e' ∈ alSet acc (findF (keys.length + 1) p s.key).1
        (alGetD acc (findF (keys.length + 1) p s.key).1 [] ++ [s]),
        ∀ s'' ∈ e'.2, e'.1 = rootF keys (findF (keys.length + 1) p s.key).2
          s''.key := by
      intro e' he' s'' hs''
      rcases alSet_mem _ _ _ e' he' with h' | h'
      · rw [hf3]
        exact hacc e' h' s'' hs''
      · subst h'
        simp only at hs''
        rcases List.mem_append.mp hs'' with h'' | h''
        · -- the old bucket at this root
          cases hg : alGet acc (findF (keys.length + 1) p s.key).1 with
          | none =>
            unfold alGetD at h''
            rw [hg] at h''
            simp at h''
          | some old =>
            unfold alGetD at h''
            rw [hg] at h''
            simp only [Option.getD_some] at h''
            rw [hf3]
            exact hacc _ (alGet_mem _ _ _ hg) s'' h''
        · simp only [List.mem_singleton] at h''
          subst h''
          rw [hf3, hf1]
    have := ih _ _ hf2 (fun s'' hs'' => hst s'' (List.mem_cons_of_mem _ hs''))
      step e he s' hs'
    rw [this, hf3]

theorem ufMap_inv (students : List StudentNode) (adj : Adj)
    (hadj : ∀ e ∈ adj, e.1 ∈ groupKeys students ∧
      ∀ o ∈ e.2, o ∈ groupKeys students) :
    UFInv (groupKeys students) (ufMap students adj) :=
  applyUnions_inv (groupKeys students) _ adj (initParent_inv _) hadj

/-- The atomic groups partition the student list (multiset identity). -/
theorem buildStudentGroups_members_perm (students : List StudentNode)
    (adj : Adj) :
    (((buildStudentGroups students adj).map (·.members)).join).Perm students := by
  unfold buildStudentGroups
  have h := collectGroups_perm ((groupKeys students).length + 1) students
    (ufMap students adj) []
  simpa [List.map_map, Function.comp, mkGroup] using h

/-- Group identifiers are pairwise distinct. -/
theorem buildStudentGroups_ids_nodup (students : List StudentNode) (adj : Adj) :
    (((buildStudentGroups students adj).map (·.id))).Nodup := by
  unfold buildStudentGroups
  have h := collectGroups_keysNodup ((groupKeys students).length + 1) students
    (ufMap students adj) [] (by simp)
  simpa [List.map_map, Function.comp, mkGroup] using h

/-- Every group is the bucket of its identifier: the id is the union-find
root of each of its members. -/
theorem buildStudentGroups_root (students : List StudentNode) (adj : Adj)
    (hadj : ∀ e ∈ adj, e.1 ∈ groupKeys students ∧
      ∀ o ∈ e.2, o ∈ groupKeys students) :
    ∀ g ∈ buildStudentGroups students adj, ∀ s ∈ g.members,
      g.id = groupRoot students adj s.key := by
  unfold buildStudentGroups
  intro g hg s hs
  obtain ⟨e, he, rfl⟩ := List.mem_map.mp hg
  have := collectGroups_roots (groupKeys students) students (ufMap students adj)
    [] (ufMap_inv students adj hadj)
    (fun s' hs' => List.mem_map.mpr ⟨s', hs', rfl⟩) (by simp) e he s
    (by simpa [mkGroup] using hs)
  simpa [mkGroup, groupRoot] using this

/-- A cohesion edge joins its endpoints' groups. -/
theorem groupRoot_of_adjMem (students : List StudentNode) (adj : Adj)
    (hadj : ∀ e ∈ adj, e.1 ∈ groupKeys students ∧
      ∀ o ∈ e.2, o ∈ groupKeys students)
    (x y : String) (h : adjMem adj x y) :
    groupRoot students adj x = groupRoot students adj y := by
  have hsome := adjMem_isSome adj x y h
  obtain ⟨s, hs⟩ := Option.isSome_iff_exists.mp hsome
  have hmem : (x, s) ∈ adj := alGet_mem _ _ _ hs
  have hy : y ∈ s := by
    unfold adjMem alGetD at h
    rw [hs] at h
    exact h
  unfold groupRoot ufMap
  exact applyUnions_joins (groupKeys students) _ adj (initParent_inv _) hadj
    (x, s) hmem y hy

/-- Shape of every produced group record. -/
theorem buildStudentGroups_shape (students : List StudentNode) (adj : Adj) :
    ∀ g ∈ buildStudentGroups students adj,
      g.keys = g.members.map (·.key) ∧ g.size = g.members.length ∧
      g.skillSum = skillOf g.members ∧ g.girls = girlsOf g.members ∧
      g.boys = boysOf g.members ∧ g.levelCounts = levelCountsOf g.members := by
  unfold buildStudentGroups
  intro g hg
  obtain ⟨e, _, rfl⟩ := List.mem_map.mp hg
  simp [mkGroup]

/-! ## Conflict projection and team state (`teams.ts`) -/

/-- First half of the single group loop of `buildGroupAdjacency`: one empty
conflict set per group id.  (The source fills both maps in one loop; the
two folds below build the same two maps.) -/
def groupAdjInit (groups : List StudentGroup) : Adj :=
  groups.foldl (fun m g => alSet m g.id []) []

/-- Second half: map each member key to its group id. -/
def keyToGroupId (groups : List StudentGroup) : List (String × String) :=
  groups.foldl (fun m g => g.keys.foldl (fun m' k => alSet m' k g.id) m) []

/-- `buildGroupAdjacency` from `teams.ts`: lift the member-level exclusion
adjacency to group level. -/
def buildGroupAdjacency (groups : List StudentGroup) (pairAdjacency : Adj) :
    Adj :=
  let k2g := keyToGroupId groups
  pairAdjacency.foldl (fun adj e =>
    match alGet k2g e.1 with
    | none => adj
    | some groupId =>
        e.2.foldl (fun adj' conflictKey =>
          match alGet k2g conflictKey with
          | none => adj'
          | some otherGroupId =>
              if otherGroupId = groupId then adj'
              else adjAdd (adjAdd adj' groupId otherGroupId) otherGroupId groupId)
          adj) (groupAdjInit groups)

/-- Conflict pair found inside one group, with display names sorted. -/
def ficPair (keyToName : List (String × String)) (key other : String) :
    String × String :=
  let aName := (alGet keyToName key).getD key
  let bName := (alGet keyToName other).getD other
  if aName ≤ bName then (aName, bName) else (bName, aName)

/-- Inner scan of `findInternalConflict` over one key's blocked set. -/
def ficInner (keySet : List String) (keyToName : List (String × String))
    (key : String) (blocked : List String) : Option (String × String) :=
  blocked.findSome? (fun other =>
    if other ∈ keySet then some (ficPair keyToName key other) else none)

/-- Scan of one group in `findInternalConflict`. -/
def ficGroup (blockAdjacency : Adj) (keyToName : List (String × String))
    (g : StudentGroup) : Option (String × String) :=
  g.keys.findSome? (fun key =>
    match alGet blockAdjacency key with
    | none => none
    | some blocked => ficInner g.keys keyToName key blocked)

/-- `findInternalConflict` from `teams.ts`: a pair of mutually excluded
members forced into the same atomic group, if any. -/
def findInternalConflict (groups : List StudentGroup) (blockAdjacency : Adj)
    (keyToName : List (String × String)) : Option (String × String) :=
  groups.findSome? (ficGroup blockAdjacency keyToName)

/-- `hasGroupConflict` from `teams.ts`. -/
def hasGroupConflict (groupId : String) (teamGroupIds : List String)
    (groupAdjacency : Adj) : Bool :=
  match alGet groupAdjacency groupId with
  | none => false
  | some blockedGroups =>
      if blockedGroups.length = 0 then false
      else teamGroupIds.any (fun t => blockedGroups.contains t)

/-- Mutable per-attempt team state (`TeamState`). -/
structure TeamState where
  members : List Student
  keys : List String
  groupIds : List String
  skillSum : Nat
  girls : Nat
  boys : Nat
  levelCounts : LevelCounts
deriving DecidableEq, Repr

/-- Per-level target lists (`LevelTargets`). -/
abbrev LevelTargets := StudentLevel → List Nat

/-- The three levels in the order the source iterates them. -/
def allLevels : List StudentLevel := [.one, .two, .three]

/-- `getTeamScore` from `teams.ts` (weights 4.2, 2.6, 0.4, gender 8/0.4,
level 9/0.8), modelling JS numbers as rationals. -/
def getTeamScore (team : TeamState) (group : StudentGroup) (teamIndex : Nat)
    (targetSize : Nat) (idealSkill : ℚ) (targetGirls targetBoys : List Nat)
    (levelTargets : LevelTargets) : ℚ :=
  let nextSize : ℚ := ((team.members.length + group.size : Nat) : ℚ)
  let nextSkill : ℚ := ((team.skillSum + group.skillSum : Nat) : ℚ)
  let skillPenalty : ℚ := |nextSkill - idealSkill|
  let sizePenalty : ℚ := nextSize / ((targetSize : Nat) : ℚ)
  let projectedGirls : ℚ := ((team.girls + group.girls : Nat) : ℚ)
  let projectedBoys : ℚ := ((team.boys + group.boys : Nat) : ℚ)
  let targetGirlCount : ℚ := ((targetGirls.getD teamIndex 0 : Nat) : ℚ)
  let targetBoyCount : ℚ := ((targetBoys.getD teamIndex 0 : Nat) : ℚ)
  let girlPenalty : ℚ :=
    if projectedGirls > targetGirlCount then (projectedGirls - targetGirlCount) * 8
    else |projectedGirls - targetGirlCount| * (2 / 5)
  let boyPenalty : ℚ :=
    if projectedBoys > targetBoyCount then (projectedBoys - targetBoyCount) * 8
    else |projectedBoys - targetBoyCount| * (2 / 5)
  let levelPenalty : ℚ := allLevels.foldl (fun acc level =>
    let projected : ℚ :=
      ((team.levelCounts.get level + group.levelCounts.get level : Nat) : ℚ)
    let target : ℚ := (((levelTargets level).getD teamIndex 0 : Nat) : ℚ)
    acc + (if projected > target then (projected - target) * 9
      else |projected - target| * (4 / 5))) 0
  skillPenalty * (21 / 5) + levelPenalty * (13 / 5) + sizePenalty * (2 / 5) +
    girlPenalty + boyPenalty

/-- A JS number that is either finite or `Number.POSITIVE_INFINITY`. -/
inductive QVal where
| fin (q : ℚ)
| inf
deriving DecidableEq, Repr

/-- JS `<` on such numbers. -/
def QVal.lt : QVal → QVal → Bool
| .fin a, .fin b => a < b
| .fin _, .inf => true
| .inf, _ => false

/-- Quality vector of an allocation (`TeamQuality`). -/
structure TeamQuality where
  levelGap : QVal
  levelDeviation : QVal
  skillRange : QVal
  skillDeviation : QVal
  genderDeviation : QVal
deriving DecidableEq, Repr

/-- `evaluateTeams` from `teams.ts`. -/
def evaluateTeams (teams : List TeamState) (idealSkill : ℚ)
    (targetGirls targetBoys : List Nat) (levelTargets : LevelTargets) :
    TeamQuality :=
  match teams with
  | [] => ⟨.inf, .inf, .inf, .inf, .inf⟩
  | t0 :: rest =>
    let ts := t0 :: rest
    let minSkill : Nat := (rest.map (·.skillSum)).foldl min t0.skillSum
    let maxSkill : Nat := (rest.map (·.skillSum)).foldl max t0.skillSum
    let skillRange : ℚ := (maxSkill : ℚ) - (minSkill : ℚ)
    let skillDeviation : ℚ :=
      ts.foldl (fun sum team => sum + |((team.skillSum : Nat) : ℚ) - idealSkill|) 0
    let gapDev : ℚ × ℚ := allLevels.foldl (fun pr level =>
      let counts := ts.map (fun team => team.levelCounts.get level)
      let minLevel : Nat := (counts.tail.foldl min (counts.headD 0))
      let maxLevel : Nat := (counts.tail.foldl max (counts.headD 0))
      let gap' := max pr.1 ((maxLevel : ℚ) - (minLevel : ℚ))
      let dev' := (List.range ts.length).foldl (fun d i =>
        d + |((counts.getD i 0 : Nat) : ℚ) -
          (((levelTargets level).getD i 0 : Nat) : ℚ)|) pr.2
      (gap', dev')) (0, 0)
    let genderDeviation : ℚ := ts.enum.foldl (fun sum e =>
      sum + |((e.2.girls : Nat) : ℚ) - ((targetGirls.getD e.1 0 : Nat) : ℚ)| +
        |((e.2.boys : Nat) : ℚ) - ((targetBoys.getD e.1 0 : Nat) : ℚ)|) 0
    ⟨.fin gapDev.1, .fin gapDev.2, .fin skillRange, .fin skillDeviation,
      .fin genderDeviation⟩

/-- `isBetterQuality` from `teams.ts`: strict lexicographic comparison. -/
def isBetterQuality (candidate best : TeamQuality) : Bool :=
  if candidate.levelGap ≠ best.levelGap then
    QVal.lt candidate.levelGap best.levelGap
  else if candidate.levelDeviation ≠ best.levelDeviation then
    QVal.lt candidate.levelDeviation best.levelDeviation
  else if candidate.skillRange ≠ best.skillRange then
    QVal.lt candidate.skillRange best.skillRange
  else if candidate.skillDeviation ≠ best.skillDeviation then
    QVal.lt candidate.skillDeviation best.skillDeviation
  else if candidate.genderDeviation ≠ best.genderDeviation then
    QVal.lt candidate.genderDeviation best.genderDeviation
  else false

/-- Projection of a `StudentNode` back to a plain present `Student`, as the
source does when pushing members into a team. -/
def nodeToMember (m : StudentNode) : Student :=
  { name := m.name, level := m.level, gender := m.gender, present := true }

/-- `buildTeamStateFromGroupIds` from `teams.ts`. -/
def buildTeamStateFromGroupIds (groupIds : List String)
    (groupById : List (String × StudentGroup)) : TeamState :=
  groupIds.foldl (fun team groupId =>
    match alGet groupById groupId with
    | none => team
    | some group =>
      { team with
        members := team.members ++ group.members.map nodeToMember,
        keys := team.keys ++ group.keys,
        skillSum := team.skillSum + group.skillSum,
        girls := team.girls + group.girls,
        boys := team.boys + group.boys,
        levelCounts := team.levelCounts.add group.levelCounts })
    { members := [], keys := [], groupIds := groupIds, skillSum := 0,
      girls := 0, boys := 0, levelCounts := ⟨0, 0, 0⟩ }

/-! ## Assigner building blocks: distribution, shuffle, order, pick -/

/-- `calculateDistribution` from `teams.ts`: even split with the remainder
going to the first `count % buckets` teams. -/
def calculateDistribution (count buckets : Nat) : List Nat :=
  (List.range buckets).map (fun index =>
    if index < count % buckets then count / buckets + 1 else count / buckets)

/-- Randomness oracle: draw `i` of a call models
`Math.floor(Math.random() * k)` as `o i % k`. -/
abbrev Rand := Nat → Nat

/-- Swap two positions of a list (no-op when out of range, which never
happens in the shuffle). -/
def swapL {α : Type} (l : List α) (i j : Nat) : List α :=
  match l.get? i, l.get? j with
  | some a, some b => (l.set i b).set j a
  | _, _ => l

/-- The loop of `fisherYatesShuffle`, from index `i` down to 1. -/
def shuffleGo {α : Type} (o : Rand) : Nat → List α → Nat → List α × Nat
| c, l, 0 => (l, c)
| c, l, i + 1 => shuffleGo o (c + 1) (swapL l (i + 1) (o c % (i + 2))) i

/-- `fisherYatesShuffle` from `teams.ts`, with explicit oracle and draw
counter. -/
def fisherYatesShuffle {α : Type} (o : Rand) (c : Nat) (items : List α) :
    List α × Nat :=
  match items.length with
  | 0 => (items, c)
  | n + 1 => shuffleGo o c items n

/-- The comparator of the ordering pass in `generateTeams`: descending
degree, then size, then skill sum. -/
def cmpGroups (a b : StudentGroup) : Int :=
  if b.degree ≠ a.degree then (b.degree : Int) - (a.degree : Int)
  else if b.size ≠ a.size then (b.size : Int) - (a.size : Int)
  else if b.skillSum ≠ a.skillSum then (b.skillSum : Int) - (a.skillSum : Int)
  else 0

/-- `[...randomOrder].sort(comparator)`: ES2019 `sort` is stable, and for a
total-preorder comparator any stable sort produces the same list, so we
model it with the (stable) insertion sort. -/
def orderGroups (l : List StudentGroup) : List StudentGroup :=
  List.insertionSort (fun a b => cmpGroups a b ≤ 0) l

/-- One step of the eligible-team scan in `pickTeamIndex`: running best
score (`QVal.inf` initially, as `Number.POSITIVE_INFINITY`) and the list
of tied best indexes. -/
def pickScanStep (group : StudentGroup) (teams : List TeamState)
    (targetSizes : List Nat) (idealSkill : ℚ) (targetGirls targetBoys : List Nat)
    (groupAdjacency : Adj) (levelTargets : LevelTargets)
    (st : QVal × List Nat) (i : Nat) : QVal × List Nat :=
  match teams.get? i, targetSizes.get? i with
  | some team, some targetSize =>
    if team.members.length + group.size > targetSize then st
    else if hasGroupConflict group.id team.groupIds groupAdjacency then st
    else
      let score := getTeamScore team group i targetSize idealSkill targetGirls
        targetBoys levelTargets
      if QVal.lt (.fin score) st.1 then (.fin score, [i])
      else
        match st.1 with
        | .inf => st
        | .fin best => if |score - best| < 1 / 10000 then (st.1, st.2 ++ [i])
            else st
  | _, _ => st

/-- `pickTeamIndex` from `teams.ts`: lowest-penalty eligible team, ties
within `1e-4` broken by one oracle draw. -/
def pickTeamIndex (group : StudentGroup) (teams : List TeamState)
    (targetSizes : List Nat) (idealSkill : ℚ) (targetGirls targetBoys : List Nat)
    (groupAdjacency : Adj) (levelTargets : LevelTargets) (o : Rand) (c : Nat) :
    Option Nat × Nat :=
  let scan := (List.range teams.length).foldl
    (pickScanStep group teams targetSizes idealSkill targetGirls targetBoys
      groupAdjacency levelTargets) (QVal.inf, [])
  if scan.2.length = 0 then (none, c)
  else (scan.2.get? (o c % scan.2.length), c + 1)

/-! ## Local search (`optimizeTeamsByLocalSearch` in `teams.ts`) -/

/-- Candidate configuration for relocating one group. -/
def moveConfig (teams : List TeamState) (fromIndex toIndex : Nat)
    (movingGroupId : String) : List (List String) :=
  let candidate := teams.map (fun t => t.groupIds)
  let candidate := candidate.set fromIndex
    ((candidate.getD fromIndex []).filter (fun id => id ≠ movingGroupId))
  candidate.set toIndex ((candidate.getD toIndex []) ++ [movingGroupId])

/-- Candidate configuration for swapping two groups. -/
def swapConfig (teams : List TeamState) (fromIndex otherIndex : Nat)
    (fromWithout otherWithout : List String) (movingGroupId swapGroupId : String) :
    List (List String) :=
  let candidate := teams.map (fun t => t.groupIds)
  let candidate := candidate.set fromIndex (fromWithout ++ [swapGroupId])
  candidate.set otherIndex (otherWithout ++ [movingGroupId])

/-- The relocation candidates of one moving group, in loop order. -/
def lsMoves (teams : List TeamState) (targetSizes : List Nat)
    (groupAdjacency : Adj) (fromIndex : Nat) (movingGroupId : String)
    (movingGroup : StudentGroup) : List (List (List String)) :=
  (List.range teams.length).filterMap (fun toIndex =>
    if toIndex = fromIndex then none
    else
      match teams.get? toIndex with
      | none => none
      | some toTeam =>
        if toTeam.members.length + movingGroup.size > targetSizes.getD toIndex 0
        then none
        else if hasGroupConflict movingGroupId toTeam.groupIds groupAdjacency
        then none
        else some (moveConfig teams fromIndex toIndex movingGroupId))

/-- The swap candidates of one moving group, in loop order. -/
def lsSwaps (teams : List TeamState) (groupById : List (String × StudentGroup))
    (targetSizes : List Nat) (groupAdjacency : Adj) (fromIndex : Nat)
    (fromTeam : TeamState) (movingGroupId : String)
    (movingGroup : StudentGroup) : List (List (List String)) :=
  (List.range teams.length).flatMap (fun otherIndex =>
    if otherIndex ≤ fromIndex then []
    else
      match teams.get? otherIndex with
      | none => []
      | some otherTeam =>
        otherTeam.groupIds.filterMap (fun swapGroupId =>
          match alGet groupById swapGroupId with
          | none => none
          | some swapGroup =>
            let fromTargetSize := targetSizes.getD fromIndex 0
            let otherTargetSize := targetSizes.getD otherIndex 0
            let projectedFromSize : Int :=
              (fromTeam.members.length : Int) - (movingGroup.size : Int) +
                (swapGroup.size : Int)
            let projectedOtherSize : Int :=
              (otherTeam.members.length : Int) - (swapGroup.size : Int) +
                (movingGroup.size : Int)
            if projectedFromSize > (fromTargetSize : Int) ∨
                projectedOtherSize > (otherTargetSize : Int) then none
            else
              let fromWithout :=
                fromTeam.groupIds.filter (fun id => id ≠ movingGroupId)
              let otherWithout :=
                otherTeam.groupIds.filter (fun id => id ≠ swapGroupId)
              if hasGroupConflict swapGroupId fromWithout groupAdjacency then none
              else if hasGroupConflict movingGroupId otherWithout groupAdjacency
              then none
              else some (swapConfig teams fromIndex otherIndex fromWithout
                otherWithout movingGroupId swapGroupId)))

/-- All neighbourhood candidates of one iteration, in loop order. -/
def lsCandidates (teams : List TeamState)
    (groupById : List (String × StudentGroup)) (targetSizes : List Nat)
    (groupAdjacency : Adj) : List (List (List String)) :=
  (List.range teams.length).flatMap (fun fromIndex =>
    match teams.get? fromIndex with
    | none => []
    | some fromTeam =>
      fromTeam.groupIds.flatMap (fun movingGroupId =>
        match alGet groupById movingGroupId with
        | none => []
        | some movingGroup =>
          lsMoves teams targetSizes groupAdjacency fromIndex movingGroupId
            movingGroup ++
          lsSwaps teams groupById targetSizes groupAdjacency fromIndex fromTeam
            movingGroupId movingGroup))

/-- Fold choosing the best neighbour: first candidate wins, later ones only
on strict improvement. -/
def pickBestNeighbor (groupById : List (String × StudentGroup))
    (idealSkill : ℚ) (targetGirls targetBoys : List Nat)
    (levelTargets : LevelTargets) (candidates : List (List (List String))) :
    Option (List TeamState × TeamQuality) :=
  candidates.foldl (fun best cfg =>
    let candidateTeams :=
      cfg.map (fun gids => buildTeamStateFromGroupIds gids groupById)
    let candidateQuality := evaluateTeams candidateTeams idealSkill targetGirls
      targetBoys levelTargets
    match best with
    | none => some (candidateTeams, candidateQuality)
    | some (bt, bq) =>
        if isBetterQuality candidateQuality bq then
          some (candidateTeams, candidateQuality)
        else some (bt, bq)) none

/-- The iteration loop of `optimizeTeamsByLocalSearch`, with the remaining
iteration budget as fuel. -/
def optimizeGo (groupById : List (String × StudentGroup))
    (targetSizes : List Nat) (groupAdjacency : Adj) (idealSkill : ℚ)
    (targetGirls targetBoys : List Nat) (levelTargets : LevelTargets) :
    Nat → List TeamState → TeamQuality → List TeamState
| 0, current, _ => current
| n + 1, current, currentQuality =>
    match pickBestNeighbor groupById idealSkill targetGirls targetBoys
      levelTargets (lsCandidates current groupById targetSizes groupAdjacency)
    with
    | none => current
    | some (bestTeams, bestQuality) =>
        if isBetterQuality bestQuality currentQuality then
          optimizeGo groupById targetSizes groupAdjacency idealSkill targetGirls
            targetBoys levelTargets n bestTeams bestQuality
        else current

/-- `optimizeTeamsByLocalSearch` from `teams.ts` (default cap 120).  The
source's defensive deep copy of the team states is the identity in a pure
model. -/
def optimizeTeamsByLocalSearch (initialTeams : List TeamState)
    (groupById : List (String × StudentGroup)) (targetSizes : List Nat)
    (groupAdjacency : Adj) (idealSkill : ℚ) (targetGirls targetBoys : List Nat)
    (levelTargets : LevelTargets) (maxIterations : Nat := 120) :
    List TeamState :=
  optimizeGo groupById targetSizes groupAdjacency idealSkill targetGirls
    targetBoys levelTargets maxIterations initialTeams
    (evaluateTeams initialTeams idealSkill targetGirls targetBoys levelTargets)

/-! ## The orchestrator (`generateTeams` in `teams.ts`) -/

/-- Typed generation result (`TeamGenerationResult` in `types.ts`). -/
inductive TeamGenerationResult where
| ok (teams : List (List Student)) (attempts : Nat)
| err (message suggestion : String) (attempts : Nat)
deriving DecidableEq, Repr

/-- All local context computed by `generateTeams` before its attempt loop. -/
structure GenCtx where
  groupsWithDegree : List StudentGroup
  groupById : List (String × StudentGroup)
  groupAdjacency : Adj
  targetSizes : List Nat
  targetGirls : List Nat
  targetBoys : List Nat
  levelTargets : LevelTargets
  idealSkill : ℚ
  teamCount : Nat

/-- Appending one placed group to a team state, as the placement loop does. -/
def pushGroup (team : TeamState) (g : StudentGroup) : TeamState :=
  { members := team.members ++ g.members.map nodeToMember,
    keys := team.keys ++ g.keys,
    groupIds := team.groupIds ++ [g.id],
    skillSum := team.skillSum + g.skillSum,
    girls := team.girls + g.girls,
    boys := team.boys + g.boys,
    levelCounts := team.levelCounts.add g.levelCounts }

/-- A fresh empty team state. -/
def emptyTeam : TeamState :=
  { members := [], keys := [], groupIds := [], skillSum := 0, girls := 0,
    boys := 0, levelCounts := ⟨0, 0, 0⟩ }

/-- The greedy placement loop of one attempt; `none` when some group has no
eligible team (`failedAttempt`). -/
def placeGroups (ctx : GenCtx) (o : Rand) :
    List StudentGroup → List TeamState → Nat → Option (List TeamState) × Nat
| [], teams, c => (some teams, c)
| g :: rest, teams, c =>
    match pickTeamIndex g teams ctx.targetSizes ctx.idealSkill ctx.targetGirls
      ctx.targetBoys ctx.groupAdjacency ctx.levelTargets o c with
    | (none, c') => (none, c')
    | (some teamIndex, c') =>
        match teams.get? teamIndex with
        | none => (none, c')
        | some team => placeGroups ctx o rest
            (teams.set teamIndex (pushGroup team g)) c'

/-- One assignment attempt: shuffle, order, place. -/
def runAttempt (ctx : GenCtx) (o : Rand) (c : Nat) :
    Option (List TeamState) × Nat :=
  let sh := fisherYatesShuffle o c ctx.groupsWithDegree
  let ordered := orderGroups sh.1
  placeGroups ctx o ordered (List.replicate ctx.teamCount emptyTeam) sh.2

/-- One attempt including refinement and evaluation. -/
def attemptOutcome (ctx : GenCtx) (o : Rand) (c : Nat) :
    Option (List TeamState × TeamQuality) × Nat :=
  match runAttempt ctx o c with
  | (none, c') => (none, c')
  | (some teams, c') =>
      let optimized := optimizeTeamsByLocalSearch teams ctx.groupById
        ctx.targetSizes ctx.groupAdjacency ctx.idealSkill ctx.targetGirls
        ctx.targetBoys ctx.levelTargets
      (some (optimized, evaluateTeams optimized ctx.idealSkill ctx.targetGirls
        ctx.targetBoys ctx.levelTargets), c')

/-- The early-exit test of the attempt loop: the source checks only the
first FOUR quality components (`genderDeviation` is not inspected). -/
def isPerfect (q : TeamQuality) : Bool :=
  q.levelGap == .fin 0 && q.levelDeviation == .fin 0 &&
  q.skillRange == .fin 0 && q.skillDeviation == .fin 0

def msgExhausted : String :=
  "Det gick inte att skapa en giltig lagindelning med nuvarande regler."

def sugExhausted : String :=
  "Minska antal lag eller justera spärrar/samma-lag-regler och försök igen."

/-- Result after the attempt loop ends or breaks. -/
def finishLoop (attemptLimit : Nat)
    (best : Option (TeamQuality × List (List Student) × Nat)) :
    TeamGenerationResult :=
  match best with
  | some (_, teams, attempt) => .ok teams attempt
  | none => .err msgExhausted sugExhausted attemptLimit

/-- The attempt loop: fuel counts remaining attempts, `attempt` is the
1-based attempt index, `c` the oracle position, `best` the kept best
(quality, member lists, attempt index). -/
def loopGo (ctx : GenCtx) (o : Rand) (attemptLimit : Nat) :
    Nat → Nat → Nat → Option (TeamQuality × List (List Student) × Nat) →
    TeamGenerationResult
| 0, _, _, best => finishLoop attemptLimit best
| fuel + 1, attempt, c, best =>
    match attemptOutcome ctx o c with
    | (none, c') => loopGo ctx o attemptLimit fuel (attempt + 1) c' best
    | (some (teams, q), c') =>
        let best' :=
          match best with
          | none => some (q, teams.map (·.members), attempt)
          | some (bq, bt, ba) =>
              if isBetterQuality q bq then
                some (q, teams.map (·.members), attempt)
              else some (bq, bt, ba)
        if isPerfect q then finishLoop attemptLimit best'
        else loopGo ctx o attemptLimit fuel (attempt + 1) c' best'

/-- Number of attempts the loop actually consumes (instrumentation of
`loopGo`: same recursion, counting iterations). -/
def loopCount (ctx : GenCtx) (o : Rand) : Nat → Nat → Nat
| 0, _ => 0
| fuel + 1, c =>
    match attemptOutcome ctx o c with
    | (none, c') => 1 + loopCount ctx o fuel c'
    | (some (_, q), c') =>
        if isPerfect q then 1 else 1 + loopCount ctx o fuel c'

/-- Outcome of the `k`-th attempt (0-based) counted from oracle position
`c`. -/
def traceOutcome (ctx : GenCtx) (o : Rand) :
    Nat → Nat → Option (List TeamState × TeamQuality)
| c, 0 => (attemptOutcome ctx o c).1
| c, k + 1 => traceOutcome ctx o (attemptOutcome ctx o c).2 k

/-! ### Named pre-loop context, mirroring the local bindings of
`generateTeams` so that theorems can refer to them. -/

def msgDup (duplicates : List String) : String :=
  "Dubbla elevnamn hittades: " ++ String.intercalate ", " duplicates ++ "."

def sugDup : String := "Ta bort dubletter i elevlistan och försök igen."

def msgNoPresent : String := "Inga elever är markerade som närvarande."

def sugNoPresent : String :=
  "Markera närvarande elever i elevlistan innan du genererar lag."

def msgTeamCount : String := "Antal lag måste vara mellan 2 och 10."

def sugTeamCount : String := "Ange ett giltigt antal lag och försök igen."

def msgTooMany : String :=
  "Antal lag kan inte vara större än antal närvarande elever."

def sugTooMany : String :=
  "Minska antal lag eller markera fler elever som närvarande."

def msgBlockSelf : String := "Minst en spärr har samma elev på båda sidor."

def sugBlockSelf : String := "Ta bort ogiltiga spärrar och försök igen."

def msgTogSelf : String :=
  "Minst en samma-lag-regel har samma elev på båda sidor."

def sugTogSelf : String := "Ta bort ogiltiga samma-lag-regler och försök igen."

def msgMissing : String :=
  "Det finns regler med elever som inte längre finns i klassen."

def sugMissing : String := "Rensa ogiltiga regler och försök igen."

def msgOversized : String :=
  "En samma-lag-regel skapar en grupp som är större än ett helt lag."

def sugOversized : String :=
  "Minska antal lag eller ta bort vissa samma-lag-regler."

def msgConflict (a b : String) : String :=
  "Regelkonflikt: " ++ a ++ " och " ++ b ++
    " är både spärrade och låsta till samma lag."

def sugConflict : String := "Ta bort den ena regeln och försök igen."

/-- The deduplicated roster. -/
def dedupedStudents (studentsInput : List Student) : List Student :=
  (dedupeStudents studentsInput).unique

/-- The present subset of the deduplicated roster. -/
def presentRoster (studentsInput : List Student) : List Student :=
  (dedupedStudents studentsInput).filter (·.present)

def normalizedAllOf (studentsInput : List Student) : List StudentNode :=
  (dedupedStudents studentsInput).map
    (fun s => { toStudent := s, key := normalizeName s.name })

def normalizedPresentOf (studentsInput : List Student) : List StudentNode :=
  (normalizedAllOf studentsInput).filter (·.present)

def allKeySetOf (studentsInput : List Student) : List String :=
  mkSet ((normalizedAllOf studentsInput).map (·.key))

def presentKeySetOf (studentsInput : List Student) : List String :=
  mkSet ((normalizedPresentOf studentsInput).map (·.key))

def blockValidationOf (studentsInput : List Student) (blocks : List BlockRule) :
    PairValidation :=
  buildPairValidation (allKeySetOf studentsInput) (presentKeySetOf studentsInput)
    blocks

def togetherValidationOf (studentsInput : List Student)
    (togetherRules : List BlockRule) : PairValidation :=
  buildPairValidation (allKeySetOf studentsInput) (presentKeySetOf studentsInput)
    togetherRules

def targetSizesOf (studentsInput : List Student) (teamCount : Nat) : List Nat :=
  calculateDistribution (normalizedPresentOf studentsInput).length teamCount

def maxTargetSizeOf (studentsInput : List Student) (teamCount : Nat) : Nat :=
  (targetSizesOf studentsInput teamCount).foldl max 0

def groupsOf (studentsInput : List Student) (togetherRules : List BlockRule) :
    List StudentGroup :=
  buildStudentGroups (normalizedPresentOf studentsInput)
    (togetherValidationOf studentsInput togetherRules).adjacency

def keyToNameOf (studentsInput : List Student) : List (String × String) :=
  (normalizedPresentOf studentsInput).foldl (fun m s => alSet m s.key s.name) []

def groupAdjacencyOf (studentsInput : List Student)
    (blocks togetherRules : List BlockRule) : Adj :=
  buildGroupAdjacency (groupsOf studentsInput togetherRules)
    (blockValidationOf studentsInput blocks).adjacency

def groupsWithDegreeOf (studentsInput : List Student)
    (blocks togetherRules : List BlockRule) : List StudentGroup :=
  (groupsOf studentsInput togetherRules).map (fun g =>
    { g with degree :=
        (alGetD (groupAdjacencyOf studentsInput blocks togetherRules) g.id
          []).length })

def groupByIdOf (studentsInput : List Student)
    (blocks togetherRules : List BlockRule) : List (String × StudentGroup) :=
  (groupsWithDegreeOf studentsInput blocks togetherRules).foldl
    (fun m g => alSet m g.id g) []

def totalSkillOf (studentsInput : List Student) : Nat :=
  (normalizedPresentOf studentsInput).foldl (fun a s => a + s.level.val) 0

def idealSkillOf (studentsInput : List Student) (teamCount : Nat) : ℚ :=
  ((totalSkillOf studentsInput : Nat) : ℚ) / ((teamCount : Nat) : ℚ)

def targetGirlsOf (studentsInput : List Student) (teamCount : Nat) : List Nat :=
  calculateDistribution
    ((normalizedPresentOf studentsInput).filter
      (fun s => s.gender == Gender.tjej)).length teamCount

def targetBoysOf (studentsInput : List Student) (teamCount : Nat) : List Nat :=
  calculateDistribution
    ((normalizedPresentOf studentsInput).filter
      (fun s => s.gender == Gender.kille)).length teamCount

def levelTargetsOf (studentsInput : List Student) (teamCount : Nat) :
    LevelTargets := fun level =>
  calculateDistribution
    ((normalizedPresentOf studentsInput).filter
      (fun s => s.level == level)).length teamCount

/-- The fully built pre-loop context of a call. -/
def ctxOf (studentsInput : List Student) (blocks togetherRules : List BlockRule)
    (teamCount : Nat) : GenCtx :=
  { groupsWithDegree := groupsWithDegreeOf studentsInput blocks togetherRules,
    groupById := groupByIdOf studentsInput blocks togetherRules,
    groupAdjacency := groupAdjacencyOf studentsInput blocks togetherRules,
    targetSizes := targetSizesOf studentsInput teamCount,
    targetGirls := targetGirlsOf studentsInput teamCount,
    targetBoys := targetBoysOf studentsInput teamCount,
    levelTargets := levelTargetsOf studentsInput teamCount,
    idealSkill := idealSkillOf studentsInput teamCount,
    teamCount := teamCount }

/-- The effective attempt budget: `Math.max(1, maxAttempts)`. -/
def attemptLimitOf (maxAttempts : Int) : Nat := (max 1 maxAttempts).toNat

/-- `generateTeams` from `teams.ts` (entry point).  `maxAttempts` defaults
to 2000 in the source; the oracle `o` models `Math.random`. -/
def generateTeams (studentsInput : List Student)
    (blocks togetherRules : List BlockRule) (teamCount : Nat)
    (maxAttempts : Int) (o : Rand) : TeamGenerationResult :=
  if 0 < (dedupeStudents studentsInput).duplicates.length then
    .err (msgDup (dedupeStudents studentsInput).duplicates) sugDup 0
  else if (presentRoster studentsInput).length = 0 then
    .err msgNoPresent sugNoPresent 0
  else if teamCount < 2 ∨ 10 < teamCount then
    .err msgTeamCount sugTeamCount 0
  else if (presentRoster studentsInput).length < teamCount then
    .err msgTooMany sugTooMany 0
  else if 0 < (blockValidationOf studentsInput blocks).invalidSelf.length then
    .err msgBlockSelf sugBlockSelf 0
  else if 0 < (togetherValidationOf studentsInput togetherRules).invalidSelf.length
  then
    .err msgTogSelf sugTogSelf 0
  else if 0 < (blockValidationOf studentsInput blocks).invalidMissing.length ∨
      0 < (togetherValidationOf studentsInput togetherRules).invalidMissing.length
  then
    .err msgMissing sugMissing 0
  else if (groupsOf studentsInput togetherRules).any
      (fun g => maxTargetSizeOf studentsInput teamCount < g.size) then
    .err msgOversized sugOversized 0
  else
    match findInternalConflict (groupsOf studentsInput togetherRules)
      (blockValidationOf studentsInput blocks).adjacency
      (keyToNameOf studentsInput) with
    | some conflict => .err (msgConflict conflict.1 conflict.2) sugConflict 0
    | none =>
        loopGo (ctxOf studentsInput blocks togetherRules teamCount) o
          (attemptLimitOf maxAttempts) (attemptLimitOf maxAttempts) 1 0 none

/-- All pre-loop validations pass: the call reaches the attempt loop. -/
def validationsPass (studentsInput : List Student)
    (blocks togetherRules : List BlockRule) (teamCount : Nat) : Prop :=
  (dedupeStudents studentsInput).duplicates.length = 0 ∧
  (presentRoster studentsInput).length ≠ 0 ∧
  2 ≤ teamCount ∧ teamCount ≤ 10 ∧
  teamCount ≤ (presentRoster studentsInput).length ∧
  (blockValidationOf studentsInput blocks).invalidSelf.length = 0 ∧
  (togetherValidationOf studentsInput togetherRules).invalidSelf.length = 0 ∧
  (blockValidationOf studentsInput blocks).invalidMissing.length = 0 ∧
  (togetherValidationOf studentsInput togetherRules).invalidMissing.length = 0 ∧
  (groupsOf studentsInput togetherRules).any
    (fun g => maxTargetSizeOf studentsInput teamCount < g.size) = false ∧
  findInternalConflict (groupsOf studentsInput togetherRules)
    (blockValidationOf studentsInput blocks).adjacency
    (keyToNameOf studentsInput) = none

theorem generateTeams_eq_loop (studentsInput : List Student)
    (blocks togetherRules : List BlockRule) (teamCount : Nat)
    (maxAttempts : Int) (o : Rand)
    (h : validationsPass studentsInput blocks togetherRules teamCount) :
    generateTeams studentsInput blocks togetherRules teamCount maxAttempts o =
      loopGo (ctxOf studentsInput blocks togetherRules teamCount) o
        (attemptLimitOf maxAttempts) (attemptLimitOf maxAttempts) 1 0 none := by
  obtain ⟨h1, h2, h3, h4, h5, h6, h7, h8, h9, h10, h11⟩ := h
  unfold generateTeams
  rw [if_neg (by omega), if_neg h2, if_neg (by omega), if_neg (by omega),
    if_neg (by omega), if_neg (by omega), if_neg (by omega),
    if_neg (by simp [h10]), h11]

/-! ## Claim C7: self-referential or dangling rules abort generation -/

/-- C7: any input whose exclusion or cohesion rules contain a
self-referential rule (both sides normalize to the same non-empty key) or
a dangling rule (a non-empty, distinct side absent from the full roster's
key set) makes `generateTeams` return a validation failure with
`attempts = 0` — it never reaches the attempt loop.  In particular
`{a := "Eva", b := "Eva"}` always aborts before any attempt. -/
theorem generateTeams_invalid_rules_fail (studentsInput : List Student)
    (blocks togetherRules : List BlockRule) (teamCount : Nat)
    (maxAttempts : Int) (o : Rand)
    (h : (∃ r ∈ blocks ++ togetherRules,
            normalizeName r.a ≠ "" ∧ normalizeName r.a = normalizeName r.b) ∨
         (∃ r ∈ blocks ++ togetherRules,
            normalizeName r.a ≠ "" ∧ normalizeName r.b ≠ "" ∧
            normalizeName r.a ≠ normalizeName r.b ∧
            (normalizeName r.a ∉ allKeySetOf studentsInput ∨
             normalizeName r.b ∉ allKeySetOf studentsInput))) :
    ∃ m s, generateTeams studentsInput blocks togetherRules teamCount
      maxAttempts o = .err m s 0 := by
  unfold generateTeams
  split_ifs with h1 h2 h3 h4 h5 h6 h7 h8
  any_goals exact ⟨_, _, rfl⟩
  all_goals {
    exfalso
    push_neg at h5 h6 h7
    have hbs : (blockValidationOf studentsInput blocks).invalidSelf = [] :=
      List.length_eq_zero.mp (by omega)
    have hts : (togetherValidationOf studentsInput togetherRules).invalidSelf =
        [] := List.length_eq_zero.mp (by omega)
    have hbm : (blockValidationOf studentsInput blocks).invalidMissing = [] :=
      List.length_eq_zero.mp (by omega)
    have htm : (togetherValidationOf studentsInput
        togetherRules).invalidMissing = [] := List.length_eq_zero.mp (by omega)
    rcases h with ⟨r, hr, ha, hab⟩ | ⟨r, hr, ha, hb, hab, hmiss⟩
    · rcases List.mem_append.mp hr with hr' | hr'
      · have := buildPairValidation_self_mem (allKeySetOf studentsInput)
          (presentKeySetOf studentsInput) blocks r hr' ha hab
        rw [show buildPairValidation (allKeySetOf studentsInput)
          (presentKeySetOf studentsInput) blocks =
          blockValidationOf studentsInput blocks from rfl, hbs] at this
        simp at this
      · have := buildPairValidation_self_mem (allKeySetOf studentsInput)
          (presentKeySetOf studentsInput) togetherRules r hr' ha hab
        rw [show buildPairValidation (allKeySetOf studentsInput)
          (presentKeySetOf studentsInput) togetherRules =
          togetherValidationOf studentsInput togetherRules from rfl, hts] at this
        simp at this
    · rcases List.mem_append.mp hr with hr' | hr'
      · have := buildPairValidation_missing_mem (allKeySetOf studentsInput)
          (presentKeySetOf studentsInput) blocks r hr' ha hb hab hmiss
        rw [show buildPairValidation (allKeySetOf studentsInput)
          (presentKeySetOf studentsInput) blocks =
          blockValidationOf studentsInput blocks from rfl, hbm] at this
        simp at this
      · have := buildPairValidation_missing_mem (allKeySetOf studentsInput)
          (presentKeySetOf studentsInput) togetherRules r hr' ha hb hab hmiss
        rw [show buildPairValidation (allKeySetOf studentsInput)
          (presentKeySetOf studentsInput) togetherRules =
          togetherValidationOf studentsInput togetherRules from rfl, htm] at this
        simp at this }

/-- Witness for C7: the roster Anna/Bertil with the self-referential rule
`{a := "Eva", b := "Eva"}` aborts with a zero-attempt failure. -/
theorem generateTeams_invalid_rules_fail_witness :
    ∃ m s, generateTeams
      [{ name := "Anna", level := .two, gender := .kille, present := true },
       { name := "Bertil", level := .two, gender := .kille, present := true }]
      [{ a := "Eva", b := "Eva" }] [] 2 2000 (fun _ => 0) = .err m s 0 :=
  generateTeams_invalid_rules_fail _ _ _ _ _ _
    (Or.inl ⟨{ a := "Eva", b := "Eva" }, by decide, by decide, rfl⟩)

/-! ## Claim C8: oversized cohesion groups abort generation -/

/-- C8: when roster and rule validation pass but some cohesion-formed
atomic group is larger than the maximum per-team target size,
`generateTeams` fails with the oversized-group error and `attempts = 0`,
before any allocation attempt. -/
theorem generateTeams_oversized_fail (studentsInput : List Student)
    (blocks togetherRules : List BlockRule) (teamCount : Nat)
    (maxAttempts : Int) (o : Rand)
    (h1 : (dedupeStudents studentsInput).duplicates.length = 0)
    (h2 : (presentRoster studentsInput).length ≠ 0)
    (h3 : 2 ≤ teamCount) (h4 : teamCount ≤ 10)
    (h5 : teamCount ≤ (presentRoster studentsInput).length)
    (h6 : (blockValidationOf studentsInput blocks).invalidSelf.length = 0)
    (h7 : (togetherValidationOf studentsInput togetherRules).invalidSelf.length
      = 0)
    (h8 : (blockValidationOf studentsInput blocks).invalidMissing.length = 0)
    (h9 : (togetherValidationOf studentsInput togetherRules).invalidMissing.length
      = 0)
    (hover : ∃ g ∈ groupsOf studentsInput togetherRules,
      maxTargetSizeOf studentsInput teamCount < g.size) :
    generateTeams studentsInput blocks togetherRules teamCount maxAttempts o =
      .err msgOversized sugOversized 0 := by
  unfold generateTeams
  rw [if_neg (by omega), if_neg h2, if_neg (by omega), if_neg (by omega),
    if_neg (by omega), if_neg (by omega), if_neg (by omega), if_pos]
  obtain ⟨g, hg, hsize⟩ := hover
  exact List.any_eq_true.mpr ⟨g, hg, by simpa using hsize⟩

/-- Witness for C8: four present members, two teams (target size 2), and
cohesion rules chaining three of them together must fail oversized. -/
theorem generateTeams_oversized_fail_witness :
    generateTeams
      [{ name := "Anna", level := .two, gender := .kille, present := true },
       { name := "Bea", level := .two, gender := .kille, present := true },
       { name := "Carl", level := .two, gender := .kille, present := true },
       { name := "Dan", level := .two, gender := .kille, present := true }]
      [] [{ a := "Anna", b := "Bea" }, { a := "Bea", b := "Carl" }] 2 2000
      (fun _ => 0) = .err msgOversized sugOversized 0 :=
  generateTeams_oversized_fail _ _ _ _ _ _ (by with_unfolding_all decide)
    (by with_unfolding_all decide) (by decide) (by decide)
    (by with_unfolding_all decide) (by with_unfolding_all decide)
    (by with_unfolding_all decide) (by with_unfolding_all decide)
    (by with_unfolding_all decide) (by with_unfolding_all decide)

/-! ## Claim C10: effective attempt budget is `max(1, maxAttempts)` -/

/-- Any error produced by the attempt loop is the search-exhaustion error
and reports the effective attempt limit. -/
theorem loopGo_err (ctx : GenCtx) (o : Rand) (attemptLimit : Nat) :
    ∀ fuel attempt c best m s n,
      loopGo ctx o attemptLimit fuel attempt c best =
        TeamGenerationResult.err m s n →
      m = msgExhausted ∧ s = sugExhausted ∧ n = attemptLimit := by
  intro fuel
  induction fuel with
  | zero =>
    intro attempt c best m s n h
    cases best with
    | none =>
      unfold loopGo finishLoop at h
      injection h with h1 h2 h3
      exact ⟨h1.symm, h2.symm, h3.symm⟩
    | some b =>
      unfold loopGo finishLoop at h
      obtain ⟨_, _, _⟩ := b
      simp at h
  | succ f ih =>
    intro attempt c best m s n h
    unfold loopGo at h
    rcases hout : attemptOutcome ctx o c with ⟨res, c'⟩
    rw [hout] at h
    cases res with
    | none => exact ih (attempt + 1) c' best m s n h
    | some tq =>
      obtain ⟨teams, q⟩ := tq
      simp only at h
      by_cases hperf : isPerfect q
      · rw [if_pos hperf] at h
        -- the kept best is necessarily `some`, so `finishLoop` succeeds
        cases best with
        | none => simp [finishLoop] at h
        | some b =>
          obtain ⟨bq, bt, ba⟩ := b
          by_cases hbetter : isBetterQuality q bq <;>
            simp [hbetter, finishLoop] at h
      · rw [if_neg hperf] at h
        exact ih (attempt + 1) c' _ m s n h

/-- The loop with fuel 1 consumes exactly one attempt. -/
theorem loopCount_one (ctx : GenCtx) (o : Rand) (c : Nat) :
    loopCount ctx o 1 c = 1 := by
  unfold loopCount
  rcases hout : attemptOutcome ctx o c with ⟨res, c'⟩
  cases res with
  | none => simp [loopCount]
  | some tq =>
    obtain ⟨teams, q⟩ := tq
    by_cases hperf : isPerfect q <;> simp [hperf, loopCount]

/-- C10: with `maxAttempts ≤ 0` the effective limit is `max 1 maxAttempts
= 1`: one attempt runs once the loop is reached, and a search-exhaustion
failure reports that effective limit, not the caller-supplied value. -/
theorem generateTeams_nonpositive_budget (studentsInput : List Student)
    (blocks togetherRules : List BlockRule) (teamCount : Nat)
    (maxAttempts : Int) (o : Rand) (hma : maxAttempts ≤ 0)
    (hv : validationsPass studentsInput blocks togetherRules teamCount) :
    attemptLimitOf maxAttempts = 1 ∧
    loopCount (ctxOf studentsInput blocks togetherRules teamCount) o
      (attemptLimitOf maxAttempts) 0 = 1 ∧
    ∀ m s n, generateTeams studentsInput blocks togetherRules teamCount
        maxAttempts o = .err m s n →
      m = msgExhausted ∧ n = attemptLimitOf maxAttempts := by
  have hlim : attemptLimitOf maxAttempts = 1 := by
    unfold attemptLimitOf
    rw [max_eq_left (by omega)]
    rfl
  refine ⟨hlim, by rw [hlim]; exact loopCount_one _ _ _, ?_⟩
  intro m s n h
  rw [generateTeams_eq_loop studentsInput blocks togetherRules teamCount
    maxAttempts o hv] at h
  obtain ⟨h1, _, h3⟩ := loopGo_err _ o (attemptLimitOf maxAttempts) _ _ _ _ _ _
    _ h
  exact ⟨h1, h3⟩

/-- Witness for C10: three pairwise-excluded members in two teams admit no
feasible allocation, and with `maxAttempts = 0` the exhaustion failure
reports one attempt. -/
theorem generateTeams_nonpositive_budget_witness :
    attemptLimitOf 0 = 1 ∧
    loopCount (ctxOf
      [{ name := "Anna", level := .two, gender := .kille, present := true },
       { name := "Bea", level := .two, gender := .kille, present := true },
       { name := "Carl", level := .two, gender := .kille, present := true }]
      [{ a := "Anna", b := "Bea" }, { a := "Bea", b := "Carl" },
       { a := "Anna", b := "Carl" }] [] 2) (fun _ => 0) (attemptLimitOf 0) 0 =
      1 ∧
    ∀ m s n, generateTeams
      [{ name := "Anna", level := .two, gender := .kille, present := true },
       { name := "Bea", level := .two, gender := .kille, present := true },
       { name := "Carl", level := .two, gender := .kille, present := true }]
      [{ a := "Anna", b := "Bea" }, { a := "Bea", b := "Carl" },
       { a := "Anna", b := "Carl" }] [] 2 0 (fun _ => 0) = .err m s n →
      m = msgExhausted ∧ n = attemptLimitOf 0 :=
  generateTeams_nonpositive_budget _ _ _ _ _ _ (by decide)
    (by unfold validationsPass; with_unfolding_all decide)

/-! ## Claim C5: early-exit condition of the attempt loop

The source breaks out of the loop when `levelGap`, `levelDeviation`,
`skillRange` and `skillDeviation` are all zero — it does **not** inspect
`genderDeviation`, so the claim "stops exactly when the five-component
vector is zero" fails (`loopGo_stops_iff_counterexample`) and the correct
condition tests only the first four components (`isPerfect`). -/

theorem traceOutcome_zero (ctx : GenCtx) (o : Rand) (c : Nat) :
    traceOutcome ctx o c 0 = (attemptOutcome ctx o c).1 := rfl

theorem traceOutcome_succ (ctx : GenCtx) (o : Rand) (c k : Nat) :
    traceOutcome ctx o c (k + 1) =
      traceOutcome ctx o (attemptOutcome ctx o c).2 k := rfl

theorem loopCount_succ_none (ctx : GenCtx) (o : Rand) (f c : Nat)
    (h : (attemptOutcome ctx o c).1 = none) :
    loopCount ctx o (f + 1) c = 1 + loopCount ctx o f (attemptOutcome ctx o c).2
    := by
  rcases hout : attemptOutcome ctx o c with ⟨res, c'⟩
  rw [hout] at h
  simp only at h
  subst h
  conv_lhs => rw [loopCount]
  rw [hout]

theorem loopCount_succ_perfect (ctx : GenCtx) (o : Rand) (f c : Nat)
    (ts : List TeamState) (q : TeamQuality)
    (h : (attemptOutcome ctx o c).1 = some (ts, q)) (hp : isPerfect q = true) :
    loopCount ctx o (f + 1) c = 1 := by
  rcases hout : attemptOutcome ctx o c with ⟨res, c'⟩
  rw [hout] at h
  simp only at h
  subst h
  conv_lhs => rw [loopCount]
  rw [hout]
  simp [hp]

theorem loopCount_succ_imperfect (ctx : GenCtx) (o : Rand) (f c : Nat)
    (ts : List TeamState) (q : TeamQuality)
    (h : (attemptOutcome ctx o c).1 = some (ts, q)) (hp : isPerfect q = false) :
    loopCount ctx o (f + 1) c = 1 + loopCount ctx o f (attemptOutcome ctx o c).2
    := by
  rcases hout : attemptOutcome ctx o c with ⟨res, c'⟩
  rw [hout] at h
  simp only at h
  subst h
  conv_lhs => rw [loopCount]
  rw [hout]
  simp [hp]

theorem loopCount_le (ctx : GenCtx) (o : Rand) :
    ∀ fuel c, loopCount ctx o fuel c ≤ fuel := by
  intro fuel
  induction fuel with
  | zero => intro c; simp [loopCount]
  | succ f ih =>
    intro c
    rcases hres : (attemptOutcome ctx o c).1 with _ | ⟨ts, q⟩
    · rw [loopCount_succ_none ctx o f c hres]
      have := ih (attemptOutcome ctx o c).2
      omega
    · by_cases hperf : isPerfect q
      · rw [loopCount_succ_perfect ctx o f c ts q hres hperf]
        omega
      · rw [loopCount_succ_imperfect ctx o f c ts q hres
          (Bool.not_eq_true _ ▸ hperf)]
        have := ih (attemptOutcome ctx o c).2
        omega

theorem loopCount_pos (ctx : GenCtx) (o : Rand) (fuel c : Nat)
    (h : 0 < fuel) : 1 ≤ loopCount ctx o fuel c := by
  obtain ⟨f, rfl⟩ : ∃ f, fuel = f + 1 := ⟨fuel - 1, by omega⟩
  rcases hres : (attemptOutcome ctx o c).1 with _ | ⟨ts, q⟩
  · rw [loopCount_succ_none ctx o f c hres]
    omega
  · by_cases hperf : isPerfect q
    · rw [loopCount_succ_perfect ctx o f c ts q hres hperf]
    · rw [loopCount_succ_imperfect ctx o f c ts q hres
        (Bool.not_eq_true _ ▸ hperf)]
      omega

/-- If the loop stops before exhausting its fuel, the last attempt it ran
produced a feasible refined allocation whose first four quality components
are zero. -/
theorem loopCount_lt_imp_perfect (ctx : GenCtx) (o : Rand) :
    ∀ fuel c, loopCount ctx o fuel c < fuel →
      ∃ ts q, traceOutcome ctx o c (loopCount ctx o fuel c - 1) =
        some (ts, q) ∧ isPerfect q = true := by
  intro fuel
  induction fuel with
  | zero => intro c h; omega
  | succ f ih =>
    intro c h
    rcases hres : (attemptOutcome ctx o c).1 with _ | ⟨ts, q⟩
    · rw [loopCount_succ_none ctx o f c hres] at h ⊢
      set c' := (attemptOutcome ctx o c).2 with hc'
      have hlt : loopCount ctx o f c' < f := by omega
      obtain ⟨ts, q, htr, hperf⟩ := ih c' hlt
      have hpos : 1 ≤ loopCount ctx o f c' := loopCount_pos ctx o f c' (by omega)
      refine ⟨ts, q, ?_, hperf⟩
      have harith : 1 + loopCount ctx o f c' - 1 =
          (loopCount ctx o f c' - 1) + 1 := by omega
      rw [harith, traceOutcome_succ]
      exact htr
    · by_cases hperf : isPerfect q
      · rw [loopCount_succ_perfect ctx o f c ts q hres hperf]
        exact ⟨ts, q, by rw [traceOutcome_zero]; exact hres, hperf⟩
      · rw [loopCount_succ_imperfect ctx o f c ts q hres
          (Bool.not_eq_true _ ▸ hperf)] at h ⊢
        set c' := (attemptOutcome ctx o c).2 with hc'
        have hlt : loopCount ctx o f c' < f := by omega
        obtain ⟨ts', q', htr, hperf'⟩ := ih c' hlt
        have hpos : 1 ≤ loopCount ctx o f c' :=
          loopCount_pos ctx o f c' (by omega)
        refine ⟨ts', q', ?_, hperf'⟩
        have harith : 1 + loopCount ctx o f c' - 1 =
            (loopCount ctx o f c' - 1) + 1 := by omega
        rw [harith, traceOutcome_succ]
        exact htr

/-- If no attempt the loop ran had its first four quality components all
zero, the loop consumes its entire fuel. -/
theorem loopCount_eq_of_no_perfect (ctx : GenCtx) (o : Rand) :
    ∀ fuel c,
      (∀ k < loopCount ctx o fuel c, ∀ ts q,
        traceOutcome ctx o c k = some (ts, q) → isPerfect q = false) →
      loopCount ctx o fuel c = fuel := by
  intro fuel
  induction fuel with
  | zero => intro c _; simp [loopCount]
  | succ f ih =>
    intro c h
    rcases hres : (attemptOutcome ctx o c).1 with _ | ⟨ts, q⟩
    · rw [loopCount_succ_none ctx o f c hres] at h ⊢
      have : loopCount ctx o f (attemptOutcome ctx o c).2 = f := by
        refine ih _ ?_
        intro k hk ts q htr
        refine h (k + 1) (by omega) ts q ?_
        rw [traceOutcome_succ]
        exact htr
      omega
    · by_cases hperf : isPerfect q
      · exfalso
        have h0 := h 0
          (by rw [loopCount_succ_perfect ctx o f c ts q hres hperf]; omega)
          ts q (by rw [traceOutcome_zero]; exact hres)
        rw [hperf] at h0
        simp at h0
      · rw [loopCount_succ_imperfect ctx o f c ts q hres
          (Bool.not_eq_true _ ▸ hperf)] at h ⊢
        have : loopCount ctx o f (attemptOutcome ctx o c).2 = f := by
          refine ih _ ?_
          intro k hk ts' q' htr
          refine h (k + 1) (by omega) ts' q' ?_
          rw [traceOutcome_succ]
          exact htr
        omega

/-- Counterexample to C5 as stated: on the two-member mixed-gender roster
the first attempt's refined allocation has `levelGap = levelDeviation =
skillRange = skillDeviation = 0` but `genderDeviation = 2`, and the loop
still stops after one of its 2000 attempts: the stop condition ignores
the fifth component. -/
theorem loopGo_stops_iff_counterexample :
    loopCount (ctxOf
      [{ name := "Greta", level := .two, gender := .tjej, present := true },
       { name := "Kalle", level := .two, gender := .kille, present := true }]
      [] [] 2) (fun _ => 0) (attemptLimitOf 2000) 0 = 1 ∧
    1 < attemptLimitOf 2000 ∧
    (traceOutcome (ctxOf
      [{ name := "Greta", level := .two, gender := .tjej, present := true },
       { name := "Kalle", level := .two, gender := .kille, present := true }]
      [] [] 2) (fun _ => 0) 0 0).map
        (fun tq => (isPerfect tq.2, tq.2.genderDeviation)) =
      some (true, QVal.fin 2) := by
  refine ⟨?_, by decide, ?_⟩ <;> with_unfolding_all decide

/-- C5 (amended): the attempt loop stops before consuming the whole
`max 1 maxAttempts` budget exactly as governed by the four-component test:
if it stopped early, the last attempt it ran was feasible with
`levelGap = levelDeviation = skillRange = skillDeviation = 0` (regardless
of `genderDeviation`); and if no run attempt satisfied that four-component
test, every attempt up to the limit is run. -/
theorem loopGo_early_exit_four_components (studentsInput : List Student)
    (blocks togetherRules : List BlockRule) (teamCount : Nat)
    (maxAttempts : Int) (o : Rand)
    (hv : validationsPass studentsInput blocks togetherRules teamCount) :
    (loopCount (ctxOf studentsInput blocks togetherRules teamCount) o
        (attemptLimitOf maxAttempts) 0 < attemptLimitOf maxAttempts →
      ∃ ts q, traceOutcome (ctxOf studentsInput blocks togetherRules teamCount)
        o 0 (loopCount (ctxOf studentsInput blocks togetherRules teamCount) o
          (attemptLimitOf maxAttempts) 0 - 1) = some (ts, q) ∧
        isPerfect q = true) ∧
    ((∀ k < loopCount (ctxOf studentsInput blocks togetherRules teamCount) o
        (attemptLimitOf maxAttempts) 0, ∀ ts q,
        traceOutcome (ctxOf studentsInput blocks togetherRules teamCount) o 0 k
          = some (ts, q) → isPerfect q = false) →
      loopCount (ctxOf studentsInput blocks togetherRules teamCount) o
        (attemptLimitOf maxAttempts) 0 = attemptLimitOf maxAttempts) := by
  exact ⟨loopCount_lt_imp_perfect _ o (attemptLimitOf maxAttempts) 0,
    loopCount_eq_of_no_perfect _ o (attemptLimitOf maxAttempts) 0⟩

/-- Witness for the amended C5 at the counterexample input: the loop
stopped early and the last run attempt indeed satisfies the four-component
test. -/
theorem loopGo_early_exit_four_components_witness :
    ∃ ts q, traceOutcome (ctxOf
      [{ name := "Greta", level := .two, gender := .tjej, present := true },
       { name := "Kalle", level := .two, gender := .kille, present := true }]
      [] [] 2) (fun _ => 0) 0
      (loopCount (ctxOf
        [{ name := "Greta", level := .two, gender := .tjej, present := true },
         { name := "Kalle", level := .two, gender := .kille, present := true }]
        [] [] 2) (fun _ => 0) (attemptLimitOf 2000) 0 - 1) = some (ts, q) ∧
      isPerfect q = true :=
  (loopGo_early_exit_four_components
    [{ name := "Greta", level := .two, gender := .tjej, present := true },
     { name := "Kalle", level := .two, gender := .kille, present := true }]
    [] [] 2 2000 (fun _ => 0)
    (by unfold validationsPass; with_unfolding_all decide)).1
    (by with_unfolding_all decide)

/-! ## Order facts about the lexicographic quality comparison -/

theorem QVal.lt_irrefl (a : QVal) : QVal.lt a a = false := by
  cases a with
  | fin q => simp [QVal.lt]
  | inf => rfl

theorem QVal.lt_asymm (a b : QVal) (h : QVal.lt a b = true) :
    QVal.lt b a = false := by
  cases a with
  | fin qa =>
    cases b with
    | fin qb =>
      simp only [QVal.lt, decide_eq_true_eq] at h
      simp only [QVal.lt, decide_eq_false_iff_not]
      exact not_lt_of_gt h
    | inf => rfl
  | inf =>
    cases b with
    | fin qb => simp [QVal.lt] at h
    | inf => rfl

theorem QVal.lt_total (a b : QVal) (hne : a ≠ b) (h : QVal.lt a b = false) :
    QVal.lt b a = true := by
  cases a with
  | fin qa =>
    cases b with
    | fin qb =>
      simp only [QVal.lt, decide_eq_false_iff_not] at h
      simp only [QVal.lt, decide_eq_true_eq]
      have hq : qa ≠ qb := fun he => hne (by rw [he])
      exact lt_of_le_of_ne (le_of_not_lt h) (fun he => hq he.symm)
    | inf => simp [QVal.lt] at h
  | inf =>
    cases b with
    | fin qb => rfl
    | inf => exact absurd rfl hne

theorem QVal.lt_trans (a b c : QVal) (h1 : QVal.lt a b = true)
    (h2 : QVal.lt b c = true) : QVal.lt a c = true := by
  cases a with
  | fin qa =>
    cases b with
    | fin qb =>
      cases c with
      | fin qc =>
        simp only [QVal.lt, decide_eq_true_eq] at h1 h2 ⊢
        exact h1.trans h2
      | inf => rfl
    | inf =>
      cases c with
      | fin qc => simp [QVal.lt] at h2
      | inf => simp [QVal.lt] at h2
  | inf => simp [QVal.lt] at h1

/-- The five quality components, in comparison order. -/
def qList (q : TeamQuality) : List QVal :=
  [q.levelGap, q.levelDeviation, q.skillRange, q.skillDeviation,
   q.genderDeviation]

/-- Generic strict lexicographic comparison used by `isBetterQuality`. -/
def lexLt : List QVal → List QVal → Bool
| x :: xs, y :: ys => if x ≠ y then QVal.lt x y else lexLt xs ys
| _, _ => false

theorem isBetterQuality_eq_lexLt (a b : TeamQuality) :
    isBetterQuality a b = lexLt (qList a) (qList b) := by
  unfold isBetterQuality qList lexLt
  by_cases h1 : a.levelGap = b.levelGap <;>
    by_cases h2 : a.levelDeviation = b.levelDeviation <;>
    by_cases h3 : a.skillRange = b.skillRange <;>
    by_cases h4 : a.skillDeviation = b.skillDeviation <;>
    by_cases h5 : a.genderDeviation = b.genderDeviation <;>
    simp [h1, h2, h3, h4, h5, lexLt]

theorem lexLt_cons_eq (x : QVal) (xs ys : List QVal) :
    lexLt (x :: xs) (x :: ys) = lexLt xs ys := by
  simp [lexLt]

theorem lexLt_cons_ne (x y : QVal) (hxy : x ≠ y) (xs ys : List QVal) :
    lexLt (x :: xs) (y :: ys) = QVal.lt x y := by
  simp [lexLt, hxy]

theorem lexLt_irrefl (l : List QVal) : lexLt l l = false := by
  induction l with
  | nil => rfl
  | cons x xs ih => rw [lexLt_cons_eq]; exact ih

theorem lexLt_asymm (l1 l2 : List QVal) (h : lexLt l1 l2 = true) :
    lexLt l2 l1 = false := by
  induction l1 generalizing l2 with
  | nil => simp [lexLt] at h
  | cons x xs ih =>
    cases l2 with
    | nil => simp [lexLt] at h
    | cons y ys =>
      by_cases hxy : x = y
      · subst hxy
        rw [lexLt_cons_eq] at h ⊢
        exact ih ys h
      · rw [lexLt_cons_ne x y hxy] at h
        rw [lexLt_cons_ne y x (fun he => hxy he.symm)]
        exact QVal.lt_asymm x y h

theorem lexLt_negtrans (l1 l2 l3 : List QVal) (hlen21 : l2.length = l1.length)
    (hlen32 : l3.length = l2.length)
    (h21 : lexLt l2 l1 = false) (h32 : lexLt l3 l2 = false) :
    lexLt l3 l1 = false := by
  induction l1 generalizing l2 l3 with
  | nil =>
    cases l3 with
    | nil => rfl
    | cons z zs =>
      exfalso
      rw [hlen21] at hlen32
      simp at hlen32
  | cons x xs ih =>
    cases l2 with
    | nil => simp at hlen21
    | cons y ys =>
      cases l3 with
      | nil => simp at hlen32
      | cons z zs =>
        simp only [List.length_cons, Nat.add_right_cancel_iff]
          at hlen21 hlen32
        by_cases hzx : z = x
        · subst hzx
          rw [lexLt_cons_eq]
          by_cases hyx : y = z
          · subst hyx
            rw [lexLt_cons_eq] at h21 h32
            exact ih ys zs hlen21 hlen32 h21 h32
          · exfalso
            rw [lexLt_cons_ne y z hyx] at h21
            have h1 : QVal.lt z y = true := QVal.lt_total y z hyx h21
            rw [lexLt_cons_ne z y (fun he => hyx he.symm)] at h32
            rw [h32] at h1
            simp at h1
        · rw [lexLt_cons_ne z x hzx]
          by_cases hyx : y = x
          · subst hyx
            have hzy : z ≠ y := hzx
            rw [lexLt_cons_ne z y hzy] at h32
            exact h32
          · rw [lexLt_cons_ne y x hyx] at h21
            have h1 : QVal.lt x y = true := QVal.lt_total y x hyx h21
            by_cases hzy : z = y
            · subst hzy
              exact QVal.lt_asymm x z h1
            · rw [lexLt_cons_ne z y hzy] at h32
              have h2 : QVal.lt y z = true := QVal.lt_total z y hzy h32
              exact QVal.lt_asymm x z (QVal.lt_trans x y z h1 h2)

theorem lexLt_lt_of_le (l1 l2 l3 : List QVal) (hlen : l3.length = l2.length)
    (h12 : lexLt l1 l2 = true) (h32 : lexLt l3 l2 = false) :
    lexLt l1 l3 = true := by
  induction l1 generalizing l2 l3 with
  | nil => simp [lexLt] at h12
  | cons x xs ih =>
    cases l2 with
    | nil => simp [lexLt] at h12
    | cons y ys =>
      cases l3 with
      | nil => simp at hlen
      | cons z zs =>
        simp only [List.length_cons, Nat.add_right_cancel_iff] at hlen
        by_cases hxz : x = z
        · subst hxz
          rw [lexLt_cons_eq]
          by_cases hxy : x = y
          · subst hxy
            rw [lexLt_cons_eq] at h12 h32
            exact ih ys zs hlen h12 h32
          · exfalso
            rw [lexLt_cons_ne x y hxy] at h12 h32
            rw [h32] at h12
            simp at h12
        · rw [lexLt_cons_ne x z hxz]
          by_cases hxy : x = y
          · subst hxy
            by_cases hzy : z = x
            · exact absurd hzy.symm hxz
            · rw [lexLt_cons_ne z x hzy] at h32
              exact QVal.lt_total z x hzy h32
          · rw [lexLt_cons_ne x y hxy] at h12
            by_cases hzy : z = y
            · subst hzy
              exact h12
            · rw [lexLt_cons_ne z y hzy] at h32
              have h2 : QVal.lt y z = true := QVal.lt_total z y hzy h32
              exact QVal.lt_trans x y z h12 h2

/-- `a` is at least as good as `b` in the lexicographic quality order. -/
def qle (a b : TeamQuality) : Prop := isBetterQuality b a = false

theorem qle_refl (a : TeamQuality) : qle a a := by
  unfold qle
  rw [isBetterQuality_eq_lexLt]
  exact lexLt_irrefl _

theorem qle_of_better (a b : TeamQuality) (h : isBetterQuality a b = true) :
    qle a b := by
  unfold qle
  rw [isBetterQuality_eq_lexLt] at h ⊢
  exact lexLt_asymm _ _ h

theorem qle_trans (a b c : TeamQuality) (h1 : qle a b) (h2 : qle b c) :
    qle a c := by
  unfold qle at h1 h2 ⊢
  rw [isBetterQuality_eq_lexLt] at h1 h2 ⊢
  exact lexLt_negtrans _ _ _ (by simp [qList]) (by simp [qList]) h1 h2

theorem better_of_better_of_qle (a b c : TeamQuality)
    (h1 : isBetterQuality a b = true) (h2 : qle b c) :
    isBetterQuality a c = true := by
  unfold qle at h2
  rw [isBetterQuality_eq_lexLt] at h1 h2 ⊢
  exact lexLt_lt_of_le _ _ _ (by simp [qList]) h1 h2

/-! ## Claim C4: the success result is the lexicographically best feasible
attempt -/

theorem loopGo_succ_none (ctx : GenCtx) (o : Rand) (L f attempt c : Nat)
    (best : Option (TeamQuality × List (List Student) × Nat))
    (h : (attemptOutcome ctx o c).1 = none) :
    loopGo ctx o L (f + 1) attempt c best =
      loopGo ctx o L f (attempt + 1) (attemptOutcome ctx o c).2 best := by
  rcases hout : attemptOutcome ctx o c with ⟨res, c'⟩
  rw [hout] at h
  simp only at h
  subst h
  conv_lhs => rw [loopGo]
  rw [hout]

/-- The best-so-far update of one feasible attempt (the inline `match` of
the loop body, named for the proofs). -/
def bestUpdate (best : Option (TeamQuality × List (List Student) × Nat))
    (q : TeamQuality) (tm : List (List Student)) (attempt : Nat) :
    Option (TeamQuality × List (List Student) × Nat) :=
  match best with
  | none => some (q, tm, attempt)
  | some (bq, bt, ba) =>
      if isBetterQuality q bq then some (q, tm, attempt) else some (bq, bt, ba)

theorem bestUpdate_none (q : TeamQuality) (tm : List (List Student))
    (attempt : Nat) : bestUpdate none q tm attempt = some (q, tm, attempt) :=
  rfl

theorem bestUpdate_some (bq : TeamQuality) (bt : List (List Student)) (ba : Nat)
    (q : TeamQuality) (tm : List (List Student)) (attempt : Nat) :
    bestUpdate (some (bq, bt, ba)) q tm attempt =
      if isBetterQuality q bq then some (q, tm, attempt) else some (bq, bt, ba)
    := rfl

theorem loopGo_succ_some (ctx : GenCtx) (o : Rand) (L f attempt c : Nat)
    (best : Option (TeamQuality × List (List Student) × Nat))
    (ts : List TeamState) (q : TeamQuality)
    (h : (attemptOutcome ctx o c).1 = some (ts, q)) :
    loopGo ctx o L (f + 1) attempt c best =
      (if isPerfect q then
        finishLoop L (bestUpdate best q (ts.map (·.members)) attempt)
      else
        loopGo ctx o L f (attempt + 1) (attemptOutcome ctx o c).2
          (bestUpdate best q (ts.map (·.members)) attempt)) := by
  rcases hout : attemptOutcome ctx o c with ⟨res, c'⟩
  rw [hout] at h
  simp only at h
  subst h
  conv_lhs => rw [loopGo]
  rw [hout]
  rfl

/-- Main loop invariant: a successful result of the attempt loop carries an
allocation whose quality is at least as good as that of every feasible
attempt the loop ran and as the inherited best; moreover the result either
is the inherited best or stems from a run attempt that strictly improved on
everything before it. -/
theorem loop_ok (ctx : GenCtx) (o : Rand) (L : Nat) : ∀ fuel attempt c best t a,
    loopGo ctx o L fuel attempt c best = .ok t a →
    ∃ q : TeamQuality,
      ((best = some (q, t, a)) ∨
       (∃ k, k < loopCount ctx o fuel c ∧ a = attempt + k ∧
          (∃ ts, traceOutcome ctx o c k = some (ts, q) ∧
            ts.map (·.members) = t) ∧
          (∀ j < k, ∀ tsj qj, traceOutcome ctx o c j = some (tsj, qj) →
             isBetterQuality q qj = true) ∧
          (∀ bq bt ba, best = some (bq, bt, ba) →
             isBetterQuality q bq = true))) ∧
      (∀ bq bt ba, best = some (bq, bt, ba) → qle q bq) ∧
      (∀ k, k < loopCount ctx o fuel c → ∀ tsk qk,
         traceOutcome ctx o c k = some (tsk, qk) → qle q qk) := by
  intro fuel
  induction fuel with
  | zero =>
    intro attempt c best t a h
    cases best with
    | none => simp [loopGo, finishLoop] at h
    | some b =>
      obtain ⟨bq, bt, ba⟩ := b
      simp only [loopGo, finishLoop] at h
      injection h with h1 h2
      subst h1
      subst h2
      refine ⟨bq, Or.inl rfl, ?_, ?_⟩
      · intro bq' bt' ba' hb
        injection hb with hb'
        injection hb' with e1 _
        rw [← e1]
        exact qle_refl bq
      · intro k hk
        simp [loopCount] at hk
  | succ f ih =>
    intro attempt c best t a h
    rcases hres : (attemptOutcome ctx o c).1 with _ | ⟨ts, qa⟩
    · -- infeasible attempt: recurse
      rw [loopGo_succ_none ctx o L f attempt c best hres] at h
      obtain ⟨q, hsrc, hqb, hdom⟩ := ih (attempt + 1) (attemptOutcome ctx o c).2
        best t a h
      have hcnt := loopCount_succ_none ctx o f c hres
      refine ⟨q, ?_, hqb, ?_⟩
      · rcases hsrc with hb | ⟨k, hk, ha, ⟨ts', htr, hmap⟩, hearly, hbest⟩
        · exact Or.inl hb
        · refine Or.inr ⟨k + 1, by omega, by omega,
            ⟨ts', by rw [traceOutcome_succ]; exact htr, hmap⟩, ?_, hbest⟩
          intro j hj tsj qj htrj
          cases j with
          | zero =>
            rw [traceOutcome_zero, hres] at htrj
            exact absurd htrj (by simp)
          | succ j' =>
            rw [traceOutcome_succ] at htrj
            exact hearly j' (by omega) tsj qj htrj
      · intro k hk tsk qk htrk
        cases k with
        | zero =>
          rw [traceOutcome_zero, hres] at htrk
          exact absurd htrk (by simp)
        | succ k' =>
          rw [traceOutcome_succ] at htrk
          rw [hcnt] at hk
          exact hdom k' (by omega) tsk qk htrk
    · -- feasible attempt with quality `qa`
      rw [loopGo_succ_some ctx o L f attempt c best ts qa hres] at h
      by_cases hperf : isPerfect qa
      · rw [if_pos hperf] at h
        have hcnt := loopCount_succ_perfect ctx o f c ts qa hres hperf
        cases best with
        | none =>
          simp only [bestUpdate, finishLoop] at h
          injection h with h1 h2
          refine ⟨qa, Or.inr ⟨0, by omega, by omega, ⟨ts, ?_, h1⟩, ?_, ?_⟩,
            ?_, ?_⟩
          · rw [traceOutcome_zero]
            exact hres
          · intro j hj
            omega
          · intro bq bt ba hb
            exact absurd hb (by simp)
          · intro bq bt ba hb
            exact absurd hb (by simp)
          · intro k hk tsk qk htrk
            rw [hcnt] at hk
            interval_cases k
            rw [traceOutcome_zero, hres] at htrk
            injection htrk with he
            injection he with e1 e2
            rw [← e2]
            exact qle_refl qa
        | some b =>
          obtain ⟨bq, bt, ba⟩ := b
          rw [bestUpdate_some] at h
          by_cases hbetter : isBetterQuality qa bq
          · rw [if_pos hbetter] at h
            simp only [finishLoop] at h
            injection h with h1 h2
            refine ⟨qa, Or.inr ⟨0, by omega, by omega, ⟨ts, ?_, h1⟩, ?_, ?_⟩,
              ?_, ?_⟩
            · rw [traceOutcome_zero]
              exact hres
            · intro j hj
              omega
            · intro bq' bt' ba' hb
              injection hb with hb'
              injection hb' with e1 _
              rw [← e1]
              exact hbetter
            · intro bq' bt' ba' hb
              injection hb with hb'
              injection hb' with e1 _
              rw [← e1]
              exact qle_of_better qa bq hbetter
            · intro k hk tsk qk htrk
              rw [hcnt] at hk
              interval_cases k
              rw [traceOutcome_zero, hres] at htrk
              injection htrk with he
              injection he with e1 e2
              rw [← e2]
              exact qle_refl qa
          · rw [if_neg hbetter] at h
            simp only [finishLoop] at h
            injection h with h1 h2
            refine ⟨bq, Or.inl (by rw [h1, h2]), ?_, ?_⟩
            · intro bq' bt' ba' hb
              injection hb with hb'
              injection hb' with e1 _
              rw [← e1]
              exact qle_refl bq
            · intro k hk tsk qk htrk
              rw [hcnt] at hk
              interval_cases k
              rw [traceOutcome_zero, hres] at htrk
              injection htrk with he
              injection he with e1 e2
              rw [← e2]
              exact (Bool.not_eq_true _).mp hbetter
      · rw [if_neg hperf] at h
        have hcnt := loopCount_succ_imperfect ctx o f c ts qa hres
          ((Bool.not_eq_true _).mp hperf)
        -- name the updated best
        set best' := bestUpdate best qa (ts.map (·.members)) attempt with hbest'
        obtain ⟨q, hsrc, hqb, hdom⟩ := ih (attempt + 1)
          (attemptOutcome ctx o c).2 best' t a h
        -- q is at least as good as `qa` in every case
        have hqle_qa : qle q qa := by
          cases best with
          | none =>
            have := hqb qa (ts.map (·.members)) attempt (by rw [hbest']; rfl)
            exact this
          | some b =>
            obtain ⟨bq, bt, ba⟩ := b
            by_cases hbetter : isBetterQuality qa bq
            · exact hqb qa (ts.map (·.members)) attempt
                (by rw [hbest']; simp [bestUpdate, hbetter])
            · have h1 : qle q bq := hqb bq bt ba
                (by rw [hbest']; simp [bestUpdate, hbetter])
              have h2 : qle bq qa := (Bool.not_eq_true _).mp hbetter
              exact qle_trans q bq qa h1 h2
        refine ⟨q, ?_, ?_, ?_⟩
        · -- source of the result
          rcases hsrc with hb | ⟨k, hk, ha, ⟨ts', htr, hmap⟩, hearly, hbeststr⟩
          · -- the result came from `best'`
            cases best with
            | none =>
              rw [hbest'] at hb
              simp only [bestUpdate, Option.some.injEq, Prod.mk.injEq] at hb
              obtain ⟨e1, e2, e3⟩ := hb
              refine Or.inr ⟨0, by omega, by omega, ⟨ts, ?_, e2⟩,
                by intro j hj; omega,
                by intro bq bt ba hbb; exact absurd hbb (by simp)⟩
              rw [traceOutcome_zero, hres, e1]
            | some b =>
              obtain ⟨bq, bt, ba⟩ := b
              by_cases hbetter : isBetterQuality qa bq
              · rw [hbest', bestUpdate_some, if_pos hbetter] at hb
                simp only [Option.some.injEq, Prod.mk.injEq] at hb
                obtain ⟨e1, e2, e3⟩ := hb
                refine Or.inr ⟨0, by omega, by omega, ⟨ts, ?_, e2⟩,
                  by intro j hj; omega, ?_⟩
                · rw [traceOutcome_zero, hres, e1]
                · intro bq' bt' ba' hbb
                  simp only [Option.some.injEq, Prod.mk.injEq] at hbb
                  obtain ⟨g1, g2, g3⟩ := hbb
                  rw [← g1, ← e1]
                  exact hbetter
              · rw [hbest', bestUpdate_some, if_neg hbetter] at hb
                exact Or.inl hb
          · -- the result came from a later attempt
            refine Or.inr ⟨k + 1, by omega, by omega,
              ⟨ts', by rw [traceOutcome_succ]; exact htr, hmap⟩, ?_, ?_⟩
            · intro j hj tsj qj htrj
              cases j with
              | zero =>
                rw [traceOutcome_zero, hres] at htrj
                injection htrj with he
                injection he with e1 e2
                rw [← e2]
                -- strictly better than `qa`: via strictness against `best'`
                cases best with
                | none =>
                  exact hbeststr qa (ts.map (·.members)) attempt
                    (by rw [hbest']; rfl)
                | some b =>
                  obtain ⟨bq, bt, ba⟩ := b
                  by_cases hbetter : isBetterQuality qa bq
                  · exact hbeststr qa (ts.map (·.members)) attempt
                      (by rw [hbest']; simp [bestUpdate, hbetter])
                  · have h1 : isBetterQuality q bq = true :=
                      hbeststr bq bt ba
                        (by rw [hbest']; simp [bestUpdate, hbetter])
                    exact better_of_better_of_qle q bq qa h1
                      ((Bool.not_eq_true _).mp hbetter)
              | succ j' =>
                rw [traceOutcome_succ] at htrj
                exact hearly j' (by omega) tsj qj htrj
            · intro bq bt ba hbb
              subst hbb
              cases hbest'2 : best' with
              | none =>
                rw [hbest'] at hbest'2
                by_cases hbetter : isBetterQuality qa bq <;>
                  simp [bestUpdate, hbetter] at hbest'2
              | some b' =>
                obtain ⟨bq', bt', ba'⟩ := b'
                have hstr : isBetterQuality q bq' = true :=
                  hbeststr bq' bt' ba' hbest'2
                by_cases hbetter : isBetterQuality qa bq
                · have : bq' = qa := by
                    rw [hbest', bestUpdate_some, if_pos hbetter] at hbest'2
                    injection hbest'2 with he
                    injection he with e1 _
                    exact e1.symm
                  rw [this] at hstr
                  exact better_of_better_of_qle q qa bq hstr
                    (qle_of_better qa bq hbetter)
                · have : bq' = bq := by
                    rw [hbest', bestUpdate_some, if_neg hbetter] at hbest'2
                    injection hbest'2 with he
                    injection he with e1 _
                    exact e1.symm
                  rw [this] at hstr
                  exact hstr
        · -- at least as good as the inherited best
          intro bq bt ba hbb
          subst hbb
          by_cases hbetter : isBetterQuality qa bq
          · have h1 : qle q qa := hqle_qa
            exact qle_trans q qa bq h1 (qle_of_better qa bq hbetter)
          · exact hqb bq bt ba (by rw [hbest']; simp [bestUpdate, hbetter])
        · -- dominates every attempt this loop ran
          intro k hk tsk qk htrk
          cases k with
          | zero =>
            rw [traceOutcome_zero, hres] at htrk
            injection htrk with he
            injection he with e1 e2
            rw [← e2]
            exact hqle_qa
          | succ k' =>
            rw [traceOutcome_succ] at htrk
            rw [hcnt] at hk
            exact hdom k' (by omega) tsk qk htrk

theorem attemptOutcome_shape (ctx : GenCtx) (o : Rand) (c : Nat)
    (ts : List TeamState) (q : TeamQuality)
    (h : (attemptOutcome ctx o c).1 = some (ts, q)) :
    ∃ placed, ts = optimizeTeamsByLocalSearch placed ctx.groupById
        ctx.targetSizes ctx.groupAdjacency ctx.idealSkill ctx.targetGirls
        ctx.targetBoys ctx.levelTargets ∧
      q = evaluateTeams ts ctx.idealSkill ctx.targetGirls ctx.targetBoys
        ctx.levelTargets := by
  unfold attemptOutcome at h
  rcases hra : runAttempt ctx o c with ⟨ores, c'⟩
  rw [hra] at h
  cases ores with
  | none => simp at h
  | some placed =>
    simp only [Option.some.injEq, Prod.mk.injEq] at h
    obtain ⟨h1, h2⟩ := h
    exact ⟨placed, h1.symm, by rw [← h2, h1]⟩

theorem traceOutcome_shape (ctx : GenCtx) (o : Rand) :
    ∀ k c ts q, traceOutcome ctx o c k = some (ts, q) →
    ∃ placed, ts = optimizeTeamsByLocalSearch placed ctx.groupById
        ctx.targetSizes ctx.groupAdjacency ctx.idealSkill ctx.targetGirls
        ctx.targetBoys ctx.levelTargets ∧
      q = evaluateTeams ts ctx.idealSkill ctx.targetGirls ctx.targetBoys
        ctx.levelTargets := by
  intro k
  induction k with
  | zero =>
    intro c ts q h
    rw [traceOutcome_zero] at h
    exact attemptOutcome_shape ctx o c ts q h
  | succ k' ih =>
    intro c ts q h
    rw [traceOutcome_succ] at h
    exact ih _ ts q h

/-- C4: whenever a call that reaches the attempt loop succeeds, the result
stems from a feasible run attempt whose placement was refined by local
search and then evaluated; its five-component quality vector is
lexicographically at least as good as the vector of every feasible attempt
the loop ran; the kept best was replaced only on strict improvement (the
winner is strictly better than every earlier feasible attempt); and the
returned `attempts` field is the 1-based index of the winning attempt. -/
theorem generateTeams_success_is_best_of_run (studentsInput : List Student)
    (blocks togetherRules : List BlockRule) (teamCount : Nat)
    (maxAttempts : Int) (o : Rand) (t : List (List Student)) (a : Nat)
    (hv : validationsPass studentsInput blocks togetherRules teamCount)
    (hok : generateTeams studentsInput blocks togetherRules teamCount
      maxAttempts o = .ok t a) :
    ∃ q : TeamQuality, ∃ k : Nat,
      k < loopCount (ctxOf studentsInput blocks togetherRules teamCount) o
        (attemptLimitOf maxAttempts) 0 ∧
      a = 1 + k ∧
      (∃ ts, traceOutcome (ctxOf studentsInput blocks togetherRules teamCount)
          o 0 k = some (ts, q) ∧
        (∃ placed, ts = optimizeTeamsByLocalSearch placed
            (ctxOf studentsInput blocks togetherRules teamCount).groupById
            (ctxOf studentsInput blocks togetherRules teamCount).targetSizes
            (ctxOf studentsInput blocks togetherRules teamCount).groupAdjacency
            (ctxOf studentsInput blocks togetherRules teamCount).idealSkill
            (ctxOf studentsInput blocks togetherRules teamCount).targetGirls
            (ctxOf studentsInput blocks togetherRules teamCount).targetBoys
            (ctxOf studentsInput blocks togetherRules teamCount).levelTargets ∧
          q = evaluateTeams ts
            (ctxOf studentsInput blocks togetherRules teamCount).idealSkill
            (ctxOf studentsInput blocks togetherRules teamCount).targetGirls
            (ctxOf studentsInput blocks togetherRules teamCount).targetBoys
            (ctxOf studentsInput blocks togetherRules teamCount).levelTargets)
          ∧
        ts.map (·.members) = t) ∧
      (∀ j, j < k → ∀ tsj qj,
        traceOutcome (ctxOf studentsInput blocks togetherRules teamCount) o 0 j
          = some (tsj, qj) → isBetterQuality q qj = true) ∧
      (∀ j, j < loopCount (ctxOf studentsInput blocks togetherRules teamCount)
          o (attemptLimitOf maxAttempts) 0 → ∀ tsj qj,
        traceOutcome (ctxOf studentsInput blocks togetherRules teamCount) o 0 j
          = some (tsj, qj) → isBetterQuality qj q = false) := by
  rw [generateTeams_eq_loop studentsInput blocks togetherRules teamCount
    maxAttempts o hv] at hok
  obtain ⟨q, hsrc, _, hdom⟩ := loop_ok
    (ctxOf studentsInput blocks togetherRules teamCount) o
    (attemptLimitOf maxAttempts) (attemptLimitOf maxAttempts) 1 0 none t a hok
  rcases hsrc with hb | ⟨k, hk, ha, ⟨ts, htr, hmap⟩, hearly, _⟩
  · exact absurd hb (by simp)
  · refine ⟨q, k, hk, ha, ⟨ts, htr, ?_, hmap⟩, hearly, ?_⟩
    · exact traceOutcome_shape _ o k 0 ts q htr
    · intro j hj tsj qj htrj
      exact hdom j hj tsj qj htrj

/-- Witness for C4: the two-member roster split into two teams; the call
succeeds at attempt 1 and the conclusion holds at that input. -/
theorem generateTeams_success_is_best_of_run_witness :
    ∃ q : TeamQuality, ∃ k : Nat,
      k < loopCount (ctxOf
        [{ name := "Greta", level := .two, gender := .tjej, present := true },
         { name := "Kalle", level := .two, gender := .kille, present := true }]
        [] [] 2) (fun _ => 0) (attemptLimitOf 2000) 0 ∧
      1 = 1 + k ∧
      (∃ ts, traceOutcome (ctxOf
          [{ name := "Greta", level := .two, gender := .tjej, present := true },
           { name := "Kalle", level := .two, gender := .kille, present := true }]
          [] [] 2) (fun _ => 0) 0 k = some (ts, q) ∧
        (∃ placed, ts = optimizeTeamsByLocalSearch placed
            (ctxOf
              [{ name := "Greta", level := .two, gender := .tjej,
                 present := true },
               { name := "Kalle", level := .two, gender := .kille,
                 present := true }] [] [] 2).groupById
            (ctxOf
              [{ name := "Greta", level := .two, gender := .tjej,
                 present := true },
               { name := "Kalle", level := .two, gender := .kille,
                 present := true }] [] [] 2).targetSizes
            (ctxOf
              [{ name := "Greta", level := .two, gender := .tjej,
                 present := true },
               { name := "Kalle", level := .two, gender := .kille,
                 present := true }] [] [] 2).groupAdjacency
            (ctxOf
              [{ name := "Greta", level := .two, gender := .tjej,
                 present := true },
               { name := "Kalle", level := .two, gender := .kille,
                 present := true }] [] [] 2).idealSkill
            (ctxOf
              [{ name := "Greta", level := .two, gender := .tjej,
                 present := true },
               { name := "Kalle", level := .two, gender := .kille,
                 present := true }] [] [] 2).targetGirls
            (ctxOf
              [{ name := "Greta", level := .two, gender := .tjej,
                 present := true },
               { name := "Kalle", level := .two, gender := .kille,
                 present := true }] [] [] 2).targetBoys
            (ctxOf
              [{ name := "Greta", level := .two, gender := .tjej,
                 present := true },
               { name := "Kalle", level := .two, gender := .kille,
                 present := true }] [] [] 2).levelTargets ∧
          q = evaluateTeams ts
            (ctxOf
              [{ name := "Greta", level := .two, gender := .tjej,
                 present := true },
               { name := "Kalle", level := .two, gender := .kille,
                 present := true }] [] [] 2).idealSkill
            (ctxOf
              [{ name := "Greta", level := .two, gender := .tjej,
                 present := true },
               { name := "Kalle", level := .two, gender := .kille,
                 present := true }] [] [] 2).targetGirls
            (ctxOf
              [{ name := "Greta", level := .two, gender := .tjej,
                 present := true },
               { name := "Kalle", level := .two, gender := .kille,
                 present := true }] [] [] 2).targetBoys
            (ctxOf
              [{ name := "Greta", level := .two, gender := .tjej,
                 present := true },
               { name := "Kalle", level := .two, gender := .kille,
                 present := true }] [] [] 2).levelTargets) ∧
        ts.map (·.members) =
          [[{ name := "Kalle", level := .two, gender := .kille,
              present := true }],
           [{ name := "Greta", level := .two, gender := .tjej,
              present := true }]]) ∧
      (∀ j, j < k → ∀ tsj qj,
        traceOutcome (ctxOf
          [{ name := "Greta", level := .two, gender := .tjej, present := true },
           { name := "Kalle", level := .two, gender := .kille, present := true }]
          [] [] 2) (fun _ => 0) 0 j = some (tsj, qj) →
          isBetterQuality q qj = true) ∧
      (∀ j, j < loopCount (ctxOf
          [{ name := "Greta", level := .two, gender := .tjej, present := true },
           { name := "Kalle", level := .two, gender := .kille, present := true }]
          [] [] 2) (fun _ => 0) (attemptLimitOf 2000) 0 → ∀ tsj qj,
        traceOutcome (ctxOf
          [{ name := "Greta", level := .two, gender := .tjej, present := true },
           { name := "Kalle", level := .two, gender := .kille, present := true }]
          [] [] 2) (fun _ => 0) 0 j = some (tsj, qj) →
          isBetterQuality qj q = false) :=
  generateTeams_success_is_best_of_run
    [{ name := "Greta", level := .two, gender := .tjej, present := true },
     { name := "Kalle", level := .two, gender := .kille, present := true }]
    [] [] 2 2000 (fun _ => 0)
    [[{ name := "Kalle", level := .two, gender := .kille, present := true }],
     [{ name := "Greta", level := .two, gender := .tjej, present := true }]] 1
    (by unfold validationsPass; with_unfolding_all decide)
    (by with_unfolding_all decide)

/-! ## Claim C6: the penalty the assigner minimizes

The specification states the per-team penalty as `1.3·|Δskill| +
sizeFillRatio + categoryOverfillPenalty + categoryUnderfillPenalty`; the
source's `getTeamScore` instead computes `skillPenalty·4.2 +
levelPenalty·2.6 + sizePenalty·0.4 + girlPenalty + boyPenalty` with an
additional per-level term (9 per unit over target, 0.8 per unit under).
`claimedPenalty` below renders the specification's formula verbatim for
comparison; `pickTeamIndex_claimed_formula_counterexample` separates the
two. -/

/-- The penalty formula exactly as the SPECIFICATION words it (only for
comparison with `getTeamScore`, which is what the source computes):
`1.3·|Δskill| + sizeFillRatio + categoryOverfillPenalty +
categoryUnderfillPenalty`, the category penalties weighted 8 per unit over
target and 0.4 per unit under. -/
def claimedPenalty (team : TeamState) (group : StudentGroup) (teamIndex : Nat)
    (targetSize : Nat) (idealSkill : ℚ) (targetGirls targetBoys : List Nat) :
    ℚ :=
  let nextSize : ℚ := ((team.members.length + group.size : Nat) : ℚ)
  let nextSkill : ℚ := ((team.skillSum + group.skillSum : Nat) : ℚ)
  let skillPenalty : ℚ := |nextSkill - idealSkill|
  let sizeFillRatio : ℚ := nextSize / ((targetSize : Nat) : ℚ)
  let projectedGirls : ℚ := ((team.girls + group.girls : Nat) : ℚ)
  let projectedBoys : ℚ := ((team.boys + group.boys : Nat) : ℚ)
  let targetGirlCount : ℚ := ((targetGirls.getD teamIndex 0 : Nat) : ℚ)
  let targetBoyCount : ℚ := ((targetBoys.getD teamIndex 0 : Nat) : ℚ)
  let girlPenalty : ℚ :=
    if projectedGirls > targetGirlCount then
      (projectedGirls - targetGirlCount) * 8
    else |projectedGirls - targetGirlCount| * (2 / 5)
  let boyPenalty : ℚ :=
    if projectedBoys > targetBoyCount then
      (projectedBoys - targetBoyCount) * 8
    else |projectedBoys - targetBoyCount| * (2 / 5)
  skillPenalty * (13 / 10) + sizeFillRatio + girlPenalty + boyPenalty

section PickScan

variable (group : StudentGroup) (teams : List TeamState)
variable (targetSizes : List Nat) (idealSkill : ℚ)
variable (targetGirls targetBoys : List Nat)
variable (groupAdjacency : Adj) (levelTargets : LevelTargets)

/-- A team index the scan of `pickTeamIndex` does not skip: the team and
its target size exist, the group fits the remaining capacity, and no
group-adjacent conflict arises. -/
def eligibleFor (i : Nat) : Bool :=
  match teams.get? i, targetSizes.get? i with
  | some team, some targetSize =>
      decide (team.members.length + group.size ≤ targetSize) &&
      !hasGroupConflict group.id team.groupIds groupAdjacency
  | _, _ => false

/-- The score the scan computes at index `i` (0 where the scan skips). -/
def scoreAt (i : Nat) : ℚ :=
  match teams.get? i, targetSizes.get? i with
  | some team, some targetSize =>
      getTeamScore team group i targetSize idealSkill targetGirls targetBoys
        levelTargets
  | _, _ => 0

/-- Invariant of the eligible-team scan after the first `n` indexes:
an infinite running best means no eligible index was seen; a finite
running best `s` is the minimum score over eligible indexes seen, the tied
list is nonempty, and each recorded index is eligible with score within
`1e-4` above `s`. -/
def pickInv (n : Nat) (st : QVal × List Nat) : Prop :=
  (st.1 = QVal.inf → st.2 = [] ∧
    ∀ j, j < n → eligibleFor group teams targetSizes groupAdjacency j = false)
  ∧
  ∀ s, st.1 = QVal.fin s →
    st.2 ≠ [] ∧
    (∀ j ∈ st.2, j < n ∧
      eligibleFor group teams targetSizes groupAdjacency j = true ∧
      s ≤ scoreAt group teams targetSizes idealSkill targetGirls targetBoys
        levelTargets j ∧
      scoreAt group teams targetSizes idealSkill targetGirls targetBoys
        levelTargets j < s + 1 / 10000) ∧
    (∀ j, j < n → eligibleFor group teams targetSizes groupAdjacency j = true →
      s ≤ scoreAt group teams targetSizes idealSkill targetGirls targetBoys
        levelTargets j)

theorem eligibleFor_lt_length (j : Nat)
    (h : eligibleFor group teams targetSizes groupAdjacency j = true) :
    j < teams.length := by
  unfold eligibleFor at h
  rcases hg : teams.get? j with _ | team
  · rcases hs : targetSizes.get? j with _ | tsz <;> rw [hg, hs] at h <;>
      simp at h
  · exact (List.get?_eq_some.mp hg).1

theorem pickScanStep_skip (st : QVal × List Nat) (n : Nat)
    (h : teams.get? n = none ∨ targetSizes.get? n = none) :
    pickScanStep group teams targetSizes idealSkill targetGirls targetBoys
      groupAdjacency levelTargets st n = st := by
  unfold pickScanStep
  rcases h with h | h
  · rw [h]
  · rw [h]
    cases teams.get? n <;> rfl

theorem pickScanStep_some (st : QVal × List Nat) (n : Nat)
    (team : TeamState) (tsz : Nat) (hg : teams.get? n = some team)
    (hs : targetSizes.get? n = some tsz) :
    pickScanStep group teams targetSizes idealSkill targetGirls targetBoys
      groupAdjacency levelTargets st n =
    (if team.members.length + group.size > tsz then st
     else if hasGroupConflict group.id team.groupIds groupAdjacency then st
     else if QVal.lt (.fin (getTeamScore team group n tsz idealSkill
         targetGirls targetBoys levelTargets)) st.1 then
       (.fin (getTeamScore team group n tsz idealSkill targetGirls targetBoys
         levelTargets), [n])
     else
       match st.1 with
       | .inf => st
       | .fin best =>
           if |getTeamScore team group n tsz idealSkill targetGirls targetBoys
               levelTargets - best| < 1 / 10000 then
             (st.1, st.2 ++ [n])
           else st) := by
  unfold pickScanStep
  rw [hg, hs]

theorem pickInv_step (n : Nat) (st : QVal × List Nat)
    (h : pickInv group teams targetSizes idealSkill targetGirls targetBoys
      groupAdjacency levelTargets n st) :
    pickInv group teams targetSizes idealSkill targetGirls targetBoys
      groupAdjacency levelTargets (n + 1)
      (pickScanStep group teams targetSizes idealSkill targetGirls targetBoys
        groupAdjacency levelTargets st n) := by
  obtain ⟨hinf, hfin⟩ := h
  have hskip : ∀ (hne : eligibleFor group teams targetSizes groupAdjacency n
      = false),
      pickInv group teams targetSizes idealSkill targetGirls targetBoys
        groupAdjacency levelTargets (n + 1) st := by
    intro hne
    refine ⟨fun hi => ⟨(hinf hi).1, ?_⟩, fun s hs => ?_⟩
    · intro j hj
      rcases Nat.lt_or_ge j n with hj' | hj'
      · exact (hinf hi).2 j hj'
      · have : j = n := by omega
        rw [this]
        exact hne
    · obtain ⟨h1, h2, h3⟩ := hfin s hs
      refine ⟨h1, fun j hj => ?_, fun j hj he => ?_⟩
      · obtain ⟨ha, hb, hc, hd⟩ := h2 j hj
        exact ⟨by omega, hb, hc, hd⟩
      · rcases Nat.lt_or_ge j n with hj' | hj'
        · exact h3 j hj' he
        · have : j = n := by omega
          rw [this] at he
          rw [he] at hne
          simp at hne
  rcases hg : teams.get? n with _ | team
  · rw [pickScanStep_skip group teams targetSizes idealSkill targetGirls
      targetBoys groupAdjacency levelTargets st n (Or.inl hg)]
    rcases hs : targetSizes.get? n with _ | tsz <;>
      exact hskip (by unfold eligibleFor; rw [hg, hs])
  · rcases hs : targetSizes.get? n with _ | tsz
    · rw [pickScanStep_skip group teams targetSizes idealSkill targetGirls
        targetBoys groupAdjacency levelTargets st n (Or.inr hs)]
      exact hskip (by unfold eligibleFor; rw [hg, hs])
    · rw [pickScanStep_some group teams targetSizes idealSkill targetGirls
        targetBoys groupAdjacency levelTargets st n team tsz hg hs]
      by_cases hcap : team.members.length + group.size > tsz
      · rw [if_pos hcap]
        exact hskip (by unfold eligibleFor; rw [hg, hs]; simp; omega)
      · rw [if_neg hcap]
        by_cases hconf : hasGroupConflict group.id team.groupIds groupAdjacency
          = true
        · rw [if_pos hconf]
          exact hskip (by unfold eligibleFor; rw [hg, hs]; simp [hconf])
        · rw [if_neg hconf]
          have helig : eligibleFor group teams targetSizes groupAdjacency n
              = true := by
            unfold eligibleFor
            rw [hg, hs]
            simp only [Bool.and_eq_true, decide_eq_true_eq,
              Bool.not_eq_true']
            exact ⟨by omega, Bool.not_eq_true _ ▸ hconf⟩
          have hsc : scoreAt group teams targetSizes idealSkill targetGirls
              targetBoys levelTargets n =
              getTeamScore team group n tsz idealSkill targetGirls targetBoys
                levelTargets := by
            unfold scoreAt
            rw [hg, hs]
          rcases hq : st.1 with s | _
          · -- running best is finite
            obtain ⟨h1, h2, h3⟩ := hfin s hq
            by_cases hlt : getTeamScore team group n tsz idealSkill targetGirls
              targetBoys levelTargets < s
            · rw [if_pos (by simp [QVal.lt]; exact hlt)]
              refine ⟨by simp, fun s' hs' => ?_⟩
              simp only [QVal.fin.injEq] at hs'
              subst hs'
              refine ⟨by simp, ?_, ?_⟩
              · intro j hj
                simp only [List.mem_singleton] at hj
                subst hj
                refine ⟨by omega, helig, by rw [hsc], by rw [hsc]; linarith⟩
              · intro j hj he
                rcases Nat.lt_or_ge j n with hj' | hj'
                · have := h3 j hj' he
                  linarith
                · have : j = n := by omega
                  rw [this, hsc]
            · rw [if_neg (by simp [QVal.lt]; exact not_lt.mp hlt)]
              show pickInv group teams targetSizes idealSkill targetGirls
                targetBoys groupAdjacency levelTargets (n + 1)
                (if |getTeamScore team group n tsz idealSkill targetGirls
                    targetBoys levelTargets - s| < 1 / 10000 then
                  (QVal.fin s, st.2 ++ [n])
                else st)
              by_cases htie : |getTeamScore team group n tsz idealSkill
                targetGirls targetBoys levelTargets - s| < 1 / 10000
              · rw [if_pos htie]
                refine ⟨by simp, fun s' hs' => ?_⟩
                simp only [QVal.fin.injEq] at hs'
                subst hs'
                refine ⟨by simp, ?_, ?_⟩
                · intro j hj
                  rw [List.mem_append] at hj
                  rcases hj with hj | hj
                  · obtain ⟨ha, hb, hc, hd⟩ := h2 j hj
                    exact ⟨by omega, hb, hc, hd⟩
                  · simp only [List.mem_singleton] at hj
                    subst hj
                    have habs := abs_lt.mp htie
                    refine ⟨by omega, helig, by rw [hsc]; exact not_lt.mp hlt,
                      by rw [hsc]; linarith [habs.2]⟩
                · intro j hj he
                  rcases Nat.lt_or_ge j n with hj' | hj'
                  · exact h3 j hj' he
                  · have : j = n := by omega
                    rw [this, hsc]
                    exact not_lt.mp hlt
              · rw [if_neg htie]
                refine ⟨fun hi => absurd (hq.symm.trans hi) (by simp),
                  fun s' hs' => ?_⟩
                rw [hq] at hs'
                simp only [QVal.fin.injEq] at hs'
                subst hs'
                refine ⟨h1, fun j hj => ?_, fun j hj he => ?_⟩
                · obtain ⟨ha, hb, hc, hd⟩ := h2 j hj
                  exact ⟨by omega, hb, hc, hd⟩
                · rcases Nat.lt_or_ge j n with hj' | hj'
                  · exact h3 j hj' he
                  · have : j = n := by omega
                    rw [this, hsc]
                    exact not_lt.mp hlt
          · -- running best is infinite: the computed score always wins
            rw [if_pos (by rfl)]
            refine ⟨by simp, fun s' hs' => ?_⟩
            simp only [QVal.fin.injEq] at hs'
            subst hs'
            refine ⟨by simp, ?_, ?_⟩
            · intro j hj
              simp only [List.mem_singleton] at hj
              subst hj
              refine ⟨by omega, helig, by rw [hsc], by rw [hsc]; linarith⟩
            · intro j hj he
              rcases Nat.lt_or_ge j n with hj' | hj'
              · have := (hinf hq).2 j hj'
                rw [he] at this
                simp at this
              · have : j = n := by omega
                rw [this, hsc]

theorem pickInv_fold : ∀ n : Nat,
    pickInv group teams targetSizes idealSkill targetGirls targetBoys
      groupAdjacency levelTargets n
      ((List.range n).foldl
        (pickScanStep group teams targetSizes idealSkill targetGirls
          targetBoys groupAdjacency levelTargets) (QVal.inf, [])) := by
  intro n
  induction n with
  | zero =>
    refine ⟨fun _ => ⟨rfl, fun j hj => by omega⟩, fun s hs => ?_⟩
    simp [List.range_zero, List.foldl_nil] at hs
  | succ m ih =>
    rw [List.range_succ, List.foldl_append, List.foldl_cons, List.foldl_nil]
    exact pickInv_step group teams targetSizes idealSkill targetGirls
      targetBoys groupAdjacency levelTargets m _ ih

/-- C6 (amended): when `pickTeamIndex` places a group, the chosen team is
eligible (fits the remaining capacity, no group-adjacent conflict) and its
`getTeamScore` penalty — `4.2·skillPenalty + 2.6·levelPenalty +
0.4·sizePenalty + girlPenalty + boyPenalty`, with category over/under
weights 8 and 0.4 and level over/under weights 9 and 0.8 — is within the
`1e-4` tie tolerance of the minimum over all eligible teams; the tied
candidates are collected and one is drawn by the random oracle. -/
theorem pickTeamIndex_min_within_tolerance (o : Rand) (c : Nat) (i c' : Nat)
    (h : pickTeamIndex group teams targetSizes idealSkill targetGirls
      targetBoys groupAdjacency levelTargets o c = (some i, c')) :
    eligibleFor group teams targetSizes groupAdjacency i = true ∧
    ∀ j, eligibleFor group teams targetSizes groupAdjacency j = true →
      scoreAt group teams targetSizes idealSkill targetGirls targetBoys
          levelTargets i <
        scoreAt group teams targetSizes idealSkill targetGirls targetBoys
          levelTargets j + 1 / 10000 := by
  have hinv := pickInv_fold group teams targetSizes idealSkill targetGirls
    targetBoys groupAdjacency levelTargets teams.length
  unfold pickTeamIndex at h
  by_cases hlen : ((List.range teams.length).foldl
      (pickScanStep group teams targetSizes idealSkill targetGirls targetBoys
        groupAdjacency levelTargets) (QVal.inf, [])).2.length = 0
  · rw [if_pos hlen] at h
    simp at h
  · rw [if_neg hlen] at h
    simp only [Prod.mk.injEq] at h
    obtain ⟨h1, h2⟩ := h
    have hmem : i ∈ ((List.range teams.length).foldl
        (pickScanStep group teams targetSizes idealSkill targetGirls
          targetBoys groupAdjacency levelTargets) (QVal.inf, [])).2 :=
      List.get?_mem h1
    rcases hq : ((List.range teams.length).foldl
        (pickScanStep group teams targetSizes idealSkill targetGirls
          targetBoys groupAdjacency levelTargets) (QVal.inf, [])).1
      with s | _
    · obtain ⟨hne, hrec, hmin⟩ := hinv.2 s hq
      obtain ⟨hilt, hielig, hsle, hslt⟩ := hrec i hmem
      refine ⟨hielig, fun j hj => ?_⟩
      have hjlt := eligibleFor_lt_length group teams targetSizes groupAdjacency
        j hj
      have := hmin j hjlt hj
      linarith
    · rw [(hinv.1 hq).1] at hmem
      simp at hmem

end PickScan

/-- The group being placed in the C6 counterexample: one boy of level 2. -/
def cGroup : StudentGroup :=
  { id := "nils",
    members := [{ name := "Nils", level := .two, gender := .kille,
                  present := true, key := "nils" }],
    keys := ["nils"], size := 1, skillSum := 2, girls := 0, boys := 1,
    levelCounts := ⟨0, 1, 0⟩, degree := 0 }

/-- First half-filled team of the C6 counterexample: levels {2, 3},
skill 5. -/
def cTeam0 : TeamState :=
  { members := [{ name := "Ali", level := .two, gender := .kille,
                  present := true },
                { name := "Bo", level := .three, gender := .kille,
                  present := true }],
    keys := ["ali", "bo"], groupIds := ["ali", "bo"], skillSum := 5,
    girls := 0, boys := 2, levelCounts := ⟨0, 1, 1⟩ }

/-- Second half-filled team of the C6 counterexample: levels {2, 2},
skill 4. -/
def cTeam1 : TeamState :=
  { members := [{ name := "Casper", level := .two, gender := .kille,
                  present := true },
                { name := "David", level := .two, gender := .kille,
                  present := true }],
    keys := ["casper", "david"], groupIds := ["casper", "david"],
    skillSum := 4, girls := 0, boys := 2, levelCounts := ⟨0, 2, 0⟩ }

/-- Per-level targets of the C6 counterexample: one of each level per
team. -/
def cLevelTargets : LevelTargets := fun _ => [1, 1]

/-- Counterexample to C6 as stated: placing a one-boy level-2 group with
two half-filled teams (target size 3, ideal skill 6), the source's scan
picks team 0, yet under the specification's penalty formula
(`1.3·|Δskill| + sizeFillRatio + category penalties`) team 1 is the unique
minimizer by a margin of `1.3`, far beyond the `1e-4` tie tolerance: the
source weighs skill `×4.2`, size `×0.4` and adds a level-balance term
`×2.6` that the specification's formula lacks. -/
theorem pickTeamIndex_claimed_formula_counterexample :
    (pickTeamIndex cGroup [cTeam0, cTeam1] [3, 3] 6 [0, 0] [3, 3] []
      cLevelTargets (fun _ => 0) 0).1 = some 0 ∧
    claimedPenalty cTeam1 cGroup 1 3 6 [0, 0] [3, 3] + 1 / 10000 <
      claimedPenalty cTeam0 cGroup 0 3 6 [0, 0] [3, 3] := by
  constructor <;> with_unfolding_all decide

/-- Witness for the amended C6 at the counterexample input: the chosen
team 0 is eligible and its `getTeamScore` is within `1e-4` of the minimum
over eligible teams. -/
theorem pickTeamIndex_min_within_tolerance_witness :
    eligibleFor cGroup [cTeam0, cTeam1] [3, 3] [] 0 = true ∧
    ∀ j, eligibleFor cGroup [cTeam0, cTeam1] [3, 3] [] j = true →
      scoreAt cGroup [cTeam0, cTeam1] [3, 3] 6 [0, 0] [3, 3] cLevelTargets 0 <
        scoreAt cGroup [cTeam0, cTeam1] [3, 3] 6 [0, 0] [3, 3] cLevelTargets j
          + 1 / 10000 :=
  pickTeamIndex_min_within_tolerance cGroup [cTeam0, cTeam1] [3, 3] 6 [0, 0]
    [3, 3] [] cLevelTargets (fun _ => 0) 0 0 1
    (by with_unfolding_all decide)

/-! ## List bookkeeping for configurations -/

theorem flatMap_set_perm {α β : Type} (f : α → List β) :
    ∀ (l : List α) (i : Nat) (a x : α), l.get? i = some a →
    ((l.set i x).flatMap f ++ f a).Perm (l.flatMap f ++ f x) := by
  intro l
  induction l with
  | nil => intro i a x h; simp at h
  | cons b t ih =>
    intro i a x h
    cases i with
    | zero =>
      simp only [List.get?] at h
      injection h with h
      subst h
      simp only [List.set, List.flatMap_cons]
      have h1 : ((f x ++ t.flatMap f) ++ f b).Perm (f b ++ (f x ++ t.flatMap f))
        := List.perm_append_comm
      have h2 : ((f b ++ t.flatMap f) ++ f x).Perm (f b ++ (f x ++ t.flatMap f))
        := by
        rw [List.append_assoc]
        exact List.Perm.append_left _ List.perm_append_comm
      exact h1.trans h2.symm
    | succ i' =>
      simp only [List.get?] at h
      simp only [List.set, List.flatMap_cons, List.append_assoc]
      exact List.Perm.append_left _ (ih i' a x h)

theorem set_single_perm {α : Type} :
    ∀ (l : List α) (i : Nat) (a x : α), l.get? i = some a →
    (l.set i x ++ [a]).Perm (l ++ [x]) := by
  intro l i a x h
  have := flatMap_set_perm (fun y => [y]) l i a x h
  simpa using this

theorem perm_append_cancel {α : Type} (u v w : List α)
    (h : (u ++ w).Perm (v ++ w)) : u.Perm v :=
  (List.perm_append_right_iff w).mp h

theorem set_set_swap_perm {α : Type} (l : List α) (i j : Nat) (a b : α)
    (hi : l.get? i = some a) (hj : l.get? j = some b) :
    ((l.set i b).set j a).Perm l := by
  have hj' : (l.set i b).get? j = some b := by
    by_cases hij : i = j
    · subst hij
      exact List.get?_set_eq_of_lt b (by
        have := List.get?_eq_some.mp hi
        exact this.1)
    · rw [List.get?_set_ne b l hij]
      exact hj
  have h1 : ((l.set i b).set j a ++ [b]).Perm (l.set i b ++ [a]) :=
    set_single_perm _ j b a hj'
  have h2 : (l.set i b ++ [a]).Perm (l ++ [b]) := set_single_perm _ i a b hi
  have h3 : ((l.set i b).set j a ++ [b]).Perm (l ++ [b]) := h1.trans h2
  exact perm_append_cancel _ _ _ h3

theorem swapL_perm {α : Type} (l : List α) (i j : Nat) : (swapL l i j).Perm l
    := by
  unfold swapL
  rcases hi : l.get? i with _ | a
  · exact List.Perm.refl _
  · rcases hj : l.get? j with _ | b
    · exact List.Perm.refl _
    · exact set_set_swap_perm l i j a b hi hj

theorem shuffleGo_perm {α : Type} (o : Rand) :
    ∀ (i : Nat) (l : List α) (c : Nat), ((shuffleGo o c l i).1).Perm l := by
  intro i
  induction i with
  | zero => intro l c; exact List.Perm.refl _
  | succ i' ih =>
    intro l c
    rw [shuffleGo]
    exact (ih _ _).trans (swapL_perm l (i' + 1) (o c % (i' + 2)))

theorem fisherYatesShuffle_perm {α : Type} (o : Rand) (c : Nat)
    (items : List α) : ((fisherYatesShuffle o c items).1).Perm items := by
  unfold fisherYatesShuffle
  rcases h : items.length with _ | n
  · exact List.Perm.refl _
  · exact shuffleGo_perm o n items c

theorem orderGroups_perm (l : List StudentGroup) : (orderGroups l).Perm l :=
  List.perm_insertionSort _ l

theorem length_flatMap_filter_le {α β : Type} (p : α → Bool) (f : α → List β) :
    ∀ l : List α, ((l.filter p).flatMap f).length ≤ (l.flatMap f).length := by
  intro l
  induction l with
  | nil => simp
  | cons a t ih =>
    by_cases hp : p a
    · simp only [List.filter_cons, if_pos hp, List.flatMap_cons,
        List.length_append]
      omega
    · simp only [List.filter_cons, if_neg hp, List.flatMap_cons,
        List.length_append]
      omega

theorem filter_ne_of_nodup {α : Type} [DecidableEq α] (l : List α) (a : α)
    (h : l.Nodup) : l.filter (fun x => decide (x ≠ a)) = l.erase a := by
  rw [h.erase_eq_filter a]
  refine List.filter_congr ?_
  intro x hx
  by_cases hxa : x = a <;> simp [hxa]

/-! ## Extracting the scan conditions from a successful pick -/

theorem pickTeamIndex_some_eligible (group : StudentGroup)
    (teams : List TeamState) (targetSizes : List Nat) (idealSkill : ℚ)
    (targetGirls targetBoys : List Nat) (groupAdjacency : Adj)
    (levelTargets : LevelTargets) (o : Rand) (c : Nat) (i c' : Nat)
    (h : pickTeamIndex group teams targetSizes idealSkill targetGirls
      targetBoys groupAdjacency levelTargets o c = (some i, c')) :
    eligibleFor group teams targetSizes groupAdjacency i = true := by
  have hinv := pickInv_fold group teams targetSizes idealSkill targetGirls
    targetBoys groupAdjacency levelTargets teams.length
  unfold pickTeamIndex at h
  by_cases hlen : ((List.range teams.length).foldl
      (pickScanStep group teams targetSizes idealSkill targetGirls targetBoys
        groupAdjacency levelTargets) (QVal.inf, [])).2.length = 0
  · rw [if_pos hlen] at h
    simp at h
  · rw [if_neg hlen] at h
    simp only [Prod.mk.injEq] at h
    have hmem : i ∈ ((List.range teams.length).foldl
        (pickScanStep group teams targetSizes idealSkill targetGirls
          targetBoys groupAdjacency levelTargets) (QVal.inf, [])).2 :=
      List.get?_mem h.1
    rcases hq : ((List.range teams.length).foldl
        (pickScanStep group teams targetSizes idealSkill targetGirls
          targetBoys groupAdjacency levelTargets) (QVal.inf, [])).1
      with s | _
    · exact ((hinv.2 s hq).2.1 i hmem).2.1
    · rw [(hinv.1 hq).1] at hmem
      simp at hmem

theorem eligibleFor_spec (group : StudentGroup) (teams : List TeamState)
    (targetSizes : List Nat) (groupAdjacency : Adj) (i : Nat)
    (h : eligibleFor group teams targetSizes groupAdjacency i = true) :
    ∃ team tsz, teams.get? i = some team ∧ targetSizes.get? i = some tsz ∧
      team.members.length + group.size ≤ tsz ∧
      hasGroupConflict group.id team.groupIds groupAdjacency = false := by
  unfold eligibleFor at h
  rcases hg : teams.get? i with _ | team
  · rcases hs : targetSizes.get? i with _ | tsz <;> rw [hg, hs] at h <;>
      simp at h
  · rcases hs : targetSizes.get? i with _ | tsz
    · rw [hg, hs] at h
      simp at h
    · rw [hg, hs] at h
      simp only [Bool.and_eq_true, decide_eq_true_eq, Bool.not_eq_true'] at h
      exact ⟨team, tsz, rfl, rfl, h.1, h.2⟩

theorem hasGroupConflict_false (groupId : String) (teamGroupIds : List String)
    (gAdj : Adj) (h : hasGroupConflict groupId teamGroupIds gAdj = false) :
    ∀ t ∈ teamGroupIds, ¬ adjMem gAdj groupId t := by
  intro t ht hadj
  unfold hasGroupConflict at h
  unfold adjMem alGetD at hadj
  rcases hg : alGet gAdj groupId with _ | blocked
  · rw [hg] at hadj
    simp at hadj
  · rw [hg] at h hadj
    simp only [Option.getD_some] at hadj
    by_cases hb : blocked.length = 0
    · rw [List.length_eq_zero.mp hb] at hadj
      simp at hadj
    · simp only [if_neg hb] at h
      rw [List.any_eq_false] at h
      have := h t ht
      simp [List.contains_eq_any_beq, List.any_eq_false] at this
      exact this hadj

/-! ## The team-configuration invariant -/

/-- The present-member list contributed by one group id. -/
def idMembers (groupById : List (String × StudentGroup)) (id : String) :
    List Student :=
  match alGet groupById id with
  | none => []
  | some g => g.members.map nodeToMember

/-- The loop body of `buildTeamStateFromGroupIds`. -/
def buildStep (groupById : List (String × StudentGroup)) (team : TeamState)
    (groupId : String) : TeamState :=
  match alGet groupById groupId with
  | none => team
  | some group =>
    { team with
      members := team.members ++ group.members.map nodeToMember,
      keys := team.keys ++ group.keys,
      skillSum := team.skillSum + group.skillSum,
      girls := team.girls + group.girls,
      boys := team.boys + group.boys,
      levelCounts := team.levelCounts.add group.levelCounts }

theorem buildTeamStateFromGroupIds_eq (gids : List String)
    (groupById : List (String × StudentGroup)) :
    buildTeamStateFromGroupIds gids groupById =
      gids.foldl (buildStep groupById)
        { members := [], keys := [], groupIds := gids, skillSum := 0,
          girls := 0, boys := 0, levelCounts := ⟨0, 0, 0⟩ } := rfl

theorem buildStep_members (groupById : List (String × StudentGroup))
    (team : TeamState) (groupId : String) :
    (buildStep groupById team groupId).members =
      team.members ++ idMembers groupById groupId := by
  unfold buildStep idMembers
  cases alGet groupById groupId <;> simp

theorem buildStep_groupIds (groupById : List (String × StudentGroup))
    (team : TeamState) (groupId : String) :
    (buildStep groupById team groupId).groupIds = team.groupIds := by
  unfold buildStep
  cases alGet groupById groupId <;> rfl

theorem buildFold_members (groupById : List (String × StudentGroup)) :
    ∀ (gids : List String) (team : TeamState),
    (gids.foldl (buildStep groupById) team).members =
      team.members ++ gids.flatMap (idMembers groupById) := by
  intro gids
  induction gids with
  | nil => intro team; simp
  | cons g t ih =>
    intro team
    rw [List.foldl_cons, ih, buildStep_members, List.flatMap_cons,
      List.append_assoc]

theorem buildFold_groupIds (groupById : List (String × StudentGroup)) :
    ∀ (gids : List String) (team : TeamState),
    (gids.foldl (buildStep groupById) team).groupIds = team.groupIds := by
  intro gids
  induction gids with
  | nil => intro team; rfl
  | cons g t ih =>
    intro team
    rw [List.foldl_cons, ih, buildStep_groupIds]

theorem buildTeamStateFromGroupIds_members (gids : List String)
    (groupById : List (String × StudentGroup)) :
    (buildTeamStateFromGroupIds gids groupById).members =
      gids.flatMap (idMembers groupById) := by
  rw [buildTeamStateFromGroupIds_eq, buildFold_members]
  rfl

theorem buildTeamStateFromGroupIds_groupIds (gids : List String)
    (groupById : List (String × StudentGroup)) :
    (buildTeamStateFromGroupIds gids groupById).groupIds = gids := by
  rw [buildTeamStateFromGroupIds_eq, buildFold_groupIds]

/-- Invariant of a team-state list relative to the grouping context:
the number of teams, that every team is determined by its group-id list,
that the teams' group ids partition the placed ids, per-team capacity, and
freedom from group conflicts inside every team. -/
structure TeamsOK (gbi : List (String × StudentGroup)) (targetSizes : List Nat)
    (gAdj : Adj) (n : Nat) (placedIds : List String) (ts : List TeamState) :
    Prop where
  len : ts.length = n
  rep : ∀ t ∈ ts, t.members = t.groupIds.flatMap (idMembers gbi)
  ids : (ts.flatMap (fun t => t.groupIds)).Perm placedIds
  cap : ∀ i t, ts.get? i = some t → t.members.length ≤ targetSizes.getD i 0
  conf : ∀ t ∈ ts, ∀ a ∈ t.groupIds, ∀ b ∈ t.groupIds, ¬ adjMem gAdj a b

theorem TeamsOK.perm_ids {gbi : List (String × StudentGroup)}
    {targetSizes : List Nat} {gAdj : Adj} {n : Nat} {p1 p2 : List String}
    {ts : List TeamState} (h : TeamsOK gbi targetSizes gAdj n p1 ts)
    (hp : p1.Perm p2) : TeamsOK gbi targetSizes gAdj n p2 ts :=
  ⟨h.len, h.rep, h.ids.trans hp, h.cap, h.conf⟩

theorem placeGroups_cons (ctx : GenCtx) (o : Rand) (g : StudentGroup)
    (rest : List StudentGroup) (teams : List TeamState) (c : Nat) :
    placeGroups ctx o (g :: rest) teams c =
      match pickTeamIndex g teams ctx.targetSizes ctx.idealSkill ctx.targetGirls
        ctx.targetBoys ctx.groupAdjacency ctx.levelTargets o c with
      | (none, c') => (none, c')
      | (some teamIndex, c') =>
          match teams.get? teamIndex with
          | none => (none, c')
          | some team => placeGroups ctx o rest
              (teams.set teamIndex (pushGroup team g)) c' := rfl

theorem placeGroups_ok (ctx : GenCtx) (o : Rand) (n : Nat)
    (hsym : ∀ x y, adjMem ctx.groupAdjacency x y → adjMem ctx.groupAdjacency y x)
    (hirr : ∀ x, ¬ adjMem ctx.groupAdjacency x x) :
    ∀ (gs : List StudentGroup) (ts : List TeamState) (c : Nat)
      (ts' : List TeamState) (c' : Nat) (placedIds : List String),
    (∀ g ∈ gs, alGet ctx.groupById g.id = some g ∧
      g.size = g.members.length) →
    placeGroups ctx o gs ts c = (some ts', c') →
    TeamsOK ctx.groupById ctx.targetSizes ctx.groupAdjacency n placedIds ts →
    TeamsOK ctx.groupById ctx.targetSizes ctx.groupAdjacency n
      (placedIds ++ gs.map (fun g => g.id)) ts' := by
  intro gs
  induction gs with
  | nil =>
    intro ts c ts' c' placedIds _ h hok
    unfold placeGroups at h
    simp only [Prod.mk.injEq] at h
    obtain ⟨h1, _⟩ := h
    injection h1 with h1
    subst h1
    simpa using hok
  | cons g rest ih =>
    intro ts c ts' c' placedIds hgs h hok
    rw [placeGroups_cons] at h
    rcases hpick : pickTeamIndex g ts ctx.targetSizes ctx.idealSkill
      ctx.targetGirls ctx.targetBoys ctx.groupAdjacency ctx.levelTargets o c
      with ⟨oi, c2⟩
    rw [hpick] at h
    cases oi with
    | none =>
      simp only at h
      exact absurd h (by simp)
    | some i =>
      simp only at h
      rcases hteam : ts.get? i with _ | team
      · rw [hteam] at h
        simp only at h
        exact absurd h (by simp)
      · rw [hteam] at h
        simp only at h
        -- scan conditions at the chosen index
        have helig := pickTeamIndex_some_eligible g ts ctx.targetSizes
          ctx.idealSkill ctx.targetGirls ctx.targetBoys ctx.groupAdjacency
          ctx.levelTargets o c i c2 hpick
        obtain ⟨team', tsz, hget, htsz, hcap, hconf⟩ := eligibleFor_spec g ts
          ctx.targetSizes ctx.groupAdjacency i helig
        rw [hteam] at hget
        injection hget with hget
        subst hget
        obtain ⟨halg, hsz⟩ := hgs g (List.mem_cons_self _ _)
        have hteamMem : team ∈ ts := List.get?_mem hteam
        -- the updated team list keeps the invariant with `g.id` placed
        have hok1 : TeamsOK ctx.groupById ctx.targetSizes ctx.groupAdjacency n
            (placedIds ++ [g.id]) (ts.set i (pushGroup team g)) := by
          refine ⟨by rw [List.length_set]; exact hok.len, ?_, ?_, ?_, ?_⟩
          · intro t ht
            rcases List.mem_or_eq_of_mem_set ht with ht' | ht'
            · exact hok.rep t ht'
            · subst ht'
              show team.members ++ g.members.map nodeToMember = _
              rw [hok.rep team hteamMem]
              show _ = (team.groupIds ++ [g.id]).flatMap (idMembers ctx.groupById)
              rw [List.flatMap_append]
              simp [idMembers, halg]
          · have hperm := flatMap_set_perm (fun t => t.groupIds) ts i team
              (pushGroup team g) hteam
            have hx : (pushGroup team g).groupIds = team.groupIds ++ [g.id] :=
              rfl
            simp only at hperm
            rw [hx] at hperm
            have hshift : (ts.flatMap (fun t => t.groupIds) ++
                (team.groupIds ++ [g.id])).Perm
                ((ts.flatMap (fun t => t.groupIds) ++ [g.id]) ++ team.groupIds)
              := by
              rw [← List.append_assoc]
              exact (perm_append_swap _ _ _).symm
            have hcancel := perm_append_cancel _ _ _ (hperm.trans hshift)
            exact hcancel.trans (hok.ids.append_right [g.id])
          · intro j t hjt
            by_cases hji : j = i
            · subst hji
              have hlt : j < ts.length := (List.get?_eq_some.mp hteam).1
              rw [List.get?_set_eq_of_lt _ hlt] at hjt
              injection hjt with hjt
              subst hjt
              show (team.members ++ g.members.map nodeToMember).length ≤ _
              rw [List.length_append, List.length_map]
              have hgd : ctx.targetSizes.getD j 0 = tsz := by
                unfold List.getD
                rw [htsz]
                rfl
              rw [hgd]
              omega
            · rw [List.get?_set_ne _ _ (fun he => hji he.symm)] at hjt
              exact hok.cap j t hjt
          · intro t ht a ha b hb
            rcases List.mem_or_eq_of_mem_set ht with ht' | ht'
            · exact hok.conf t ht' a ha b hb
            · subst ht'
              have hfalse := hasGroupConflict_false g.id team.groupIds
                ctx.groupAdjacency hconf
              have hsplit : ∀ x, x ∈ (pushGroup team g).groupIds →
                  x ∈ team.groupIds ∨ x = g.id := by
                intro x hx
                show x ∈ team.groupIds ∨ x = g.id
                have : x ∈ team.groupIds ++ [g.id] := hx
                rcases List.mem_append.mp this with h' | h'
                · exact Or.inl h'
                · exact Or.inr (List.mem_singleton.mp h')
              rcases hsplit a ha with ha' | ha' <;>
                rcases hsplit b hb with hb' | hb'
              · exact hok.conf team hteamMem a ha' b hb'
              · subst hb'
                intro hadj
                exact hfalse a ha' (hsym a g.id hadj)
              · subst ha'
                exact hfalse b hb'
              · subst ha'
                subst hb'
                exact hirr g.id
        have := ih (ts.set i (pushGroup team g)) c2 ts' c' (placedIds ++ [g.id])
          (fun g' hg' => hgs g' (List.mem_cons_of_mem _ hg')) h hok1
        simp only [List.map_cons]
        rw [show placedIds ++
            (g.id :: rest.map (fun g => g.id)) =
            (placedIds ++ [g.id]) ++ rest.map (fun g => g.id) from by
          rw [List.append_assoc]; rfl]
        exact this

/-! ## Local-search candidates keep the invariant -/

theorem getD_eq_get? {α : Type} (l : List α) (i : Nat) (d : α) :
    l.getD i d = (l.get? i).getD d := by
  simp [List.getD, List.get?_eq_getElem?]

theorem sublist_flatMap_of_mem {α β : Type} (l : List α) (a : α)
    (f : α → List β) (h : a ∈ l) : List.Sublist (f a) (l.flatMap f) := by
  obtain ⟨s, t, rfl⟩ := List.append_of_mem h
  rw [List.flatMap_append, List.flatMap_cons]
  exact List.Sublist.trans (List.sublist_append_left (f a) _)
    (List.sublist_append_right _ _)

theorem TeamsOK.join_nodup {gbi : List (String × StudentGroup)}
    {targetSizes : List Nat} {gAdj : Adj} {n : Nat} {placedIds : List String}
    {ts : List TeamState} (hok : TeamsOK gbi targetSizes gAdj n placedIds ts)
    (hnd : placedIds.Nodup) : (ts.flatMap (fun t => t.groupIds)).Nodup :=
  (hok.ids.nodup_iff).mpr hnd

theorem TeamsOK.gids_nodup {gbi : List (String × StudentGroup)}
    {targetSizes : List Nat} {gAdj : Adj} {n : Nat} {placedIds : List String}
    {ts : List TeamState} (hok : TeamsOK gbi targetSizes gAdj n placedIds ts)
    (hnd : placedIds.Nodup) (t : TeamState) (ht : t ∈ ts) :
    t.groupIds.Nodup :=
  (sublist_flatMap_of_mem ts t (fun t => t.groupIds) ht).nodup
    (hok.join_nodup hnd)

theorem mem_map_get {α : Type} {l : List α} {i : Nat} {a : α}
    (h : l.get? i = some a) : a ∈ l := List.get?_mem h

theorem flatMap_map_comp {α β γ : Type} (l : List α) (f : α → β)
    (g : β → List γ) : (l.map f).flatMap g = l.flatMap (fun a => g (f a)) := by
  induction l with
  | nil => rfl
  | cons a t ih => simp [ih]

theorem moveConfig_ok (gbi : List (String × StudentGroup))
    (targetSizes : List Nat) (gAdj : Adj) (n : Nat) (placedIds : List String)
    (teams : List TeamState)
    (hsym : ∀ x y, adjMem gAdj x y → adjMem gAdj y x)
    (hirr : ∀ x, ¬ adjMem gAdj x x)
    (hsz : ∀ e ∈ gbi, (e.2).size = (e.2).members.length)
    (hnd : placedIds.Nodup)
    (hok : TeamsOK gbi targetSizes gAdj n placedIds teams)
    (fromIndex toIndex : Nat) (movingId : String) (movingGroup : StudentGroup)
    (fromTeam toTeam : TeamState)
    (hft : teams.get? fromIndex = some fromTeam)
    (htt : teams.get? toIndex = some toTeam)
    (hne : toIndex ≠ fromIndex)
    (hmid : movingId ∈ fromTeam.groupIds)
    (halg : alGet gbi movingId = some movingGroup)
    (hcap : ¬ (toTeam.members.length + movingGroup.size >
      targetSizes.getD toIndex 0)) :
    hasGroupConflict movingId toTeam.groupIds gAdj = false →
    TeamsOK gbi targetSizes gAdj n placedIds
      ((moveConfig teams fromIndex toIndex movingId).map
        (fun gids => buildTeamStateFromGroupIds gids gbi)) := by
  intro hconf
  have hfromlt : fromIndex < teams.length := (List.get?_eq_some.mp hft).1
  have htolt : toIndex < teams.length := (List.get?_eq_some.mp htt).1
  have hmovsz : movingGroup.size = movingGroup.members.length :=
    hsz (movingId, movingGroup) (alGet_mem _ _ _ halg)
  -- stage equalities, before abbreviating
  have hC0from : (teams.map (fun t => t.groupIds)).get? fromIndex =
      some fromTeam.groupIds := by
    rw [List.get?_map, hft]
    rfl
  have hC0to : (teams.map (fun t => t.groupIds)).get? toIndex =
      some toTeam.groupIds := by
    rw [List.get?_map, htt]
    rfl
  have hC1to : ((teams.map (fun t => t.groupIds)).set fromIndex
      (fromTeam.groupIds.filter (fun id => decide (id ≠ movingId)))).get?
      toIndex = some toTeam.groupIds := by
    rw [List.get?_set_ne _ _ (fun h => hne h.symm)]
    exact hC0to
  have hmove : moveConfig teams fromIndex toIndex movingId =
      ((teams.map (fun t => t.groupIds)).set fromIndex
        (fromTeam.groupIds.filter (fun id => decide (id ≠ movingId)))).set
        toIndex (toTeam.groupIds ++ [movingId]) := by
    show ((teams.map (fun t => t.groupIds)).set fromIndex
        (((teams.map (fun t => t.groupIds)).getD fromIndex []).filter
          (fun id => decide (id ≠ movingId)))).set toIndex
        ((((teams.map (fun t => t.groupIds)).set fromIndex
          (((teams.map (fun t => t.groupIds)).getD fromIndex []).filter
            (fun id => decide (id ≠ movingId)))).getD toIndex []) ++
          [movingId]) = _
    rw [show (teams.map (fun t => t.groupIds)).getD fromIndex [] =
        fromTeam.groupIds from by rw [getD_eq_get?, hC0from]; rfl]
    rw [show ((teams.map (fun t => t.groupIds)).set fromIndex
        (fromTeam.groupIds.filter (fun id => decide (id ≠ movingId)))).getD
        toIndex [] = toTeam.groupIds from by
      rw [getD_eq_get?, hC1to]; rfl]
  -- abbreviate the configuration stages
  set F := fromTeam.groupIds with hF
  set T := toTeam.groupIds with hT
  set C0 := teams.map (fun t => t.groupIds) with hC0
  set Fx := F.filter (fun id => decide (id ≠ movingId)) with hFx
  set C1 := C0.set fromIndex Fx with hC1
  set R := C1.set toIndex (T ++ [movingId]) with hR
  have hC0len : C0.length = teams.length := by
    rw [hC0]
    exact List.length_map _ _
  -- nodup bookkeeping
  have hjnd := hok.join_nodup hnd
  have hFnd : F.Nodup := hok.gids_nodup hnd fromTeam (mem_map_get hft)
  have hFx_erase : Fx = F.erase movingId := filter_ne_of_nodup F movingId hFnd
  have hFsplit : F.Perm (movingId :: Fx) := by
    rw [hFx_erase]
    exact List.perm_cons_erase hmid
  -- the group-id multiset is preserved
  have hids : (R.flatMap (fun gids => gids)).Perm
      (C0.flatMap (fun gids => gids)) := by
    have h1 := flatMap_set_perm (fun gids => gids) C0 fromIndex F Fx hC0from
    have h2 := flatMap_set_perm (fun gids => gids) C1 toIndex T
      (T ++ [movingId]) hC1to
    simp only at h1 h2
    have h1' : ((C1.flatMap (fun gids => gids)) ++ [movingId]).Perm
        (C0.flatMap (fun gids => gids)) := by
      refine perm_append_cancel _ _ Fx ?_
      rw [List.append_assoc, List.singleton_append]
      exact (List.Perm.append_left _ hFsplit.symm).trans h1
    have h2' : (R.flatMap (fun gids => gids)).Perm
        ((C1.flatMap (fun gids => gids)) ++ [movingId]) := by
      refine perm_append_cancel _ _ T ?_
      refine h2.trans ?_
      rw [← List.append_assoc]
      exact (perm_append_swap (C1.flatMap (fun gids => gids)) T movingId).symm
    exact h2'.trans h1'
  -- assemble the invariant
  rw [hmove]
  have hRlen : R.length = teams.length := by
    rw [hR, List.length_set, hC1, List.length_set, hC0len]
  have hRget : ∀ j gids, R.get? j = some gids →
      (j = toIndex ∧ gids = T ++ [movingId]) ∨
      (j = fromIndex ∧ gids = Fx) ∨
      (j ≠ toIndex ∧ j ≠ fromIndex ∧ C0.get? j = some gids) := by
    intro j gids hj
    by_cases hjt : j = toIndex
    · subst hjt
      have hlt : j < C1.length := by
        rw [hC1, List.length_set, hC0len]
        exact htolt
      rw [hR, List.get?_set_eq_of_lt _ hlt] at hj
      injection hj with hj
      exact Or.inl ⟨rfl, hj.symm⟩
    · rw [hR, List.get?_set_ne _ _ (fun h => hjt h.symm)] at hj
      by_cases hjf : j = fromIndex
      · subst hjf
        rw [hC1, List.get?_set_eq_of_lt _ (by rw [hC0len]; exact hfromlt)]
          at hj
        injection hj with hj
        exact Or.inr (Or.inl ⟨rfl, hj.symm⟩)
      · rw [hC1, List.get?_set_ne _ _ (fun h => hjf h.symm)] at hj
        exact Or.inr (Or.inr ⟨hjt, hjf, hj⟩)
  have hmemR : ∀ gids ∈ R, gids = T ++ [movingId] ∨ gids = Fx ∨
      ∃ t ∈ teams, gids = t.groupIds := by
    intro gids hg
    rcases List.mem_or_eq_of_mem_set hg with hg' | hg'
    · rcases List.mem_or_eq_of_mem_set hg' with hg'' | hg''
      · obtain ⟨t, ht, hte⟩ := List.mem_map.mp hg''
        exact Or.inr (Or.inr ⟨t, ht, hte.symm⟩)
      · exact Or.inr (Or.inl hg'')
    · exact Or.inl hg'
  have hconf' := hasGroupConflict_false movingId T gAdj hconf
  refine ⟨?_, ?_, ?_, ?_, ?_⟩
  · rw [List.length_map, hRlen]
    exact hok.len
  · intro t ht
    obtain ⟨gids, _, hte⟩ := List.mem_map.mp ht
    rw [← hte, buildTeamStateFromGroupIds_members,
      buildTeamStateFromGroupIds_groupIds]
  · have hjoin :
        (R.map (fun gids => buildTeamStateFromGroupIds gids gbi)).flatMap
          (fun t => t.groupIds) = R.flatMap (fun gids => gids) := by
      rw [flatMap_map_comp]
      refine List.flatMap_congr ?_
      intro gids _
      rw [buildTeamStateFromGroupIds_groupIds]
    rw [hjoin]
    refine hids.trans ?_
    have hc : C0.flatMap (fun gids => gids) =
        teams.flatMap (fun t => t.groupIds) := by
      rw [hC0, flatMap_map_comp]
    rw [hc]
    exact hok.ids
  · intro j t hjt
    rw [List.get?_map] at hjt
    rcases hRj : R.get? j with _ | gids
    · rw [hRj] at hjt
      simp at hjt
    · rw [hRj] at hjt
      simp only [Option.map_some'] at hjt
      injection hjt with hjt
      subst hjt
      rw [buildTeamStateFromGroupIds_members]
      rcases hRget j gids hRj with ⟨hj, hg⟩ | ⟨hj, hg⟩ | ⟨_, _, hg⟩
      · subst hj
        subst hg
        rw [List.flatMap_append]
        rw [List.length_append]
        have h1 : (T.flatMap (idMembers gbi)).length = toTeam.members.length
          := by
          rw [← hok.rep toTeam (mem_map_get htt)]
        have h2 : ([movingId].flatMap (idMembers gbi)).length =
            movingGroup.members.length := by
          simp [idMembers, halg]
        rw [h1, h2]
        omega
      · subst hj
        subst hg
        have hle := length_flatMap_filter_le (fun id => decide (id ≠ movingId))
          (idMembers gbi) F
        have hFlen : (F.flatMap (idMembers gbi)).length =
            fromTeam.members.length := by
          rw [← hok.rep fromTeam (mem_map_get hft)]
        have hcapj := hok.cap j fromTeam hft
        rw [hFlen] at hle
        have hle' : (Fx.flatMap (idMembers gbi)).length ≤
            fromTeam.members.length := by
          rw [hFx]
          exact hle
        omega
      · rw [hC0, List.get?_map] at hg
        rcases htj : teams.get? j with _ | tj
        · rw [htj] at hg
          simp at hg
        · rw [htj] at hg
          simp only [Option.map_some'] at hg
          injection hg with hg
          subst hg
          have : (tj.groupIds.flatMap (idMembers gbi)).length =
              tj.members.length := by
            rw [← hok.rep tj (mem_map_get htj)]
          rw [this]
          exact hok.cap j tj htj
  · intro t ht a ha b hb
    obtain ⟨gids, hgmem, hte⟩ := List.mem_map.mp ht
    rw [← hte, buildTeamStateFromGroupIds_groupIds] at ha hb
    rcases hmemR gids hgmem with hg | hg | ⟨tj, htj, hg⟩
    · subst hg
      have hsplit : ∀ x, x ∈ T ++ [movingId] → x ∈ T ∨ x = movingId := by
        intro x hx
        rcases List.mem_append.mp hx with h' | h'
        · exact Or.inl h'
        · exact Or.inr (List.mem_singleton.mp h')
      rcases hsplit a ha with ha' | ha' <;> rcases hsplit b hb with hb' | hb'
      · exact hok.conf toTeam (mem_map_get htt) a ha' b hb'
      · rw [hb']
        intro hadj
        exact hconf' a ha' (hsym a movingId hadj)
      · rw [ha']
        exact hconf' b hb'
      · rw [ha', hb']
        exact hirr movingId
    · subst hg
      have hsub : ∀ x, x ∈ Fx → x ∈ F := by
        intro x hx
        exact List.mem_of_mem_filter hx
      exact hok.conf fromTeam (mem_map_get hft) a (hsub a ha) b (hsub b hb)
    · subst hg
      exact hok.conf tj htj a ha b hb

theorem swapConfig_ok (gbi : List (String × StudentGroup))
    (targetSizes : List Nat) (gAdj : Adj) (n : Nat) (placedIds : List String)
    (teams : List TeamState)
    (hsym : ∀ x y, adjMem gAdj x y → adjMem gAdj y x)
    (hirr : ∀ x, ¬ adjMem gAdj x x)
    (hsz : ∀ e ∈ gbi, (e.2).size = (e.2).members.length)
    (hnd : placedIds.Nodup)
    (hok : TeamsOK gbi targetSizes gAdj n placedIds teams)
    (fromIndex otherIndex : Nat) (movingId swapId : String)
    (movingGroup swapGroup : StudentGroup) (fromTeam otherTeam : TeamState)
    (hft : teams.get? fromIndex = some fromTeam)
    (hot : teams.get? otherIndex = some otherTeam)
    (hne : fromIndex ≠ otherIndex)
    (hmid : movingId ∈ fromTeam.groupIds)
    (hsid : swapId ∈ otherTeam.groupIds)
    (halg : alGet gbi movingId = some movingGroup)
    (halg2 : alGet gbi swapId = some swapGroup)
    (hcapF : ((fromTeam.members.length : Int) - (movingGroup.size : Int) +
      (swapGroup.size : Int)) ≤ ((targetSizes.getD fromIndex 0 : Nat) : Int))
    (hcapO : ((otherTeam.members.length : Int) - (swapGroup.size : Int) +
      (movingGroup.size : Int)) ≤ ((targetSizes.getD otherIndex 0 : Nat) : Int))
    (hconf1 : hasGroupConflict swapId
      (fromTeam.groupIds.filter (fun id => decide (id ≠ movingId))) gAdj
      = false)
    (hconf2 : hasGroupConflict movingId
      (otherTeam.groupIds.filter (fun id => decide (id ≠ swapId))) gAdj
      = false) :
    TeamsOK gbi targetSizes gAdj n placedIds
      ((swapConfig teams fromIndex otherIndex
        (fromTeam.groupIds.filter (fun id => decide (id ≠ movingId)))
        (otherTeam.groupIds.filter (fun id => decide (id ≠ swapId)))
        movingId swapId).map
        (fun gids => buildTeamStateFromGroupIds gids gbi)) := by
  have hfromlt : fromIndex < teams.length := (List.get?_eq_some.mp hft).1
  have hotherlt : otherIndex < teams.length := (List.get?_eq_some.mp hot).1
  have hmovsz : movingGroup.size = movingGroup.members.length :=
    hsz (movingId, movingGroup) (alGet_mem _ _ _ halg)
  have hswpsz : swapGroup.size = swapGroup.members.length :=
    hsz (swapId, swapGroup) (alGet_mem _ _ _ halg2)
  have hC0from : (teams.map (fun t => t.groupIds)).get? fromIndex =
      some fromTeam.groupIds := by
    rw [List.get?_map, hft]
    rfl
  have hC0other : (teams.map (fun t => t.groupIds)).get? otherIndex =
      some otherTeam.groupIds := by
    rw [List.get?_map, hot]
    rfl
  have hC1other : ((teams.map (fun t => t.groupIds)).set fromIndex
      ((fromTeam.groupIds.filter (fun id => decide (id ≠ movingId))) ++
        [swapId])).get? otherIndex = some otherTeam.groupIds := by
    rw [List.get?_set_ne _ _ hne]
    exact hC0other
  have hswap : swapConfig teams fromIndex otherIndex
      (fromTeam.groupIds.filter (fun id => decide (id ≠ movingId)))
      (otherTeam.groupIds.filter (fun id => decide (id ≠ swapId)))
      movingId swapId =
      ((teams.map (fun t => t.groupIds)).set fromIndex
        ((fromTeam.groupIds.filter (fun id => decide (id ≠ movingId))) ++
          [swapId])).set otherIndex
        ((otherTeam.groupIds.filter (fun id => decide (id ≠ swapId))) ++
          [movingId]) := rfl
  set F := fromTeam.groupIds with hF
  set O := otherTeam.groupIds with hO
  set C0 := teams.map (fun t => t.groupIds) with hC0
  set Fx := F.filter (fun id => decide (id ≠ movingId)) with hFx
  set Ox := O.filter (fun id => decide (id ≠ swapId)) with hOx
  set C1 := C0.set fromIndex (Fx ++ [swapId]) with hC1
  set R := C1.set otherIndex (Ox ++ [movingId]) with hR
  have hC0len : C0.length = teams.length := by
    rw [hC0]
    exact List.length_map _ _
  have hjnd := hok.join_nodup hnd
  have hFnd : F.Nodup := hok.gids_nodup hnd fromTeam (mem_map_get hft)
  have hOnd : O.Nodup := hok.gids_nodup hnd otherTeam (mem_map_get hot)
  have hFx_erase : Fx = F.erase movingId := filter_ne_of_nodup F movingId hFnd
  have hOx_erase : Ox = O.erase swapId := filter_ne_of_nodup O swapId hOnd
  have hFsplit : F.Perm (movingId :: Fx) := by
    rw [hFx_erase]
    exact List.perm_cons_erase hmid
  have hOsplit : O.Perm (swapId :: Ox) := by
    rw [hOx_erase]
    exact List.perm_cons_erase hsid
  -- flat member-count decompositions
  have hFcount : (F.flatMap (idMembers gbi)).length =
      movingGroup.members.length + (Fx.flatMap (idMembers gbi)).length := by
    have := (List.Perm.flatMap_right (idMembers gbi) hFsplit).length_eq
    rw [this, List.flatMap_cons, List.length_append]
    simp [idMembers, halg]
  have hOcount : (O.flatMap (idMembers gbi)).length =
      swapGroup.members.length + (Ox.flatMap (idMembers gbi)).length := by
    have := (List.Perm.flatMap_right (idMembers gbi) hOsplit).length_eq
    rw [this, List.flatMap_cons, List.length_append]
    simp [idMembers, halg2]
  have hFlen : (F.flatMap (idMembers gbi)).length = fromTeam.members.length
    := by rw [← hok.rep fromTeam (mem_map_get hft)]
  have hOlen : (O.flatMap (idMembers gbi)).length = otherTeam.members.length
    := by rw [← hok.rep otherTeam (mem_map_get hot)]
  -- the group-id multiset is preserved
  have hids : (R.flatMap (fun gids => gids)).Perm
      (C0.flatMap (fun gids => gids)) := by
    have h1 := flatMap_set_perm (fun gids => gids) C0 fromIndex F
      (Fx ++ [swapId]) hC0from
    have h2 := flatMap_set_perm (fun gids => gids) C1 otherIndex O
      (Ox ++ [movingId]) hC1other
    simp only at h1 h2
    have h1' : ((C1.flatMap (fun gids => gids)) ++ [movingId]).Perm
        ((C0.flatMap (fun gids => gids)) ++ [swapId]) := by
      refine perm_append_cancel _ _ Fx ?_
      have hl : ((C1.flatMap (fun gids => gids)) ++ [movingId]) ++ Fx =
          (C1.flatMap (fun gids => gids)) ++ (movingId :: Fx) := by
        rw [List.append_assoc, List.singleton_append]
      rw [hl]
      refine ((List.Perm.append_left _ hFsplit.symm).trans h1).trans ?_
      rw [← List.append_assoc]
      exact (perm_append_swap (C0.flatMap (fun gids => gids)) Fx swapId).symm
    have h2' : ((R.flatMap (fun gids => gids)) ++ [swapId]).Perm
        ((C1.flatMap (fun gids => gids)) ++ [movingId]) := by
      refine perm_append_cancel _ _ Ox ?_
      have hl : ((R.flatMap (fun gids => gids)) ++ [swapId]) ++ Ox =
          (R.flatMap (fun gids => gids)) ++ (swapId :: Ox) := by
        rw [List.append_assoc, List.singleton_append]
      rw [hl]
      refine ((List.Perm.append_left _ hOsplit.symm).trans h2).trans ?_
      rw [← List.append_assoc]
      exact (perm_append_swap (C1.flatMap (fun gids => gids)) Ox movingId).symm
    exact perm_append_cancel _ _ [swapId] (h2'.trans h1')
  rw [hswap]
  have hRlen : R.length = teams.length := by
    rw [hR, List.length_set, hC1, List.length_set, hC0len]
  have hRget : ∀ j gids, R.get? j = some gids →
      (j = otherIndex ∧ gids = Ox ++ [movingId]) ∨
      (j = fromIndex ∧ gids = Fx ++ [swapId]) ∨
      (j ≠ otherIndex ∧ j ≠ fromIndex ∧ C0.get? j = some gids) := by
    intro j gids hj
    by_cases hjo : j = otherIndex
    · subst hjo
      have hlt : j < C1.length := by
        rw [hC1, List.length_set, hC0len]
        exact hotherlt
      rw [hR, List.get?_set_eq_of_lt _ hlt] at hj
      injection hj with hj
      exact Or.inl ⟨rfl, hj.symm⟩
    · rw [hR, List.get?_set_ne _ _ (fun h => hjo h.symm)] at hj
      by_cases hjf : j = fromIndex
      · subst hjf
        rw [hC1, List.get?_set_eq_of_lt _ (by rw [hC0len]; exact hfromlt)]
          at hj
        injection hj with hj
        exact Or.inr (Or.inl ⟨rfl, hj.symm⟩)
      · rw [hC1, List.get?_set_ne _ _ (fun h => hjf h.symm)] at hj
        exact Or.inr (Or.inr ⟨hjo, hjf, hj⟩)
  have hmemR : ∀ gids ∈ R, gids = Ox ++ [movingId] ∨ gids = Fx ++ [swapId] ∨
      ∃ t ∈ teams, gids = t.groupIds := by
    intro gids hg
    rcases List.mem_or_eq_of_mem_set hg with hg' | hg'
    · rcases List.mem_or_eq_of_mem_set hg' with hg'' | hg''
      · obtain ⟨t, ht, hte⟩ := List.mem_map.mp hg''
        exact Or.inr (Or.inr ⟨t, ht, hte.symm⟩)
      · exact Or.inr (Or.inl hg'')
    · exact Or.inl hg'
  have hc1 := hasGroupConflict_false swapId Fx gAdj hconf1
  have hc2 := hasGroupConflict_false movingId Ox gAdj hconf2
  refine ⟨?_, ?_, ?_, ?_, ?_⟩
  · rw [List.length_map, hRlen]
    exact hok.len
  · intro t ht
    obtain ⟨gids, _, hte⟩ := List.mem_map.mp ht
    rw [← hte, buildTeamStateFromGroupIds_members,
      buildTeamStateFromGroupIds_groupIds]
  · have hjoin :
        (R.map (fun gids => buildTeamStateFromGroupIds gids gbi)).flatMap
          (fun t => t.groupIds) = R.flatMap (fun gids => gids) := by
      rw [flatMap_map_comp]
      refine List.flatMap_congr ?_
      intro gids _
      rw [buildTeamStateFromGroupIds_groupIds]
    rw [hjoin]
    refine hids.trans ?_
    have hc : C0.flatMap (fun gids => gids) =
        teams.flatMap (fun t => t.groupIds) := by
      rw [hC0, flatMap_map_comp]
    rw [hc]
    exact hok.ids
  · intro j t hjt
    rw [List.get?_map] at hjt
    rcases hRj : R.get? j with _ | gids
    · rw [hRj] at hjt
      simp at hjt
    · rw [hRj] at hjt
      simp only [Option.map_some'] at hjt
      injection hjt with hjt
      subst hjt
      rw [buildTeamStateFromGroupIds_members]
      rcases hRget j gids hRj with ⟨hj, hg⟩ | ⟨hj, hg⟩ | ⟨_, _, hg⟩
      · subst hj
        subst hg
        rw [List.flatMap_append, List.length_append]
        have h2 : ([movingId].flatMap (idMembers gbi)).length =
            movingGroup.members.length := by
          simp [idMembers, halg]
        rw [h2]
        omega
      · subst hj
        subst hg
        rw [List.flatMap_append, List.length_append]
        have h2 : ([swapId].flatMap (idMembers gbi)).length =
            swapGroup.members.length := by
          simp [idMembers, halg2]
        rw [h2]
        omega
      · rw [hC0, List.get?_map] at hg
        rcases htj : teams.get? j with _ | tj
        · rw [htj] at hg
          simp at hg
        · rw [htj] at hg
          simp only [Option.map_some'] at hg
          injection hg with hg
          subst hg
          have hrep : (tj.groupIds.flatMap (idMembers gbi)).length =
              tj.members.length := by
            rw [← hok.rep tj (mem_map_get htj)]
          rw [hrep]
          exact hok.cap j tj htj
  · intro t ht a ha b hb
    obtain ⟨gids, hgmem, hte⟩ := List.mem_map.mp ht
    rw [← hte, buildTeamStateFromGroupIds_groupIds] at ha hb
    have hsubF : ∀ x, x ∈ Fx → x ∈ F := fun x hx => List.mem_of_mem_filter hx
    have hsubO : ∀ x, x ∈ Ox → x ∈ O := fun x hx => List.mem_of_mem_filter hx
    rcases hmemR gids hgmem with hg | hg | ⟨tj, htj, hg⟩
    · subst hg
      have hsplit : ∀ x, x ∈ Ox ++ [movingId] → x ∈ Ox ∨ x = movingId := by
        intro x hx
        rcases List.mem_append.mp hx with h' | h'
        · exact Or.inl h'
        · exact Or.inr (List.mem_singleton.mp h')
      rcases hsplit a ha with ha' | ha' <;> rcases hsplit b hb with hb' | hb'
      · exact hok.conf otherTeam (mem_map_get hot) a (hsubO a ha') b
          (hsubO b hb')
      · rw [hb']
        intro hadj
        exact hc2 a ha' (hsym a movingId hadj)
      · rw [ha']
        exact hc2 b hb'
      · rw [ha', hb']
        exact hirr movingId
    · subst hg
      have hsplit : ∀ x, x ∈ Fx ++ [swapId] → x ∈ Fx ∨ x = swapId := by
        intro x hx
        rcases List.mem_append.mp hx with h' | h'
        · exact Or.inl h'
        · exact Or.inr (List.mem_singleton.mp h')
      rcases hsplit a ha with ha' | ha' <;> rcases hsplit b hb with hb' | hb'
      · exact hok.conf fromTeam (mem_map_get hft) a (hsubF a ha') b
          (hsubF b hb')
      · rw [hb']
        intro hadj
        exact hc1 a ha' (hsym a swapId hadj)
      · rw [ha']
        exact hc1 b hb'
      · rw [ha', hb']
        exact hirr swapId
    · subst hg
      exact hok.conf tj htj a ha b hb

theorem lsCandidates_ok (gbi : List (String × StudentGroup))
    (targetSizes : List Nat) (gAdj : Adj) (n : Nat) (placedIds : List String)
    (teams : List TeamState)
    (hsym : ∀ x y, adjMem gAdj x y → adjMem gAdj y x)
    (hirr : ∀ x, ¬ adjMem gAdj x x)
    (hsz : ∀ e ∈ gbi, (e.2).size = (e.2).members.length)
    (hnd : placedIds.Nodup)
    (hok : TeamsOK gbi targetSizes gAdj n placedIds teams) :
    ∀ cfg ∈ lsCandidates teams gbi targetSizes gAdj,
    TeamsOK gbi targetSizes gAdj n placedIds
      (cfg.map (fun gids => buildTeamStateFromGroupIds gids gbi)) := by
  intro cfg hcfg
  unfold lsCandidates at hcfg
  obtain ⟨fromIndex, _, hcfg⟩ := List.mem_flatMap.mp hcfg
  rcases hft : teams.get? fromIndex with _ | fromTeam
  · rw [hft] at hcfg
    simp at hcfg
  · rw [hft] at hcfg
    simp only at hcfg
    obtain ⟨movingId, hmid, hcfg⟩ := List.mem_flatMap.mp hcfg
    rcases halg : alGet gbi movingId with _ | movingGroup
    · rw [halg] at hcfg
      simp at hcfg
    · rw [halg] at hcfg
      simp only at hcfg
      rcases List.mem_append.mp hcfg with hcfg | hcfg
      · -- a relocation candidate
        unfold lsMoves at hcfg
        obtain ⟨toIndex, _, hcfg⟩ := List.mem_filterMap.mp hcfg
        by_cases hne : toIndex = fromIndex
        · rw [if_pos hne] at hcfg
          simp at hcfg
        · rw [if_neg hne] at hcfg
          rcases htt : teams.get? toIndex with _ | toTeam
          · rw [htt] at hcfg
            simp at hcfg
          · rw [htt] at hcfg
            simp only at hcfg
            by_cases hcap : toTeam.members.length + movingGroup.size >
              targetSizes.getD toIndex 0
            · rw [if_pos hcap] at hcfg
              simp at hcfg
            · rw [if_neg hcap] at hcfg
              by_cases hconf : hasGroupConflict movingId toTeam.groupIds gAdj
                = true
              · rw [if_pos hconf] at hcfg
                simp at hcfg
              · rw [if_neg hconf] at hcfg
                injection hcfg with hcfg
                rw [← hcfg]
                exact moveConfig_ok gbi targetSizes gAdj n placedIds teams
                  hsym hirr hsz hnd hok fromIndex toIndex movingId movingGroup
                  fromTeam toTeam hft htt hne hmid halg hcap
                  ((Bool.not_eq_true _).mp hconf)
      · -- a swap candidate
        unfold lsSwaps at hcfg
        obtain ⟨otherIndex, _, hcfg⟩ := List.mem_flatMap.mp hcfg
        by_cases hle : otherIndex ≤ fromIndex
        · rw [if_pos hle] at hcfg
          simp at hcfg
        · rw [if_neg hle] at hcfg
          rcases hot : teams.get? otherIndex with _ | otherTeam
          · rw [hot] at hcfg
            simp at hcfg
          · rw [hot] at hcfg
            simp only at hcfg
            obtain ⟨swapId, hsid, hcfg⟩ := List.mem_filterMap.mp hcfg
            rcases halg2 : alGet gbi swapId with _ | swapGroup
            · rw [halg2] at hcfg
              simp at hcfg
            · rw [halg2] at hcfg
              simp only at hcfg
              by_cases hcap : ((fromTeam.members.length : Int) -
                  (movingGroup.size : Int) + (swapGroup.size : Int) >
                    ((targetSizes.getD fromIndex 0 : Nat) : Int)) ∨
                  ((otherTeam.members.length : Int) - (swapGroup.size : Int) +
                    (movingGroup.size : Int) >
                    ((targetSizes.getD otherIndex 0 : Nat) : Int))
              · rw [if_pos hcap] at hcfg
                simp at hcfg
              · rw [if_neg hcap] at hcfg
                push_neg at hcap
                by_cases hcf1 : hasGroupConflict swapId
                  (fromTeam.groupIds.filter (fun id => id ≠ movingId)) gAdj
                  = true
                · rw [if_pos hcf1] at hcfg
                  simp at hcfg
                · rw [if_neg hcf1] at hcfg
                  by_cases hcf2 : hasGroupConflict movingId
                    (otherTeam.groupIds.filter (fun id => id ≠ swapId)) gAdj
                    = true
                  · rw [if_pos hcf2] at hcfg
                    simp at hcfg
                  · rw [if_neg hcf2] at hcfg
                    injection hcfg with hcfg
                    rw [← hcfg]
                    exact swapConfig_ok gbi targetSizes gAdj n placedIds teams
                      hsym hirr hsz hnd hok fromIndex otherIndex movingId
                      swapId movingGroup swapGroup fromTeam otherTeam hft hot
                      (by omega) hmid hsid halg halg2 hcap.1 hcap.2
                      ((Bool.not_eq_true _).mp hcf1)
                      ((Bool.not_eq_true _).mp hcf2)

theorem pickBestNeighbor_fold (gbi : List (String × StudentGroup))
    (idealSkill : ℚ) (targetGirls targetBoys : List Nat)
    (levelTargets : LevelTargets) (P : List TeamState → Prop) :
    ∀ (cs : List (List (List String)))
      (acc : Option (List TeamState × TeamQuality)),
    (∀ bt q, acc = some (bt, q) → P bt) →
    (∀ cfg ∈ cs, P (cfg.map (fun gids => buildTeamStateFromGroupIds gids gbi)))
    →
    ∀ bt q, cs.foldl (fun best cfg =>
      let candidateTeams :=
        cfg.map (fun gids => buildTeamStateFromGroupIds gids gbi)
      let candidateQuality := evaluateTeams candidateTeams idealSkill
        targetGirls targetBoys levelTargets
      match best with
      | none => some (candidateTeams, candidateQuality)
      | some (bt, bq) =>
          if isBetterQuality candidateQuality bq then
            some (candidateTeams, candidateQuality)
          else some (bt, bq)) acc = some (bt, q) → P bt := by
  intro cs
  induction cs with
  | nil =>
    intro acc hacc _ bt q h
    exact hacc bt q h
  | cons c t ih =>
    intro acc hacc hall bt q h
    rw [List.foldl_cons] at h
    refine ih _ ?_ (fun cfg hc => hall cfg (List.mem_cons_of_mem _ hc)) bt q h
    intro bt' q' hstep
    rcases acc with _ | ⟨bt0, q0⟩
    · simp only at hstep
      injection hstep with hstep
      injection hstep with h1 _
      rw [← h1]
      exact hall c (List.mem_cons_self _ _)
    · simp only at hstep
      by_cases hbet : isBetterQuality (evaluateTeams
          (c.map (fun gids => buildTeamStateFromGroupIds gids gbi)) idealSkill
          targetGirls targetBoys levelTargets) q0
      · rw [if_pos hbet] at hstep
        injection hstep with hstep
        injection hstep with h1 _
        rw [← h1]
        exact hall c (List.mem_cons_self _ _)
      · rw [if_neg hbet] at hstep
        injection hstep with hstep
        injection hstep with h1 _
        rw [← h1]
        exact hacc bt0 q0 rfl

theorem pickBestNeighbor_preserves (gbi : List (String × StudentGroup))
    (idealSkill : ℚ) (targetGirls targetBoys : List Nat)
    (levelTargets : LevelTargets) (P : List TeamState → Prop)
    (cs : List (List (List String)))
    (hall : ∀ cfg ∈ cs,
      P (cfg.map (fun gids => buildTeamStateFromGroupIds gids gbi)))
    (bt : List TeamState) (q : TeamQuality)
    (h : pickBestNeighbor gbi idealSkill targetGirls targetBoys levelTargets cs
      = some (bt, q)) : P bt := by
  unfold pickBestNeighbor at h
  exact pickBestNeighbor_fold gbi idealSkill targetGirls targetBoys
    levelTargets P cs none (by intro bt' q' h'; exact absurd h' (by simp))
    hall bt q h

theorem optimizeGo_ok (gbi : List (String × StudentGroup))
    (targetSizes : List Nat) (gAdj : Adj) (idealSkill : ℚ)
    (targetGirls targetBoys : List Nat) (levelTargets : LevelTargets)
    (n : Nat) (placedIds : List String)
    (hsym : ∀ x y, adjMem gAdj x y → adjMem gAdj y x)
    (hirr : ∀ x, ¬ adjMem gAdj x x)
    (hsz : ∀ e ∈ gbi, (e.2).size = (e.2).members.length)
    (hnd : placedIds.Nodup) :
    ∀ (fuel : Nat) (current : List TeamState) (cq : TeamQuality),
    TeamsOK gbi targetSizes gAdj n placedIds current →
    TeamsOK gbi targetSizes gAdj n placedIds
      (optimizeGo gbi targetSizes gAdj idealSkill targetGirls targetBoys
        levelTargets fuel current cq) := by
  intro fuel
  induction fuel with
  | zero => intro current cq hok; exact hok
  | succ f ih =>
    intro current cq hok
    rw [optimizeGo]
    rcases hpick : pickBestNeighbor gbi idealSkill targetGirls targetBoys
      levelTargets (lsCandidates current gbi targetSizes gAdj)
      with _ | ⟨bestTeams, bestQuality⟩
    · exact hok
    · have hbest : TeamsOK gbi targetSizes gAdj n placedIds bestTeams :=
        pickBestNeighbor_preserves gbi idealSkill targetGirls targetBoys
          levelTargets _ _ (lsCandidates_ok gbi targetSizes gAdj n placedIds
            current hsym hirr hsz hnd hok) bestTeams bestQuality hpick
      show TeamsOK gbi targetSizes gAdj n placedIds
        (if isBetterQuality bestQuality cq then
          optimizeGo gbi targetSizes gAdj idealSkill targetGirls targetBoys
            levelTargets f bestTeams bestQuality
        else current)
      by_cases hbq : isBetterQuality bestQuality cq
      · rw [if_pos hbq]
        exact ih bestTeams bestQuality hbest
      · rw [if_neg hbq]
        exact hok

theorem optimizeTeamsByLocalSearch_ok (gbi : List (String × StudentGroup))
    (targetSizes : List Nat) (gAdj : Adj) (idealSkill : ℚ)
    (targetGirls targetBoys : List Nat) (levelTargets : LevelTargets)
    (n : Nat) (placedIds : List String) (initialTeams : List TeamState)
    (hsym : ∀ x y, adjMem gAdj x y → adjMem gAdj y x)
    (hirr : ∀ x, ¬ adjMem gAdj x x)
    (hsz : ∀ e ∈ gbi, (e.2).size = (e.2).members.length)
    (hnd : placedIds.Nodup)
    (hok : TeamsOK gbi targetSizes gAdj n placedIds initialTeams) :
    TeamsOK gbi targetSizes gAdj n placedIds
      (optimizeTeamsByLocalSearch initialTeams gbi targetSizes gAdj idealSkill
        targetGirls targetBoys levelTargets) :=
  optimizeGo_ok gbi targetSizes gAdj idealSkill targetGirls targetBoys
    levelTargets n placedIds hsym hirr hsz hnd 120 initialTeams _ hok

/-! ## The pre-loop context satisfies the invariant hypotheses -/

theorem alGet_foldl_alSet_skip {α : Type} (key : StudentGroup → String)
    (v : StudentGroup → α) (k : String) :
    ∀ (l : List StudentGroup) (m : List (String × α)),
    (∀ g ∈ l, key g ≠ k) →
    alGet (l.foldl (fun m g => alSet m (key g) (v g)) m) k = alGet m k := by
  intro l
  induction l with
  | nil => intro m _; rfl
  | cons g t ih =>
    intro m hk
    rw [List.foldl_cons, ih _ (fun g' hg' => hk g' (List.mem_cons_of_mem _
      hg'))]
    exact alGet_alSet_ne _ _ _ _ (hk g (List.mem_cons_self _ _))

theorem alGet_foldl_alSet_mem {α : Type} (key : StudentGroup → String)
    (v : StudentGroup → α) :
    ∀ (l : List StudentGroup) (m : List (String × α)),
    (l.map key).Nodup → ∀ g ∈ l,
    alGet (l.foldl (fun m g => alSet m (key g) (v g)) m) (key g) = some (v g)
    := by
  intro l
  induction l with
  | nil => intro m _ g hg; simp at hg
  | cons h t ih =>
    intro m hnd g hg
    rw [List.map_cons, List.nodup_cons] at hnd
    rcases List.mem_cons.mp hg with hg' | hg'
    · subst hg'
      rw [List.foldl_cons,
        alGet_foldl_alSet_skip key v (key g) t _ ?_, alGet_alSet_self]
      intro g' hg' he
      exact hnd.1 (he ▸ List.mem_map.mpr ⟨g', hg', rfl⟩)
    · rw [List.foldl_cons]
      exact ih _ hnd.2 g hg'

theorem mem_foldl_alSet {α : Type} (key : StudentGroup → String)
    (v : StudentGroup → α) :
    ∀ (l : List StudentGroup) (m : List (String × α)) (e : String × α),
    e ∈ l.foldl (fun m g => alSet m (key g) (v g)) m →
    e ∈ m ∨ ∃ g ∈ l, e = (key g, v g) := by
  intro l
  induction l with
  | nil => intro m e he; exact Or.inl he
  | cons h t ih =>
    intro m e he
    rw [List.foldl_cons] at he
    rcases ih _ e he with h' | ⟨g, hg, hge⟩
    · rcases alSet_mem _ _ _ e h' with h'' | h''
      · exact Or.inl h''
      · exact Or.inr ⟨h, List.mem_cons_self _ _, h''⟩
    · exact Or.inr ⟨g, List.mem_cons_of_mem _ hg, hge⟩

theorem groupsWithDegreeOf_ids (studentsInput : List Student)
    (blocks togetherRules : List BlockRule) :
    (groupsWithDegreeOf studentsInput blocks togetherRules).map
      (fun g => g.id) =
    (groupsOf studentsInput togetherRules).map (fun g => g.id) := by
  unfold groupsWithDegreeOf
  rw [List.map_map]
  rfl

theorem groupsWithDegreeOf_ids_nodup (studentsInput : List Student)
    (blocks togetherRules : List BlockRule) :
    ((groupsWithDegreeOf studentsInput blocks togetherRules).map
      (fun g => g.id)).Nodup := by
  rw [groupsWithDegreeOf_ids]
  exact buildStudentGroups_ids_nodup _ _

theorem groupByIdOf_get (studentsInput : List Student)
    (blocks togetherRules : List BlockRule) :
    ∀ g ∈ groupsWithDegreeOf studentsInput blocks togetherRules,
    alGet (groupByIdOf studentsInput blocks togetherRules) g.id = some g := by
  intro g hg
  exact alGet_foldl_alSet_mem (fun g => g.id) (fun g => g) _ []
    (groupsWithDegreeOf_ids_nodup studentsInput blocks togetherRules) g hg

theorem groupsWithDegreeOf_size (studentsInput : List Student)
    (blocks togetherRules : List BlockRule) :
    ∀ g ∈ groupsWithDegreeOf studentsInput blocks togetherRules,
    g.size = g.members.length := by
  intro g hg
  unfold groupsWithDegreeOf at hg
  obtain ⟨g0, hg0, hge⟩ := List.mem_map.mp hg
  have := (buildStudentGroups_shape _ _ g0 hg0).2.1
  rw [← hge]
  exact this

theorem groupByIdOf_size (studentsInput : List Student)
    (blocks togetherRules : List BlockRule) :
    ∀ e ∈ groupByIdOf studentsInput blocks togetherRules,
    (e.2).size = (e.2).members.length := by
  intro e he
  rcases mem_foldl_alSet (fun g => g.id) (fun g => g) _ [] e he with h' | ⟨g,
    hg, hge⟩
  · simp at h'
  · rw [hge]
    exact groupsWithDegreeOf_size studentsInput blocks togetherRules g hg

/-! ### Symmetry and irreflexivity of the projected conflict graph -/

theorem keyToGroupId_values (groups : List StudentGroup) :
    ∀ e ∈ keyToGroupId groups, e.2 ∈ groups.map (fun g => g.id) := by
  have inner : ∀ (ks : List String) (gid : String)
      (m : List (String × String)),
      (∀ e ∈ m, e.2 ∈ groups.map (fun g => g.id)) →
      gid ∈ groups.map (fun g => g.id) →
      ∀ e ∈ ks.foldl (fun m' k => alSet m' k gid) m,
        e.2 ∈ groups.map (fun g => g.id) := by
    intro ks
    induction ks with
    | nil => intro gid m hm _ e he; exact hm e he
    | cons k t ih =>
      intro gid m hm hgid e he
      rw [List.foldl_cons] at he
      refine ih gid _ ?_ hgid e he
      intro e' he'
      rcases alSet_mem _ _ _ e' he' with h' | h'
      · exact hm e' h'
      · rw [h']
        exact hgid
  have outer : ∀ (l : List StudentGroup) (m : List (String × String)),
      (∀ e ∈ m, e.2 ∈ groups.map (fun g => g.id)) →
      (∀ g ∈ l, g ∈ groups) →
      ∀ e ∈ l.foldl (fun m g => g.keys.foldl (fun m' k => alSet m' k g.id) m)
        m, e.2 ∈ groups.map (fun g => g.id) := by
    intro l
    induction l with
    | nil => intro m hm _ e he; exact hm e he
    | cons g t ih =>
      intro m hm hl e he
      rw [List.foldl_cons] at he
      refine ih _ ?_ (fun g' hg' => hl g' (List.mem_cons_of_mem _ hg')) e he
      exact inner g.keys g.id m hm
        (List.mem_map.mpr ⟨g, hl g (List.mem_cons_self _ _), rfl⟩)
  intro e he
  exact outer groups [] (by simp) (fun g hg => hg) e he

/-- Invariant maintained while `buildGroupAdjacency` folds over the
member-level adjacency: symmetric, irreflexive, every group id has an
entry. -/
def GAdjInv (groups : List StudentGroup) (m : Adj) : Prop :=
  (∀ x y, adjMem m x y → adjMem m y x ∧ x ≠ y) ∧
  (∀ gid, gid ∈ groups.map (fun g => g.id) → (alGet m gid).isSome)

theorem foldl_alSet_isSome {α : Type} (key : StudentGroup → String)
    (v : StudentGroup → α) :
    ∀ (l : List StudentGroup) (m : List (String × α)) (k : String),
    ((alGet m k).isSome ∨ ∃ g ∈ l, key g = k) →
    (alGet (l.foldl (fun m g => alSet m (key g) (v g)) m) k).isSome := by
  intro l
  induction l with
  | nil =>
    intro m k hk
    rcases hk with h | ⟨g, hg, _⟩
    · exact h
    · simp at hg
  | cons h t ih =>
    intro m k hk
    rw [List.foldl_cons]
    refine ih _ k ?_
    by_cases hek : key h = k
    · left
      rw [← hek, alGet_alSet_self]
      rfl
    · rcases hk with h1 | ⟨g, hg, hgk⟩
      · left
        rw [alGet_alSet_ne _ _ _ _ hek]
        exact h1
      · rcases List.mem_cons.mp hg with hg' | hg'
        · subst hg'
          exact absurd hgk hek
        · exact Or.inr ⟨g, hg', hgk⟩

theorem groupAdjInit_inv (groups : List StudentGroup) :
    GAdjInv groups (groupAdjInit groups) := by
  constructor
  · intro x y hxy
    unfold adjMem alGetD at hxy
    rcases hg : alGet (groupAdjInit groups) x with _ | s
    · rw [hg] at hxy
      simp at hxy
    · rw [hg] at hxy
      simp only [Option.getD_some] at hxy
      have hmem := alGet_mem _ _ _ hg
      rcases mem_foldl_alSet (fun g => g.id) (fun _ => ([] : List String))
        groups [] (x, s) hmem with h' | ⟨g, _, hge⟩
      · simp at h'
      · injection hge with _ h2
        rw [h2] at hxy
        simp at hxy
  · intro gid hgid
    obtain ⟨g, hg, hge⟩ := List.mem_map.mp hgid
    unfold groupAdjInit
    exact foldl_alSet_isSome (fun g => g.id) (fun _ => ([] : List String))
      groups [] gid (Or.inr ⟨g, hg, hge⟩)

theorem adjAdd_isSome_mono (m : Adj) (u w k : String)
    (h : (alGet m k).isSome) : (alGet (adjAdd m u w) k).isSome := by
  rw [alGet_adjAdd_isSome]
  exact h

theorem GAdjInv_addPair (groups : List StudentGroup) (m : Adj)
    (inv : GAdjInv groups m) (gid ogid : String)
    (hgid : gid ∈ groups.map (fun g => g.id))
    (hogid : ogid ∈ groups.map (fun g => g.id)) (hne : ogid ≠ gid) :
    GAdjInv groups (adjAdd (adjAdd m gid ogid) ogid gid) := by
  have hdom1 : (alGet m gid).isSome := inv.2 gid hgid
  have hdom2 : (alGet (adjAdd m gid ogid) ogid).isSome :=
    adjAdd_isSome_mono m gid ogid ogid (inv.2 ogid hogid)
  constructor
  · intro x y hxy
    rw [adjMem_adjAdd] at hxy
    rcases hxy with hxy | ⟨hx, hy, _⟩
    · rw [adjMem_adjAdd] at hxy
      rcases hxy with hxy | ⟨hx, hy, _⟩
      · obtain ⟨hs, hne'⟩ := inv.1 x y hxy
        exact ⟨(adjMem_adjAdd _ _ _ _ _).mpr (Or.inl
          ((adjMem_adjAdd _ _ _ _ _).mpr (Or.inl hs))), hne'⟩
      · subst hx
        subst hy
        refine ⟨(adjMem_adjAdd _ _ _ _ _).mpr (Or.inr ⟨rfl, rfl, hdom2⟩),
          fun he => hne he.symm⟩
    · subst hx
      subst hy
      refine ⟨(adjMem_adjAdd _ _ _ _ _).mpr (Or.inl
        ((adjMem_adjAdd _ _ _ _ _).mpr (Or.inr ⟨rfl, rfl, hdom1⟩))), hne⟩
  · intro k hk
    exact adjAdd_isSome_mono _ _ _ _ (adjAdd_isSome_mono _ _ _ _ (inv.2 k hk))

theorem buildGroupAdjacency_inv (groups : List StudentGroup)
    (pairAdjacency : Adj) :
    GAdjInv groups (buildGroupAdjacency groups pairAdjacency) := by
  unfold buildGroupAdjacency
  have inner : ∀ (ck : List String) (gid : String) (m : Adj),
      GAdjInv groups m → gid ∈ groups.map (fun g => g.id) →
      GAdjInv groups (ck.foldl (fun adj' conflictKey =>
        match alGet (keyToGroupId groups) conflictKey with
        | none => adj'
        | some otherGroupId =>
            if otherGroupId = gid then adj'
            else adjAdd (adjAdd adj' gid otherGroupId) otherGroupId gid) m)
      := by
    intro ck
    induction ck with
    | nil => intro gid m hm _; exact hm
    | cons k t ih =>
      intro gid m hm hgid
      rw [List.foldl_cons]
      refine ih gid _ ?_ hgid
      rcases hck : alGet (keyToGroupId groups) k with _ | ogid
      · exact hm
      · show GAdjInv groups
          (if ogid = gid then m else adjAdd (adjAdd m gid ogid) ogid gid)
        by_cases he : ogid = gid
        · rw [if_pos he]
          exact hm
        · rw [if_neg he]
          exact GAdjInv_addPair groups m hm gid ogid hgid
            (keyToGroupId_values groups _ (alGet_mem _ _ _ hck)) he
  have outer : ∀ (l : Adj) (m : Adj), GAdjInv groups m →
      GAdjInv groups (l.foldl (fun adj e =>
        match alGet (keyToGroupId groups) e.1 with
        | none => adj
        | some groupId =>
            e.2.foldl (fun adj' conflictKey =>
              match alGet (keyToGroupId groups) conflictKey with
              | none => adj'
              | some otherGroupId =>
                  if otherGroupId = groupId then adj'
                  else adjAdd (adjAdd adj' groupId otherGroupId) otherGroupId
                    groupId) adj) m) := by
    intro l
    induction l with
    | nil => intro m hm; exact hm
    | cons e t ih =>
      intro m hm
      rw [List.foldl_cons]
      refine ih _ ?_
      rcases hck : alGet (keyToGroupId groups) e.1 with _ | gid
      · exact hm
      · exact inner e.2 gid m hm
          (keyToGroupId_values groups _ (alGet_mem _ _ _ hck))
  exact outer pairAdjacency _ (groupAdjInit_inv groups)

theorem buildGroupAdjacency_symm (groups : List StudentGroup)
    (pairAdjacency : Adj) (x y : String)
    (h : adjMem (buildGroupAdjacency groups pairAdjacency) x y) :
    adjMem (buildGroupAdjacency groups pairAdjacency) y x :=
  ((buildGroupAdjacency_inv groups pairAdjacency).1 x y h).1

theorem buildGroupAdjacency_irrefl (groups : List StudentGroup)
    (pairAdjacency : Adj) (x : String) :
    ¬ adjMem (buildGroupAdjacency groups pairAdjacency) x x := by
  intro h
  exact ((buildGroupAdjacency_inv groups pairAdjacency).1 x x h).2 rfl

/-- Context facts every `ctxOf` satisfies: conflict graph symmetric and
irreflexive, the id map resolves every group, recorded sizes are member
counts, group ids are distinct, and there is one target size per team. -/
def CtxOK (ctx : GenCtx) : Prop :=
  (∀ x y, adjMem ctx.groupAdjacency x y → adjMem ctx.groupAdjacency y x) ∧
  (∀ x, ¬ adjMem ctx.groupAdjacency x x) ∧
  (∀ g ∈ ctx.groupsWithDegree, alGet ctx.groupById g.id = some g ∧
    g.size = g.members.length) ∧
  (∀ e ∈ ctx.groupById, (e.2).size = (e.2).members.length) ∧
  ((ctx.groupsWithDegree.map (fun g => g.id)).Nodup) ∧
  ctx.targetSizes.length = ctx.teamCount

theorem calculateDistribution_length (count buckets : Nat) :
    (calculateDistribution count buckets).length = buckets := by
  unfold calculateDistribution
  rw [List.length_map, List.length_range]

theorem ctxOf_ok (studentsInput : List Student)
    (blocks togetherRules : List BlockRule) (teamCount : Nat) :
    CtxOK (ctxOf studentsInput blocks togetherRules teamCount) := by
  refine ⟨?_, ?_, ?_, ?_, ?_, ?_⟩
  · intro x y h
    exact buildGroupAdjacency_symm _ _ x y h
  · intro x
    exact buildGroupAdjacency_irrefl _ _ x
  · intro g hg
    exact ⟨groupByIdOf_get studentsInput blocks togetherRules g hg,
      groupsWithDegreeOf_size studentsInput blocks togetherRules g hg⟩
  · exact groupByIdOf_size studentsInput blocks togetherRules
  · exact groupsWithDegreeOf_ids_nodup studentsInput blocks togetherRules
  · exact calculateDistribution_length _ _

theorem replicate_teamsOK (gbi : List (String × StudentGroup))
    (targetSizes : List Nat) (gAdj : Adj) (n : Nat) :
    TeamsOK gbi targetSizes gAdj n [] (List.replicate n emptyTeam) := by
  refine ⟨List.length_replicate n emptyTeam, ?_, ?_, ?_, ?_⟩
  · intro t ht
    rw [List.eq_of_mem_replicate ht]
    rfl
  · have : ∀ m : Nat, ((List.replicate m emptyTeam).flatMap
        (fun t => t.groupIds)) = [] := by
      intro m
      induction m with
      | zero => rfl
      | succ m' ih => rw [List.replicate_succ, List.flatMap_cons, ih]; rfl
    rw [this]
  · intro i t ht
    rw [List.eq_of_mem_replicate (mem_map_get ht)]
    exact Nat.zero_le _
  · intro t ht a ha _ _
    rw [List.eq_of_mem_replicate ht] at ha
    simp [emptyTeam] at ha

theorem runAttempt_ok (ctx : GenCtx) (o : Rand) (c : Nat)
    (teams : List TeamState) (c' : Nat) (hctx : CtxOK ctx)
    (h : runAttempt ctx o c = (some teams, c')) :
    TeamsOK ctx.groupById ctx.targetSizes ctx.groupAdjacency ctx.teamCount
      (ctx.groupsWithDegree.map (fun g => g.id)) teams := by
  obtain ⟨hsym, hirr, hgs, _, _, _⟩ := hctx
  unfold runAttempt at h
  have hperm : (orderGroups (fisherYatesShuffle o c
      ctx.groupsWithDegree).1).Perm ctx.groupsWithDegree :=
    (orderGroups_perm _).trans (fisherYatesShuffle_perm o c _)
  have hplace := placeGroups_ok ctx o ctx.teamCount hsym hirr
    (orderGroups (fisherYatesShuffle o c ctx.groupsWithDegree).1)
    (List.replicate ctx.teamCount emptyTeam)
    (fisherYatesShuffle o c ctx.groupsWithDegree).2 teams c' []
    (fun g hg => hgs g (hperm.mem_iff.mp hg)) h
    (replicate_teamsOK _ _ _ _)
  refine hplace.perm_ids ?_
  rw [List.nil_append]
  exact hperm.map (fun g => g.id)

theorem attemptOutcome_teamsOK (ctx : GenCtx) (o : Rand) (c : Nat)
    (ts : List TeamState) (q : TeamQuality) (hctx : CtxOK ctx)
    (h : (attemptOutcome ctx o c).1 = some (ts, q)) :
    TeamsOK ctx.groupById ctx.targetSizes ctx.groupAdjacency ctx.teamCount
      (ctx.groupsWithDegree.map (fun g => g.id)) ts := by
  unfold attemptOutcome at h
  rcases hra : runAttempt ctx o c with ⟨ores, c'⟩
  rw [hra] at h
  cases ores with
  | none => simp at h
  | some placed =>
    simp only [Option.some.injEq, Prod.mk.injEq] at h
    obtain ⟨h1, _⟩ := h
    rw [← h1]
    exact optimizeTeamsByLocalSearch_ok ctx.groupById ctx.targetSizes
      ctx.groupAdjacency ctx.idealSkill ctx.targetGirls ctx.targetBoys
      ctx.levelTargets ctx.teamCount _ placed
      hctx.1 hctx.2.1 hctx.2.2.2.1
      (by
        have := hctx.2.2.2.2.1
        exact this)
      (runAttempt_ok ctx o c placed c' hctx hra)

theorem traceOutcome_teamsOK (ctx : GenCtx) (o : Rand) (hctx : CtxOK ctx) :
    ∀ (k c : Nat) (ts : List TeamState) (q : TeamQuality),
    traceOutcome ctx o c k = some (ts, q) →
    TeamsOK ctx.groupById ctx.targetSizes ctx.groupAdjacency ctx.teamCount
      (ctx.groupsWithDegree.map (fun g => g.id)) ts := by
  intro k
  induction k with
  | zero =>
    intro c ts q h
    rw [traceOutcome_zero] at h
    exact attemptOutcome_teamsOK ctx o c ts q hctx h
  | succ k' ih =>
    intro c ts q h
    rw [traceOutcome_succ] at h
    exact ih _ ts q h

/-- A successful call that passed validation carries the member lists of a
team-state list satisfying the configuration invariant. -/
theorem generateTeams_ok_trace (studentsInput : List Student)
    (blocks togetherRules : List BlockRule) (teamCount : Nat)
    (maxAttempts : Int) (o : Rand) (t : List (List Student)) (a : Nat)
    (hv : validationsPass studentsInput blocks togetherRules teamCount)
    (hok : generateTeams studentsInput blocks togetherRules teamCount
      maxAttempts o = .ok t a) :
    ∃ ts, TeamsOK
      (ctxOf studentsInput blocks togetherRules teamCount).groupById
      (ctxOf studentsInput blocks togetherRules teamCount).targetSizes
      (ctxOf studentsInput blocks togetherRules teamCount).groupAdjacency
      teamCount
      (((ctxOf studentsInput blocks togetherRules teamCount).groupsWithDegree).map
        (fun g => g.id)) ts ∧
      ts.map (fun tm => tm.members) = t := by
  rw [generateTeams_eq_loop studentsInput blocks togetherRules teamCount
    maxAttempts o hv] at hok
  obtain ⟨q, hsrc, _, _⟩ := loop_ok
    (ctxOf studentsInput blocks togetherRules teamCount) o
    (attemptLimitOf maxAttempts) (attemptLimitOf maxAttempts) 1 0 none t a hok
  rcases hsrc with hb | ⟨k, _, _, ⟨ts, htr, hmap⟩, _, _⟩
  · exact absurd hb (by simp)
  · exact ⟨ts, traceOutcome_teamsOK _ o
      (ctxOf_ok studentsInput blocks togetherRules teamCount) k 0 ts q htr,
      hmap⟩

/-- Dropping the normalization key from the present normalized roster gives
back the present roster. -/
theorem normalizedPresentOf_map (studentsInput : List Student) :
    (normalizedPresentOf studentsInput).map nodeToMember =
      presentRoster studentsInput := by
  unfold normalizedPresentOf normalizedAllOf presentRoster
  rw [List.map_filter]
  have hfc : (dedupedStudents studentsInput).filter
      ((fun s : StudentNode => s.present) ∘
        (fun s => ({ toStudent := s, key := normalizeName s.name } :
          StudentNode))) =
      (dedupedStudents studentsInput).filter (fun s => s.present) :=
    List.filter_congr (fun s _ => rfl)
  rw [hfc, List.map_map]
  refine List.map_eq_map_iff.mpr ?_ |>.trans (List.map_id _)
  intro s hs
  have hp := (List.mem_filter.mp hs).2
  cases s with
  | mk name level gender present =>
    simp only [Function.comp_apply, nodeToMember]
    simp at hp
    rw [hp]
    rfl

/-- The members of an invariant-satisfying team list are, as a multiset,
exactly the present roster. -/
theorem teamsOK_members_perm (studentsInput : List Student)
    (blocks togetherRules : List BlockRule) (teamCount : Nat)
    (ts : List TeamState)
    (hok : TeamsOK
      (ctxOf studentsInput blocks togetherRules teamCount).groupById
      (ctxOf studentsInput blocks togetherRules teamCount).targetSizes
      (ctxOf studentsInput blocks togetherRules teamCount).groupAdjacency
      teamCount
      (((ctxOf studentsInput blocks togetherRules teamCount).groupsWithDegree).map
        (fun g => g.id)) ts) :
    ((ts.map (fun tm => tm.members)).flatten).Perm
      (presentRoster studentsInput) := by
  have h0 : (ts.map (fun tm => tm.members)).flatten =
      ts.flatMap (fun tm => tm.members) := rfl
  have h1 : ts.flatMap (fun tm => tm.members) =
      ts.flatMap (fun tm => tm.groupIds.flatMap (idMembers
        (ctxOf studentsInput blocks togetherRules teamCount).groupById)) :=
    List.flatMap_congr (fun tm htm => hok.rep tm htm)
  have h2 : ts.flatMap (fun tm => tm.groupIds.flatMap (idMembers
      (ctxOf studentsInput blocks togetherRules teamCount).groupById)) =
      (ts.flatMap (fun tm => tm.groupIds)).flatMap (idMembers
        (ctxOf studentsInput blocks togetherRules teamCount).groupById) :=
    (List.bind_assoc ts _ _).symm
  have h3 := List.Perm.flatMap_right (idMembers
    (ctxOf studentsInput blocks togetherRules teamCount).groupById) hok.ids
  have h4 : ((((ctxOf studentsInput blocks togetherRules
        teamCount).groupsWithDegree).map (fun g => g.id)).flatMap (idMembers
        (ctxOf studentsInput blocks togetherRules teamCount).groupById)) =
      (((ctxOf studentsInput blocks togetherRules
        teamCount).groupsWithDegree).flatMap
        (fun g => g.members.map nodeToMember)) := by
    rw [flatMap_map_comp]
    refine List.flatMap_congr ?_
    intro g hg
    have hget := ((ctxOf_ok studentsInput blocks togetherRules
      teamCount).2.2.1 g hg).1
    simp [idMembers, hget]
  have h5 : (((ctxOf studentsInput blocks togetherRules
        teamCount).groupsWithDegree).flatMap
        (fun g => g.members.map nodeToMember)) =
      ((((ctxOf studentsInput blocks togetherRules
        teamCount).groupsWithDegree).flatMap
        (fun g => g.members)).map nodeToMember) :=
    (List.map_flatMap _ _ _).symm
  have h6 : (((ctxOf studentsInput blocks togetherRules
        teamCount).groupsWithDegree).flatMap (fun g => g.members)) =
      ((groupsOf studentsInput togetherRules).flatMap (fun g => g.members))
      := by
    show ((groupsWithDegreeOf studentsInput blocks togetherRules).flatMap
      (fun g => g.members)) = _
    unfold groupsWithDegreeOf
    rw [flatMap_map_comp]
  have h7 : (((groupsOf studentsInput togetherRules).flatMap
      (fun g => g.members))).Perm (normalizedPresentOf studentsInput) := by
    have := buildStudentGroups_members_perm
      (normalizedPresentOf studentsInput)
      (togetherValidationOf studentsInput togetherRules).adjacency
    exact this
  have h8 := normalizedPresentOf_map studentsInput
  rw [h0, h1, h2]
  refine (h3.trans ?_)
  rw [h4, h5, h6]
  refine ((h7.map nodeToMember).trans ?_)
  rw [h8]

/-! ## Claim C1: a success partitions the present roster into the teams -/

/-- C1: every successful `generateTeams` call that passed validation
returns exactly `teamCount` teams whose members, as a multiset, are exactly
the present subset of the deduplicated roster: every present member in
exactly one team, no absent member anywhere. -/
theorem generateTeams_success_partition (studentsInput : List Student)
    (blocks togetherRules : List BlockRule) (teamCount : Nat)
    (maxAttempts : Int) (o : Rand) (t : List (List Student)) (a : Nat)
    (hv : validationsPass studentsInput blocks togetherRules teamCount)
    (hok : generateTeams studentsInput blocks togetherRules teamCount
      maxAttempts o = .ok t a) :
    t.length = teamCount ∧ (t.flatten).Perm (presentRoster studentsInput) := by
  obtain ⟨ts, hts, hmap⟩ := generateTeams_ok_trace studentsInput blocks
    togetherRules teamCount maxAttempts o t a hv hok
  constructor
  · rw [← hmap, List.length_map]
    exact hts.len
  · rw [← hmap]
    exact teamsOK_members_perm studentsInput blocks togetherRules teamCount
      ts hts

/-- Witness for C1: the two-member roster is split into two singleton
teams that together are exactly the present roster. -/
theorem generateTeams_success_partition_witness :
    ([[{ name := "Kalle", level := .two, gender := .kille, present := true }],
      [{ name := "Greta", level := .two, gender := .tjej, present := true }]]
      : List (List Student)).length = 2 ∧
    (([[{ name := "Kalle", level := .two, gender := .kille, present := true }],
       [{ name := "Greta", level := .two, gender := .tjej, present := true }]]
      : List (List Student)).flatten).Perm (presentRoster
      [{ name := "Greta", level := .two, gender := .tjej, present := true },
       { name := "Kalle", level := .two, gender := .kille, present := true }])
    :=
  generateTeams_success_partition
    [{ name := "Greta", level := .two, gender := .tjej, present := true },
     { name := "Kalle", level := .two, gender := .kille, present := true }]
    [] [] 2 2000 (fun _ => 0)
    [[{ name := "Kalle", level := .two, gender := .kille, present := true }],
     [{ name := "Greta", level := .two, gender := .tjej, present := true }]] 1
    (by unfold validationsPass; with_unfolding_all decide)
    (by with_unfolding_all decide)

/-! ## Identity bookkeeping for the rule-level claims -/

theorem foldl_setAdd_mem (l : List String) :
    ∀ (acc : List String) (x : String),
    x ∈ l.foldl setAdd acc ↔ x ∈ acc ∨ x ∈ l := by
  induction l with
  | nil => intro acc x; simp
  | cons k t ih =>
    intro acc x
    rw [List.foldl_cons, ih]
    rw [setAdd_mem]
    constructor
    · rintro ((h | h) | h)
      · exact Or.inl h
      · exact Or.inr (h ▸ List.mem_cons_self _ _)
      · exact Or.inr (List.mem_cons_of_mem _ h)
    · rintro (h | h)
      · exact Or.inl (Or.inl h)
      · rcases List.mem_cons.mp h with h' | h'
        · exact Or.inl (Or.inr h')
        · exact Or.inr h'

theorem mkSet_mem (l : List String) (x : String) : x ∈ mkSet l ↔ x ∈ l := by
  unfold mkSet
  rw [foldl_setAdd_mem]
  simp

/-- Loop invariant of `dedupeStudents`: the seen set is exactly the list of
normalized names of the kept students, in order and duplicate-free. -/
theorem dedupe_fold_inv :
    ∀ (l : List Student) (st : List String × List String × List Student),
    st.1 = st.2.2.map (fun s => normalizeName s.name) → st.1.Nodup →
    (l.foldl dedupeStep st).1 =
      (l.foldl dedupeStep st).2.2.map (fun s => normalizeName s.name) ∧
    (l.foldl dedupeStep st).1.Nodup := by
  intro l
  induction l with
  | nil => intro st h1 h2; exact ⟨h1, h2⟩
  | cons s t ih =>
    intro st h1 h2
    rw [List.foldl_cons]
    unfold dedupeStep
    by_cases hc : cleanName s.name = ""
    · rw [if_pos hc]
      exact ih st h1 h2
    · rw [if_neg hc]
      by_cases hk : normalizeName (cleanName s.name) ∈ st.1
      · rw [if_pos hk]
        exact ih _ h1 h2
      · rw [if_neg hk]
        refine ih _ ?_ ?_
        · show st.1 ++ [normalizeName (cleanName s.name)] =
            (st.2.2 ++ [({ s with name := cleanName s.name } : Student)]).map
              (fun u : Student => normalizeName u.name)
          rw [List.map_append, ← h1]
          rfl
        · show (st.1 ++ [normalizeName (cleanName s.name)]).Nodup
          rw [List.nodup_append]
          exact ⟨h2, List.nodup_singleton _, by
            intro x hx hx'
            rw [List.mem_singleton] at hx'
            exact hk (hx' ▸ hx)⟩

theorem dedupedStudents_keys_nodup (studentsInput : List Student) :
    ((dedupedStudents studentsInput).map
      (fun s => normalizeName s.name)).Nodup := by
  have := dedupe_fold_inv studentsInput ([], [], []) rfl (List.nodup_nil)
  unfold dedupedStudents dedupeStudents
  rw [← this.1]
  exact this.2

theorem normalizedAllOf_keys (studentsInput : List Student) :
    (normalizedAllOf studentsInput).map (fun n => n.key) =
      (dedupedStudents studentsInput).map (fun s => normalizeName s.name) := by
  unfold normalizedAllOf
  rw [List.map_map]
  rfl

theorem normalizedPresentOf_keys_nodup (studentsInput : List Student) :
    ((normalizedPresentOf studentsInput).map (fun n => n.key)).Nodup := by
  have hsub : List.Sublist ((normalizedPresentOf studentsInput).map
      (fun n => n.key)) ((normalizedAllOf studentsInput).map (fun n => n.key))
    := by
    unfold normalizedPresentOf
    exact (List.filter_sublist _).map _
  refine hsub.nodup ?_
  rw [normalizedAllOf_keys]
  exact dedupedStudents_keys_nodup studentsInput

theorem normalizedPresentOf_key (studentsInput : List Student) :
    ∀ n ∈ normalizedPresentOf studentsInput,
      n.key = normalizeName n.name := by
  intro n hn
  unfold normalizedPresentOf at hn
  have hn' := List.mem_of_mem_filter hn
  unfold normalizedAllOf at hn'
  obtain ⟨s, _, he⟩ := List.mem_map.mp hn'
  rw [← he]

theorem presentKeySetOf_mem (studentsInput : List Student) (k : String) :
    k ∈ presentKeySetOf studentsInput ↔
      k ∈ groupKeys (normalizedPresentOf studentsInput) := by
  unfold presentKeySetOf groupKeys
  rw [mkSet_mem]

/-- Wellformedness of a `buildPairValidation` adjacency with respect to the
present normalized roster: all keys and linked keys are student keys. -/
theorem pairValidation_wf (studentsInput : List Student)
    (rules : List BlockRule) :
    ∀ e ∈ (buildPairValidation (allKeySetOf studentsInput)
      (presentKeySetOf studentsInput) rules).adjacency,
      e.1 ∈ groupKeys (normalizedPresentOf studentsInput) ∧
      ∀ o ∈ e.2, o ∈ groupKeys (normalizedPresentOf studentsInput) := by
  have hok := buildPairValidation_adjOK (allKeySetOf studentsInput)
    (presentKeySetOf studentsInput) rules
  intro e he
  constructor
  · have hsome : (alGet (buildPairValidation (allKeySetOf studentsInput)
        (presentKeySetOf studentsInput) rules).adjacency e.1).isSome := by
      rw [alGet_of_mem_nodup _ e.1 e.2 hok.keysNodup
        (by rw [Prod.mk.eta]; exact he)]
      rfl
    rw [← presentKeySetOf_mem]
    exact (hok.keyDom e.1).mp hsome
  · intro o ho
    rw [← presentKeySetOf_mem]
    exact hok.entryVal e he o ho

/-- Every present student lies in the cohesion group rooted at its key. -/
theorem mem_group_of_roster (studentsInput : List Student)
    (togetherRules : List BlockRule) (n : StudentNode)
    (hn : n ∈ normalizedPresentOf studentsInput) :
    ∃ g ∈ groupsOf studentsInput togetherRules, n ∈ g.members := by
  have hperm := buildStudentGroups_members_perm
    (normalizedPresentOf studentsInput)
    (togetherValidationOf studentsInput togetherRules).adjacency
  have hmem : n ∈ (((groupsOf studentsInput togetherRules).map
      (fun g => g.members)).join) := hperm.mem_iff.mpr hn
  rw [List.mem_join] at hmem
  obtain ⟨ms, hms, hnms⟩ := hmem
  obtain ⟨g, hg, hge⟩ := List.mem_map.mp hms
  exact ⟨g, hg, hge ▸ hnms⟩

theorem group_member_roster (studentsInput : List Student)
    (togetherRules : List BlockRule) (g : StudentGroup)
    (hg : g ∈ groupsOf studentsInput togetherRules) (n : StudentNode)
    (hn : n ∈ g.members) : n ∈ normalizedPresentOf studentsInput := by
  have hperm := buildStudentGroups_members_perm
    (normalizedPresentOf studentsInput)
    (togetherValidationOf studentsInput togetherRules).adjacency
  refine hperm.mem_iff.mp ?_
  rw [List.mem_join]
  exact ⟨g.members, List.mem_map.mpr ⟨g, hg, rfl⟩, hn⟩

theorem groups_id_inj {groups : List StudentGroup}
    (hnd : (groups.map (fun g => g.id)).Nodup) (g1 g2 : StudentGroup)
    (h1 : g1 ∈ groups) (h2 : g2 ∈ groups) (he : g1.id = g2.id) : g1 = g2 :=
  List.inj_on_of_nodup_map hnd h1 h2 he

/-- All group member keys, over all groups, are pairwise distinct. -/
theorem groupsOf_keys_nodup (studentsInput : List Student)
    (togetherRules : List BlockRule) :
    ((groupsOf studentsInput togetherRules).flatMap (fun g => g.keys)).Nodup
    := by
  have hshape := buildStudentGroups_shape (normalizedPresentOf studentsInput)
    (togetherValidationOf studentsInput togetherRules).adjacency
  have h1 : (groupsOf studentsInput togetherRules).flatMap (fun g => g.keys) =
      (groupsOf studentsInput togetherRules).flatMap
        (fun g => g.members.map (fun n => n.key)) :=
    List.flatMap_congr (fun g hg => by rw [(hshape g hg).1])
  have h2 : (groupsOf studentsInput togetherRules).flatMap
      (fun g => g.members.map (fun n => n.key)) =
      ((groupsOf studentsInput togetherRules).flatMap
        (fun g => g.members)).map (fun n => n.key) :=
    (List.map_flatMap _ _ _).symm
  have hperm : (((groupsOf studentsInput togetherRules).flatMap
      (fun g => g.members)).map (fun n => n.key)).Perm
      ((normalizedPresentOf studentsInput).map (fun n => n.key)) := by
    refine List.Perm.map _ ?_
    exact buildStudentGroups_members_perm _ _
  rw [h1, h2]
  exact hperm.nodup_iff.mpr (normalizedPresentOf_keys_nodup studentsInput)

/-! ## Completeness of the projected group conflict graph -/

theorem alGet_fold_setAll_skip {α : Type} (gid : α) :
    ∀ (ks : List String) (m : List (String × α)) (k : String), k ∉ ks →
    alGet (ks.foldl (fun m' k' => alSet m' k' gid) m) k = alGet m k := by
  intro ks
  induction ks with
  | nil => intro m k _; rfl
  | cons k' t ih =>
    intro m k hk
    rw [List.foldl_cons, ih _ k (fun h => hk (List.mem_cons_of_mem _ h)),
      alGet_alSet_ne _ _ _ _ (fun he => hk (by
        rw [← he]; exact List.mem_cons_self _ _))]

theorem alGet_fold_setAll_mem {α : Type} (gid : α) :
    ∀ (ks : List String) (m : List (String × α)) (k : String), k ∈ ks →
    alGet (ks.foldl (fun m' k' => alSet m' k' gid) m) k = some gid := by
  intro ks
  induction ks with
  | nil => intro m k hk; cases hk
  | cons k' t ih =>
    intro m k hk
    rw [List.foldl_cons]
    by_cases ht : k ∈ t
    · exact ih _ k ht
    · have hkk : k = k' := by
        rcases List.mem_cons.mp hk with h | h
        · exact h
        · exact absurd h ht
      rw [alGet_fold_setAll_skip gid t _ k ht, hkk, alGet_alSet_self]

theorem keyToGroupId_fold_skip :
    ∀ (gs : List StudentGroup) (m : List (String × String)) (k : String),
    (∀ g ∈ gs, k ∉ g.keys) →
    alGet (gs.foldl (fun m g => g.keys.foldl (fun m' k' => alSet m' k' g.id) m)
      m) k = alGet m k := by
  intro gs
  induction gs with
  | nil => intro m k _; rfl
  | cons g t ih =>
    intro m k hk
    rw [List.foldl_cons, ih _ k (fun g' hg' => hk g' (List.mem_cons_of_mem _
      hg')), alGet_fold_setAll_skip g.id g.keys m k
      (hk g (List.mem_cons_self _ _))]

/-- With globally distinct member keys, `keyToGroupId` maps each key to the
id of the (unique) group that contains it. -/
theorem keyToGroupId_get :
    ∀ (gs : List StudentGroup), ((gs.flatMap (fun g => g.keys)).Nodup) →
    ∀ g ∈ gs, ∀ k ∈ g.keys, alGet (keyToGroupId gs) k = some g.id := by
  have main : ∀ (gs : List StudentGroup) (m : List (String × String)),
      ((gs.flatMap (fun g => g.keys)).Nodup) →
      ∀ g ∈ gs, ∀ k ∈ g.keys,
      alGet (gs.foldl (fun m g => g.keys.foldl (fun m' k' => alSet m' k' g.id)
        m) m) k = some g.id := by
    intro gs
    induction gs with
    | nil => intro m _ g hg; cases hg
    | cons g0 t ih =>
      intro m hnd g hg k hk
      rw [List.flatMap_cons, List.nodup_append] at hnd
      rw [List.foldl_cons]
      rcases List.mem_cons.mp hg with heq | hg'
      · subst heq
        have hdisj : ∀ g' ∈ t, k ∉ g'.keys := by
          intro g' hg' hk'
          exact hnd.2.2 hk (List.mem_flatMap.mpr ⟨g', hg', hk'⟩)
        rw [keyToGroupId_fold_skip t _ k hdisj,
          alGet_fold_setAll_mem g.id g.keys m k hk]
      · exact ih _ hnd.2.1 g hg' k hk
  intro gs hnd g hg k hk
  exact main gs [] hnd g hg k hk

theorem gadjInner_mem_mono (groups : List StudentGroup) (gid : String) :
    ∀ (ck : List String) (m : Adj) (x y : String), adjMem m x y →
    adjMem (ck.foldl (fun adj' conflictKey =>
      match alGet (keyToGroupId groups) conflictKey with
      | none => adj'
      | some otherGroupId =>
          if otherGroupId = gid then adj'
          else adjAdd (adjAdd adj' gid otherGroupId) otherGroupId gid) m) x y
    := by
  intro ck
  induction ck with
  | nil => intro m x y h; exact h
  | cons k t ih =>
    intro m x y h
    rw [List.foldl_cons]
    refine ih _ x y ?_
    rcases hck : alGet (keyToGroupId groups) k with _ | ogid
    · exact h
    · show adjMem (if ogid = gid then m else adjAdd (adjAdd m gid ogid) ogid
        gid) x y
      by_cases he : ogid = gid
      · rw [if_pos he]
        exact h
      · rw [if_neg he]
        exact adjMem_adjAdd_mono _ _ _ _ _ (adjMem_adjAdd_mono _ _ _ _ _ h)

theorem gadjOuter_mem_mono (groups : List StudentGroup) :
    ∀ (l : Adj) (m : Adj) (x y : String), adjMem m x y →
    adjMem (l.foldl (fun adj e =>
      match alGet (keyToGroupId groups) e.1 with
      | none => adj
      | some groupId =>
          e.2.foldl (fun adj' conflictKey =>
            match alGet (keyToGroupId groups) conflictKey with
            | none => adj'
            | some otherGroupId =>
                if otherGroupId = groupId then adj'
                else adjAdd (adjAdd adj' groupId otherGroupId) otherGroupId
                  groupId) adj) m) x y := by
  intro l
  induction l with
  | nil => intro m x y h; exact h
  | cons e t ih =>
    intro m x y h
    rw [List.foldl_cons]
    refine ih _ x y ?_
    rcases hck : alGet (keyToGroupId groups) e.1 with _ | gid
    · exact h
    · exact gadjInner_mem_mono groups gid e.2 m x y h

theorem gadjInner_inv (groups : List StudentGroup) :
    ∀ (ck : List String) (gid : String) (m : Adj),
    GAdjInv groups m → gid ∈ groups.map (fun g => g.id) →
    GAdjInv groups (ck.foldl (fun adj' conflictKey =>
      match alGet (keyToGroupId groups) conflictKey with
      | none => adj'
      | some otherGroupId =>
          if otherGroupId = gid then adj'
          else adjAdd (adjAdd adj' gid otherGroupId) otherGroupId gid) m) := by
  intro ck
  induction ck with
  | nil => intro gid m hm _; exact hm
  | cons k t ih =>
    intro gid m hm hgid
    rw [List.foldl_cons]
    refine ih gid _ ?_ hgid
    rcases hck : alGet (keyToGroupId groups) k with _ | ogid
    · exact hm
    · show GAdjInv groups
        (if ogid = gid then m else adjAdd (adjAdd m gid ogid) ogid gid)
      by_cases he : ogid = gid
      · rw [if_pos he]
        exact hm
      · rw [if_neg he]
        exact GAdjInv_addPair groups m hm gid ogid hgid
          (keyToGroupId_values groups _ (alGet_mem _ _ _ hck)) he

theorem gadjInner_complete (groups : List StudentGroup) (gid1 : String) :
    ∀ (ck : List String) (m : Adj), GAdjInv groups m →
    gid1 ∈ groups.map (fun g => g.id) →
    ∀ (k2 gid2 : String), k2 ∈ ck →
    alGet (keyToGroupId groups) k2 = some gid2 → gid2 ≠ gid1 →
    adjMem (ck.foldl (fun adj' conflictKey =>
      match alGet (keyToGroupId groups) conflictKey with
      | none => adj'
      | some otherGroupId =>
          if otherGroupId = gid1 then adj'
          else adjAdd (adjAdd adj' gid1 otherGroupId) otherGroupId gid1) m)
      gid1 gid2 := by
  intro ck
  induction ck with
  | nil => intro m _ _ k2 gid2 hk2; cases hk2
  | cons k t ih =>
    intro m hinv hgid1 k2 gid2 hk2 hget hne
    rw [List.foldl_cons]
    rcases hck : alGet (keyToGroupId groups) k with _ | ogid
    · have hk2' : k2 ∈ t := by
        rcases List.mem_cons.mp hk2 with heq | h
        · rw [heq] at hget
          rw [hck] at hget
          cases hget
        · exact h
      exact ih m hinv hgid1 k2 gid2 hk2' hget hne
    · show adjMem (t.foldl _
        (if ogid = gid1 then m else adjAdd (adjAdd m gid1 ogid) ogid gid1))
        gid1 gid2
      by_cases hkk : k2 = k
      · have hog : ogid = gid2 := by
          rw [hkk] at hget
          rw [hck] at hget
          exact Option.some.inj hget
        rw [hog, if_neg hne]
        refine gadjInner_mem_mono groups gid1 t _ gid1 gid2 ?_
        exact adjMem_adjAdd_mono _ _ _ _ _ ((adjMem_adjAdd _ _ _ _ _).mpr
          (Or.inr ⟨rfl, rfl, hinv.2 gid1 hgid1⟩))
      · have hk2' : k2 ∈ t := by
          rcases List.mem_cons.mp hk2 with heq | h
          · exact absurd heq hkk
          · exact h
        by_cases he : ogid = gid1
        · rw [if_pos he]
          exact ih m hinv hgid1 k2 gid2 hk2' hget hne
        · rw [if_neg he]
          exact ih _ (GAdjInv_addPair groups m hinv gid1 ogid hgid1
            (keyToGroupId_values groups _ (alGet_mem _ _ _ hck)) he) hgid1
            k2 gid2 hk2' hget hne

theorem gadjOuter_complete (groups : List StudentGroup) :
    ∀ (l : Adj) (m : Adj), GAdjInv groups m →
    ∀ (k1 : String) (s : List String) (k2 gid1 gid2 : String),
    (k1, s) ∈ l → alGet (keyToGroupId groups) k1 = some gid1 → k2 ∈ s →
    alGet (keyToGroupId groups) k2 = some gid2 → gid2 ≠ gid1 →
    adjMem (l.foldl (fun adj e =>
      match alGet (keyToGroupId groups) e.1 with
      | none => adj
      | some groupId =>
          e.2.foldl (fun adj' conflictKey =>
            match alGet (keyToGroupId groups) conflictKey with
            | none => adj'
            | some otherGroupId =>
                if otherGroupId = groupId then adj'
                else adjAdd (adjAdd adj' groupId otherGroupId) otherGroupId
                  groupId) adj) m) gid1 gid2 := by
  intro l
  induction l with
  | nil => intro m _ k1 s k2 gid1 gid2 hmem; cases hmem
  | cons e t ih =>
    intro m hinv k1 s k2 gid1 gid2 hmem hget1 hk2 hget2 hne
    rw [List.foldl_cons]
    rcases List.mem_cons.mp hmem with heq | hmem'
    · have he1 : e.1 = k1 := by rw [← heq]
      have he2 : e.2 = s := by rw [← heq]
      rw [he1] at *
      rcases hck : alGet (keyToGroupId groups) k1 with _ | gid
      · rw [hck] at hget1
        cases hget1
      · have hgg : gid = gid1 := by
          rw [hck] at hget1
          exact Option.some.inj hget1
        refine gadjOuter_mem_mono groups t _ gid1 gid2 ?_
        rw [hgg]
        refine gadjInner_complete groups gid1 e.2 m hinv ?_ k2 gid2
          (he2 ▸ hk2) hget2 hne
        rw [← hgg]
        exact keyToGroupId_values groups _ (alGet_mem _ _ _ hck)
    · refine ih _ ?_ k1 s k2 gid1 gid2 hmem' hget1 hk2 hget2 hne
      rcases hck : alGet (keyToGroupId groups) e.1 with _ | gid
      · exact hinv
      · exact gadjInner_inv groups e.2 gid m hinv
          (keyToGroupId_values groups _ (alGet_mem _ _ _ hck))

/-- Member-level exclusion edges whose endpoints lie in distinct groups are
lifted to the group conflict graph. -/
theorem buildGroupAdjacency_complete (groups : List StudentGroup)
    (pairAdjacency : Adj) (k1 k2 gid1 gid2 : String)
    (hadj : adjMem pairAdjacency k1 k2)
    (hget1 : alGet (keyToGroupId groups) k1 = some gid1)
    (hget2 : alGet (keyToGroupId groups) k2 = some gid2)
    (hne : gid2 ≠ gid1) :
    adjMem (buildGroupAdjacency groups pairAdjacency) gid1 gid2 := by
  unfold buildGroupAdjacency
  obtain ⟨s, hs⟩ := Option.isSome_iff_exists.mp
    (adjMem_isSome pairAdjacency k1 k2 hadj)
  have hmem : (k1, s) ∈ pairAdjacency := alGet_mem _ _ _ hs
  have hk2s : k2 ∈ s := by
    unfold adjMem alGetD at hadj
    rw [hs] at hadj
    exact hadj
  exact gadjOuter_complete groups pairAdjacency _ (groupAdjInit_inv groups)
    k1 s k2 gid1 gid2 hmem hget1 hk2s hget2 hne

/-! ## Soundness of the internal-conflict scan -/

theorem findSome?_none {α β : Type} (f : α → Option β) :
    ∀ (l : List α), l.findSome? f = none → ∀ x ∈ l, f x = none := by
  intro l
  induction l with
  | nil => intro _ x hx; cases hx
  | cons a t ih =>
    intro h x hx
    rw [List.findSome?_cons] at h
    rcases hfa : f a with _ | b
    · rw [hfa] at h
      simp only [] at h
      rcases List.mem_cons.mp hx with heq | hx'
      · rw [heq]
        exact hfa
      · exact ih h x hx'
    · rw [hfa] at h
      simp at h

/-- If `findInternalConflict` reports nothing, no group contains two keys
linked by the member-level exclusion adjacency. -/
theorem findInternalConflict_none (groups : List StudentGroup)
    (blockAdjacency : Adj) (keyToName : List (String × String))
    (hnone : findInternalConflict groups blockAdjacency keyToName = none) :
    ∀ g ∈ groups, ∀ k1 ∈ g.keys, ∀ k2 ∈ g.keys,
      ¬ adjMem blockAdjacency k1 k2 := by
  intro g hg k1 hk1 k2 hk2 hadj
  unfold findInternalConflict at hnone
  have hgnone := findSome?_none _ groups hnone g hg
  unfold ficGroup at hgnone
  have h1 := findSome?_none _ g.keys hgnone k1 hk1
  obtain ⟨s, hs⟩ := Option.isSome_iff_exists.mp
    (adjMem_isSome blockAdjacency k1 k2 hadj)
  rw [hs] at h1
  simp only [] at h1
  unfold ficInner at h1
  have h2 := findSome?_none _ s h1 k2 (by
    unfold adjMem alGetD at hadj
    rw [hs] at hadj
    exact hadj)
  rw [if_pos hk2] at h2
  cases h2

/-! ## Claim C9: team sizes equal the even-split targets -/

theorem calculateDistribution_mem (count buckets : Nat) :
    ∀ x ∈ calculateDistribution count buckets,
      x = count / buckets ∨ x = count / buckets + 1 := by
  intro x hx
  unfold calculateDistribution at hx
  obtain ⟨i, _, he⟩ := List.mem_map.mp hx
  by_cases hi : i < count % buckets
  · rw [if_pos hi] at he
    exact Or.inr he.symm
  · rw [if_neg hi] at he
    exact Or.inl he.symm

theorem calculateDistribution_sum (count buckets : Nat) (h : 0 < buckets) :
    (calculateDistribution count buckets).sum = count := by
  have key : ∀ b : Nat, ((List.range b).map (fun index =>
      if index < count % buckets then count / buckets + 1
      else count / buckets)).sum =
      b * (count / buckets) + min (count % buckets) b := by
    intro b
    induction b with
    | zero => simp
    | succ b' ih =>
      rw [List.range_succ, List.map_append, List.sum_append, ih]
      by_cases hb : b' < count % buckets
      · rw [List.map_cons, List.map_nil, if_pos hb]
        have h1 : min (count % buckets) b' = b' := by omega
        have h2 : min (count % buckets) (b' + 1) = b' + 1 := by omega
        rw [h1, h2]
        simp only [List.sum_cons, List.sum_nil]
        ring
      · rw [List.map_cons, List.map_nil, if_neg hb]
        have h1 : min (count % buckets) b' = count % buckets := by omega
        have h2 : min (count % buckets) (b' + 1) = count % buckets := by omega
        rw [h1, h2]
        simp only [List.sum_cons, List.sum_nil]
        ring
  unfold calculateDistribution
  rw [key buckets]
  have hlt : count % buckets < buckets := Nat.mod_lt _ h
  have hm : min (count % buckets) buckets = count % buckets := by omega
  rw [hm]
  exact Nat.div_add_mod count buckets

theorem sum_le_of_pointwise : ∀ (a b : List Nat), a.length = b.length →
    (∀ i, i < a.length → a.getD i 0 ≤ b.getD i 0) → a.sum ≤ b.sum := by
  intro a
  induction a with
  | nil => intro b _ _; simp
  | cons x xs ih =>
    intro b hlen hle
    cases b with
    | nil => simp at hlen
    | cons y ys =>
      simp only [List.length_cons, Nat.succ.injEq] at hlen
      have h0 := hle 0 (by simp)
      simp only [List.getD_cons_zero] at h0
      have ht := ih ys hlen (fun i hi => hle (i + 1) (by simp; omega))
      simp only [List.sum_cons]
      omega

theorem eq_of_pointwise_le_sum_eq : ∀ (a b : List Nat), a.length = b.length →
    (∀ i, i < a.length → a.getD i 0 ≤ b.getD i 0) → a.sum = b.sum → a = b := by
  intro a
  induction a with
  | nil =>
    intro b hlen _ _
    cases b with
    | nil => rfl
    | cons y ys => simp at hlen
  | cons x xs ih =>
    intro b hlen hle hsum
    cases b with
    | nil => simp at hlen
    | cons y ys =>
      simp only [List.length_cons, Nat.succ.injEq] at hlen
      have h0 := hle 0 (by simp)
      simp only [List.getD_cons_zero] at h0
      have hts := sum_le_of_pointwise xs ys hlen
        (fun i hi => hle (i + 1) (by simp; omega))
      simp only [List.sum_cons] at hsum
      have hxy : x = y := by omega
      subst hxy
      have : xs.sum = ys.sum := by omega
      rw [ih ys hlen (fun i hi => hle (i + 1) (by simp; omega)) this]

/-- C9: every successful call that passed validation returns teams whose
size list is exactly `calculateDistribution presentCount teamCount`
(`count div teams` each, plus one extra member for each of the first
`count mod teams` teams), so any two team sizes differ by at most 1. -/
theorem generateTeams_success_sizes (studentsInput : List Student)
    (blocks togetherRules : List BlockRule) (teamCount : Nat)
    (maxAttempts : Int) (o : Rand) (t : List (List Student)) (a : Nat)
    (hv : validationsPass studentsInput blocks togetherRules teamCount)
    (hok : generateTeams studentsInput blocks togetherRules teamCount
      maxAttempts o = .ok t a) :
    t.map (fun team => team.length) = targetSizesOf studentsInput teamCount ∧
    ∀ i j, i < t.length → j < t.length →
      (t.getD i []).length ≤ (t.getD j []).length + 1 := by
  obtain ⟨ts, hts, hmap⟩ := generateTeams_ok_trace studentsInput blocks
    togetherRules teamCount maxAttempts o t a hv hok
  have htc : 0 < teamCount := by
    obtain ⟨_, _, h3, _⟩ := hv
    omega
  have hlen_t : t.length = teamCount := by
    rw [← hmap, List.length_map]
    exact hts.len
  have hlen_tgt : (targetSizesOf studentsInput teamCount).length = teamCount
    := calculateDistribution_length _ _
  -- pointwise bound from the capacity invariant
  have hpt : ∀ i, i < (t.map (fun team => team.length)).length →
      (t.map (fun team => team.length)).getD i 0 ≤
        (targetSizesOf studentsInput teamCount).getD i 0 := by
    intro i hi
    rw [List.length_map, hlen_t] at hi
    rcases hgt : ts.get? i with _ | tm
    · have hcontra := List.get?_eq_none.mp hgt
      rw [hts.len] at hcontra
      omega
    · have hcap := hts.cap i tm hgt
      have hgett : (t.map (fun team => team.length)).get? i =
          some tm.members.length := by
        rw [← hmap, List.map_map, List.get?_map, hgt]
        rfl
      rw [getD_eq_get?, hgett]
      exact hcap
  -- sums agree: total members = present count = total of targets
  have hsum : (t.map (fun team => team.length)).sum =
      (targetSizesOf studentsInput teamCount).sum := by
    have h1 : (t.map (fun team => team.length)).sum = t.flatten.length :=
      (List.length_join t).symm
    have h2 : t.flatten.length = (presentRoster studentsInput).length := by
      rw [← hmap]
      exact (teamsOK_members_perm studentsInput blocks togetherRules teamCount
        ts hts).length_eq
    have h3 : (presentRoster studentsInput).length =
        (normalizedPresentOf studentsInput).length := by
      rw [← normalizedPresentOf_map studentsInput, List.length_map]
    have h4 : (targetSizesOf studentsInput teamCount).sum =
        (normalizedPresentOf studentsInput).length :=
      calculateDistribution_sum _ _ htc
    rw [h1, h2, h3, h4]
  have heq : t.map (fun team => team.length) =
      targetSizesOf studentsInput teamCount :=
    eq_of_pointwise_le_sum_eq _ _ (by rw [List.length_map, hlen_t, hlen_tgt])
      hpt hsum
  refine ⟨heq, ?_⟩
  intro i j hi hj
  have hgi : (t.getD i []).length = (t.map (fun team => team.length)).getD i 0
    := by
    rcases hti : t.get? i with _ | team
    · have hcontra := List.get?_eq_none.mp hti
      omega
    · rw [getD_eq_get?, hti, getD_eq_get?, List.get?_map, hti]
      rfl
  have hgj : (t.getD j []).length = (t.map (fun team => team.length)).getD j 0
    := by
    rcases htj : t.get? j with _ | team
    · have hcontra := List.get?_eq_none.mp htj
      omega
    · rw [getD_eq_get?, htj, getD_eq_get?, List.get?_map, htj]
      rfl
  rw [hgi, hgj, heq]
  -- both entries are `q` or `q + 1`
  have hmi : (targetSizesOf studentsInput teamCount).getD i 0 ∈
      targetSizesOf studentsInput teamCount := by
    rcases hgt : (targetSizesOf studentsInput teamCount).get? i with _ | x
    · have hcontra := List.get?_eq_none.mp hgt
      omega
    · rw [getD_eq_get?, hgt]
      exact List.get?_mem hgt
  have hmj : (targetSizesOf studentsInput teamCount).getD j 0 ∈
      targetSizesOf studentsInput teamCount := by
    rcases hgt : (targetSizesOf studentsInput teamCount).get? j with _ | x
    · have hcontra := List.get?_eq_none.mp hgt
      omega
    · rw [getD_eq_get?, hgt]
      exact List.get?_mem hgt
  have hvi := calculateDistribution_mem _ _ _ hmi
  have hvj := calculateDistribution_mem _ _ _ hmj
  omega

/-- Witness for C9: two teams of one member each, matching the even split
of 2 members over 2 teams. -/
theorem generateTeams_success_sizes_witness :
    ([[{ name := "Kalle", level := .two, gender := .kille, present := true }],
      [{ name := "Greta", level := .two, gender := .tjej, present := true }]]
      : List (List Student)).map (fun team => team.length) =
      targetSizesOf
        [{ name := "Greta", level := .two, gender := .tjej, present := true },
         { name := "Kalle", level := .two, gender := .kille, present := true }]
        2 ∧
    ∀ i j,
      i < ([[{ name := "Kalle", level := .two, gender := .kille, present := true }], [{ name := "Greta", level := .two, gender := .tjej, present := true }]] : List (List Student)).length →
      j < ([[{ name := "Kalle", level := .two, gender := .kille, present := true }], [{ name := "Greta", level := .two, gender := .tjej, present := true }]] : List (List Student)).length →
      (([[{ name := "Kalle", level := .two, gender := .kille, present := true }], [{ name := "Greta", level := .two, gender := .tjej, present := true }]] : List (List Student)).getD i []).length ≤
      (([[{ name := "Kalle", level := .two, gender := .kille, present := true }], [{ name := "Greta", level := .two, gender := .tjej, present := true }]] : List (List Student)).getD j []).length + 1 :=
  generateTeams_success_sizes
    [{ name := "Greta", level := .two, gender := .tjej, present := true },
     { name := "Kalle", level := .two, gender := .kille, present := true }]
    [] [] 2 2000 (fun _ => 0)
    [[{ name := "Kalle", level := .two, gender := .kille, present := true }],
     [{ name := "Greta", level := .two, gender := .tjej, present := true }]] 1
    (by unfold validationsPass; with_unfolding_all decide)
    (by with_unfolding_all decide)

/-! ## Claims C2 and C3: exclusion and cohesion rules on success results -/

/-- Every member of a team produced under the invariant stems from a member
node of one of the atomic groups placed in that team. -/
theorem team_member_src (studentsInput : List Student)
    (blocks togetherRules : List BlockRule) (tm : TeamState)
    (hrep : tm.members = tm.groupIds.flatMap
      (idMembers (groupByIdOf studentsInput blocks togetherRules)))
    (s : Student) (hs : s ∈ tm.members) :
    ∃ gid ∈ tm.groupIds, ∃ g0 ∈ groupsOf studentsInput togetherRules,
      gid = g0.id ∧ ∃ n ∈ g0.members, s = nodeToMember n := by
  rw [hrep] at hs
  obtain ⟨gid, hgid, hsm⟩ := List.mem_flatMap.mp hs
  refine ⟨gid, hgid, ?_⟩
  unfold idMembers at hsm
  rcases hget : alGet (groupByIdOf studentsInput blocks togetherRules) gid
    with _ | g
  · rw [hget] at hsm
    cases hsm
  · rw [hget] at hsm
    simp only [] at hsm
    obtain ⟨n, hn, hns⟩ := List.mem_map.mp hsm
    have hmem := alGet_mem _ _ _ hget
    rcases mem_foldl_alSet (fun g => g.id) (fun g => g) _ [] (gid, g) hmem
      with h0 | ⟨g', hg', hge⟩
    · simp at h0
    · have hgid' : gid = g'.id := congrArg Prod.fst hge
      have hgg : g = g' := congrArg Prod.snd hge
      unfold groupsWithDegreeOf at hg'
      obtain ⟨g0, hg0, hg0e⟩ := List.mem_map.mp hg'
      refine ⟨g0, hg0, ?_, n, ?_, hns.symm⟩
      · rw [hgid', ← hg0e]
      · rw [hgg, ← hg0e] at hn
        exact hn

/-- Member keys and roster membership of a group member node. -/
theorem team_member_key (studentsInput : List Student)
    (togetherRules : List BlockRule) (g0 : StudentGroup)
    (hg0 : g0 ∈ groupsOf studentsInput togetherRules) (n : StudentNode)
    (hn : n ∈ g0.members) :
    n.key = normalizeName (nodeToMember n).name ∧ n.key ∈ g0.keys := by
  constructor
  · exact normalizedPresentOf_key studentsInput n
      (group_member_roster studentsInput togetherRules g0 hg0 n hn)
  · have hshape := buildStudentGroups_shape (normalizedPresentOf studentsInput)
      (togetherValidationOf studentsInput togetherRules).adjacency g0 hg0
    rw [hshape.1]
    exact List.mem_map.mpr ⟨n, hn, rfl⟩

/-- Every atomic group is placed, with all its members, in some team of an
invariant-satisfying team list. -/
theorem group_in_team (studentsInput : List Student)
    (blocks togetherRules : List BlockRule) (teamCount : Nat)
    (ts : List TeamState)
    (hts : TeamsOK
      (ctxOf studentsInput blocks togetherRules teamCount).groupById
      (ctxOf studentsInput blocks togetherRules teamCount).targetSizes
      (ctxOf studentsInput blocks togetherRules teamCount).groupAdjacency
      teamCount
      (((ctxOf studentsInput blocks togetherRules teamCount).groupsWithDegree).map
        (fun g => g.id)) ts)
    (g0 : StudentGroup) (hg0 : g0 ∈ groupsOf studentsInput togetherRules) :
    ∃ tst ∈ ts, g0.id ∈ tst.groupIds ∧
      ∀ n ∈ g0.members, nodeToMember n ∈ tst.members := by
  have hid : g0.id ∈
      (((ctxOf studentsInput blocks togetherRules teamCount).groupsWithDegree).map
        (fun g => g.id)) := by
    show g0.id ∈ (groupsWithDegreeOf studentsInput blocks togetherRules).map
      (fun g => g.id)
    rw [groupsWithDegreeOf_ids]
    exact List.mem_map.mpr ⟨g0, hg0, rfl⟩
  obtain ⟨tst, htst, hgid⟩ := List.mem_flatMap.mp (hts.ids.mem_iff.mpr hid)
  refine ⟨tst, htst, hgid, ?_⟩
  intro n hn
  rw [hts.rep tst htst]
  show nodeToMember n ∈ tst.groupIds.flatMap
    (idMembers (groupByIdOf studentsInput blocks togetherRules))
  refine List.mem_flatMap.mpr ⟨g0.id, hgid, ?_⟩
  obtain ⟨g', hg'm, hid', hmem'⟩ : ∃ g',
      g' ∈ groupsWithDegreeOf studentsInput blocks togetherRules ∧
      g'.id = g0.id ∧ g'.members = g0.members := by
    unfold groupsWithDegreeOf
    exact ⟨_, List.mem_map.mpr ⟨g0, hg0, rfl⟩, rfl, rfl⟩
  have hget := groupByIdOf_get studentsInput blocks togetherRules g' hg'm
  rw [hid'] at hget
  unfold idMembers
  rw [hget]
  simp only []
  rw [hmem']
  exact List.mem_map.mpr ⟨n, hn, rfl⟩

/-- C2 (corrected): under all pre-loop validations and collision-freedom of
canonical pair keys over the present key set, a success result never puts
both endpoints of an active exclusion rule (non-empty, distinct, known and
present normalized names) into one team: the member-level edge survives the
`pairSeen` dedup, so either the internal-conflict scan would have failed the
call (same atomic group) or the projected group conflict graph keeps the two
groups apart in every team.  Without collision-freedom the claim fails
(see the counterexample, where a `"||"` name makes two distinct rules share
one canonical pair key and an active rule is silently dropped). -/
theorem generateTeams_no_active_exclusion (studentsInput : List Student)
    (blocks togetherRules : List BlockRule) (teamCount : Nat)
    (maxAttempts : Int) (o : Rand) (t : List (List Student)) (a : Nat)
    (hv : validationsPass studentsInput blocks togetherRules teamCount)
    (hcf : pairKeyInjOn (presentKeySetOf studentsInput))
    (hok : generateTeams studentsInput blocks togetherRules teamCount
      maxAttempts o = .ok t a)
    (r : BlockRule) (hr : r ∈ blocks)
    (h1 : normalizeName r.a ≠ "") (h2 : normalizeName r.b ≠ "")
    (h3 : normalizeName r.a ≠ normalizeName r.b)
    (h4 : normalizeName r.a ∈ allKeySetOf studentsInput)
    (h5 : normalizeName r.b ∈ allKeySetOf studentsInput)
    (h6 : normalizeName r.a ∈ presentKeySetOf studentsInput)
    (h7 : normalizeName r.b ∈ presentKeySetOf studentsInput) :
    ∀ tm ∈ t, ¬ ∃ s1 ∈ tm, ∃ s2 ∈ tm,
      normalizeName s1.name = normalizeName r.a ∧
      normalizeName s2.name = normalizeName r.b := by
  intro tm htm hcontra
  obtain ⟨s1, hs1, s2, hs2, hna, hnb⟩ := hcontra
  obtain ⟨ts, hts, hmap⟩ := generateTeams_ok_trace studentsInput blocks
    togetherRules teamCount maxAttempts o t a hv hok
  rw [← hmap] at htm
  obtain ⟨tst, htst, htme⟩ := List.mem_map.mp htm
  rw [← htme] at hs1 hs2
  obtain ⟨gidA, hgidA, g0a, hg0a, hAe, n1, hn1m, hs1e⟩ :=
    team_member_src studentsInput blocks togetherRules tst (hts.rep tst htst)
      s1 hs1
  obtain ⟨gidB, hgidB, g0b, hg0b, hBe, n2, hn2m, hs2e⟩ :=
    team_member_src studentsInput blocks togetherRules tst (hts.rep tst htst)
      s2 hs2
  have hk1 := team_member_key studentsInput togetherRules g0a hg0a n1 hn1m
  have hk2 := team_member_key studentsInput togetherRules g0b hg0b n2 hn2m
  have hk1a : n1.key = normalizeName r.a := by
    rw [hk1.1, ← hs1e, hna]
  have hk2b : n2.key = normalizeName r.b := by
    rw [hk2.1, ← hs2e, hnb]
  have hedge : adjMem (blockValidationOf studentsInput blocks).adjacency
      (normalizeName r.a) (normalizeName r.b) :=
    buildPairValidation_edge (allKeySetOf studentsInput)
      (presentKeySetOf studentsInput) blocks hcf r hr h1 h2 h3 h4 h5 h6 h7
  have hedgeK : adjMem (blockValidationOf studentsInput blocks).adjacency
      n1.key n2.key := by
    rw [hk1a, hk2b]
    exact hedge
  by_cases hsame : g0a.id = g0b.id
  · have hnd : ((groupsOf studentsInput togetherRules).map
        (fun g => g.id)).Nodup := buildStudentGroups_ids_nodup _ _
    have hgeq : g0a = g0b := groups_id_inj hnd g0a g0b hg0a hg0b hsame
    have hfic := hv.2.2.2.2.2.2.2.2.2.2
    refine findInternalConflict_none _ _ _ hfic g0a hg0a n1.key hk1.2 n2.key
      ?_ hedgeK
    rw [hgeq]
    exact hk2.2
  · have hknd := groupsOf_keys_nodup studentsInput togetherRules
    have hget1 := keyToGroupId_get _ hknd g0a hg0a n1.key hk1.2
    have hget2 := keyToGroupId_get _ hknd g0b hg0b n2.key hk2.2
    have hedge2 : adjMem (groupAdjacencyOf studentsInput blocks togetherRules)
        g0a.id g0b.id := by
      unfold groupAdjacencyOf
      exact buildGroupAdjacency_complete _ _ n1.key n2.key g0a.id g0b.id
        hedgeK hget1 hget2 (fun he => hsame he.symm)
    refine hts.conf tst htst gidA hgidA gidB hgidB ?_
    rw [hAe, hBe]
    exact hedge2

theorem generateTeams_no_active_exclusion_witness :
    (¬ ∃ s1 ∈ ([{ name := "Kalle", level := .two, gender := .kille, present := true }] : List Student), ∃ s2 ∈ ([{ name := "Kalle", level := .two, gender := .kille, present := true }] : List Student),
      normalizeName s1.name = normalizeName "Greta" ∧
      normalizeName s2.name = normalizeName "Kalle") ∧
    (¬ ∃ s1 ∈ ([{ name := "Greta", level := .two, gender := .tjej, present := true }] : List Student), ∃ s2 ∈ ([{ name := "Greta", level := .two, gender := .tjej, present := true }] : List Student),
      normalizeName s1.name = normalizeName "Greta" ∧
      normalizeName s2.name = normalizeName "Kalle") := by
  have h := generateTeams_no_active_exclusion
    [{ name := "Greta", level := .two, gender := .tjej, present := true },
     { name := "Kalle", level := .two, gender := .kille, present := true }]
    [⟨"Greta", "Kalle"⟩] [] 2 1 (fun _ => 0)
    [[{ name := "Kalle", level := .two, gender := .kille, present := true }],
     [{ name := "Greta", level := .two, gender := .tjej, present := true }]] 1
    (by unfold validationsPass; with_unfolding_all decide)
    (by unfold pairKeyInjOn; with_unfolding_all decide)
    (by with_unfolding_all decide)
    ⟨"Greta", "Kalle"⟩ (List.mem_singleton.mpr rfl)
    (by with_unfolding_all decide) (by with_unfolding_all decide)
    (by with_unfolding_all decide) (by with_unfolding_all decide)
    (by with_unfolding_all decide) (by with_unfolding_all decide)
    (by with_unfolding_all decide)
  exact ⟨h _ (List.mem_cons_self _ _),
    h _ (List.mem_cons_of_mem _ (List.mem_cons_self _ _))⟩

/-- Roster exhibiting the canonical-pair-key collision: the names contain
the separator `"||"`, so `makePairKey "x" "y||z" = makePairKey "x||y" "z"`. -/
def cxStudents : List Student :=
  [{ name := "x", level := .two, gender := .kille, present := true },
   { name := "y||z", level := .two, gender := .kille, present := true },
   { name := "x||y", level := .one, gender := .kille, present := true },
   { name := "z", level := .one, gender := .kille, present := true },
   { name := "w1", level := .one, gender := .kille, present := true },
   { name := "w2", level := .one, gender := .kille, present := true }]

/-- Two distinct, active rules whose canonical pair keys collide. -/
def cxBlocks : List BlockRule := [⟨"x", "y||z"⟩, ⟨"x||y", "z"⟩]

/-- C2 counterexample: with the colliding roster, both rules pass every
rule validation and generation succeeds, yet the first produced team
contains both endpoints of the second (active, never reported invalid)
exclusion rule — `pairSeen` dropped its edge because the canonical pair key
had already been recorded by the first rule. -/
theorem generateTeams_exclusion_dropped_counterexample :
    validationsPass cxStudents cxBlocks [] 2 ∧
    ¬ pairKeyInjOn (presentKeySetOf cxStudents) ∧
    (⟨"x||y", "z"⟩ : BlockRule) ∈ cxBlocks ∧
    normalizeName "x||y" ≠ "" ∧ normalizeName "z" ≠ "" ∧
    normalizeName "x||y" ≠ normalizeName "z" ∧
    normalizeName "x||y" ∈ allKeySetOf cxStudents ∧
    normalizeName "z" ∈ allKeySetOf cxStudents ∧
    normalizeName "x||y" ∈ presentKeySetOf cxStudents ∧
    normalizeName "z" ∈ presentKeySetOf cxStudents ∧
    (∃ t a, generateTeams cxStudents cxBlocks [] 2 1 (fun _ => 0) = .ok t a ∧
      ∃ tm ∈ t, (∃ s1 ∈ tm, normalizeName s1.name = normalizeName "x||y") ∧
        ∃ s2 ∈ tm, normalizeName s2.name = normalizeName "z") := by
  refine ⟨by unfold validationsPass; with_unfolding_all decide,
    by unfold pairKeyInjOn; with_unfolding_all decide,
    by with_unfolding_all decide, by with_unfolding_all decide,
    by with_unfolding_all decide, by with_unfolding_all decide,
    by with_unfolding_all decide, by with_unfolding_all decide,
    by with_unfolding_all decide, by with_unfolding_all decide,
    [[{ name := "y||z", level := .two, gender := .kille, present := true }, { name := "x||y", level := .one, gender := .kille, present := true }, { name := "z", level := .one, gender := .kille, present := true }], [{ name := "x", level := .two, gender := .kille, present := true }, { name := "w1", level := .one, gender := .kille, present := true }, { name := "w2", level := .one, gender := .kille, present := true }]], 1,
    by with_unfolding_all decide, by with_unfolding_all decide⟩

/-- C3 (corrected): under all pre-loop validations and collision-freedom of
canonical pair keys over the present key set, the two endpoints of every
active cohesion rule end up in the same team of a success result: the rule's
edge joins their union-find components, so both normalized names inhabit one
atomic group, which is placed whole into a single team and never split by
relocation or swap.  Without collision-freedom the claim fails (see the
counterexample, where a dropped cohesion rule leaves its endpoints in
different teams). -/
theorem generateTeams_cohesion_same_team (studentsInput : List Student)
    (blocks togetherRules : List BlockRule) (teamCount : Nat)
    (maxAttempts : Int) (o : Rand) (t : List (List Student)) (a : Nat)
    (hv : validationsPass studentsInput blocks togetherRules teamCount)
    (hcf : pairKeyInjOn (presentKeySetOf studentsInput))
    (hok : generateTeams studentsInput blocks togetherRules teamCount
      maxAttempts o = .ok t a)
    (r : BlockRule) (hr : r ∈ togetherRules)
    (h1 : normalizeName r.a ≠ "") (h2 : normalizeName r.b ≠ "")
    (h3 : normalizeName r.a ≠ normalizeName r.b)
    (h4 : normalizeName r.a ∈ allKeySetOf studentsInput)
    (h5 : normalizeName r.b ∈ allKeySetOf studentsInput)
    (h6 : normalizeName r.a ∈ presentKeySetOf studentsInput)
    (h7 : normalizeName r.b ∈ presentKeySetOf studentsInput) :
    ∃ tm ∈ t, (∃ s1 ∈ tm, normalizeName s1.name = normalizeName r.a) ∧
      ∃ s2 ∈ tm, normalizeName s2.name = normalizeName r.b := by
  obtain ⟨ts, hts, hmap⟩ := generateTeams_ok_trace studentsInput blocks
    togetherRules teamCount maxAttempts o t a hv hok
  have hedge : adjMem
      (togetherValidationOf studentsInput togetherRules).adjacency
      (normalizeName r.a) (normalizeName r.b) :=
    buildPairValidation_edge (allKeySetOf studentsInput)
      (presentKeySetOf studentsInput) togetherRules hcf r hr h1 h2 h3 h4 h5
      h6 h7
  have hwf : ∀ e ∈ (togetherValidationOf studentsInput togetherRules).adjacency,
      e.1 ∈ groupKeys (normalizedPresentOf studentsInput) ∧
      ∀ o' ∈ e.2, o' ∈ groupKeys (normalizedPresentOf studentsInput) :=
    pairValidation_wf studentsInput togetherRules
  have h6' := (presentKeySetOf_mem studentsInput _).mp h6
  have h7' := (presentKeySetOf_mem studentsInput _).mp h7
  unfold groupKeys at h6' h7'
  obtain ⟨n1, hn1p, hn1k⟩ := List.mem_map.mp h6'
  obtain ⟨n2, hn2p, hn2k⟩ := List.mem_map.mp h7'
  obtain ⟨g0a, hg0a, hn1m⟩ := mem_group_of_roster studentsInput togetherRules
    n1 hn1p
  obtain ⟨g0b, hg0b, hn2m⟩ := mem_group_of_roster studentsInput togetherRules
    n2 hn2p
  have hroot1 := buildStudentGroups_root (normalizedPresentOf studentsInput)
    (togetherValidationOf studentsInput togetherRules).adjacency hwf g0a hg0a
    n1 hn1m
  have hroot2 := buildStudentGroups_root (normalizedPresentOf studentsInput)
    (togetherValidationOf studentsInput togetherRules).adjacency hwf g0b hg0b
    n2 hn2m
  have hrooteq := groupRoot_of_adjMem (normalizedPresentOf studentsInput)
    (togetherValidationOf studentsInput togetherRules).adjacency hwf
    n1.key n2.key (by rw [hn1k, hn2k]; exact hedge)
  have hsame : g0a.id = g0b.id := by
    rw [hroot1, hroot2, hrooteq]
  have hnd : ((groupsOf studentsInput togetherRules).map
      (fun g => g.id)).Nodup := buildStudentGroups_ids_nodup _ _
  have hgeq : g0a = g0b := groups_id_inj hnd g0a g0b hg0a hg0b hsame
  obtain ⟨tst, htst, hgid, hall⟩ := group_in_team studentsInput blocks
    togetherRules teamCount ts hts g0a hg0a
  refine ⟨tst.members, ?_, ⟨nodeToMember n1, hall n1 hn1m, ?_⟩,
    ⟨nodeToMember n2, ?_, ?_⟩⟩
  · rw [← hmap]
    exact List.mem_map.mpr ⟨tst, htst, rfl⟩
  · show normalizeName n1.name = normalizeName r.a
    rw [← normalizedPresentOf_key studentsInput n1 hn1p, hn1k]
  · refine hall n2 ?_
    rw [hgeq]
    exact hn2m
  · show normalizeName n2.name = normalizeName r.b
    rw [← normalizedPresentOf_key studentsInput n2 hn2p, hn2k]

theorem generateTeams_cohesion_same_team_witness :
    ∃ tm ∈ ([[{ name := "Pelle", level := .three, gender := .kille, present := true }, { name := "Lisa", level := .one, gender := .tjej, present := true }], [{ name := "Greta", level := .two, gender := .tjej, present := true }, { name := "Kalle", level := .two, gender := .kille, present := true }]]
      : List (List Student)),
      (∃ s1 ∈ tm, normalizeName s1.name = normalizeName "Greta") ∧
      ∃ s2 ∈ tm, normalizeName s2.name = normalizeName "Kalle" :=
  generateTeams_cohesion_same_team
    [{ name := "Greta", level := .two, gender := .tjej, present := true },
     { name := "Kalle", level := .two, gender := .kille, present := true },
     { name := "Lisa", level := .one, gender := .tjej, present := true },
     { name := "Pelle", level := .three, gender := .kille, present := true }]
    [] [⟨"Greta", "Kalle"⟩] 2 1 (fun _ => 0)
    [[{ name := "Pelle", level := .three, gender := .kille, present := true },
      { name := "Lisa", level := .one, gender := .tjej, present := true }],
     [{ name := "Greta", level := .two, gender := .tjej, present := true },
      { name := "Kalle", level := .two, gender := .kille, present := true }]] 1
    (by unfold validationsPass; with_unfolding_all decide)
    (by unfold pairKeyInjOn; with_unfolding_all decide)
    (by with_unfolding_all decide)
    ⟨"Greta", "Kalle"⟩ (List.mem_singleton.mpr rfl)
    (by with_unfolding_all decide) (by with_unfolding_all decide)
    (by with_unfolding_all decide) (by with_unfolding_all decide)
    (by with_unfolding_all decide) (by with_unfolding_all decide)
    (by with_unfolding_all decide)

/-- Roster for the cohesion counterexample (same colliding keys, levels
chosen so the run separates the dropped rule's endpoints). -/
def c3Students : List Student :=
  [{ name := "x", level := .one, gender := .kille, present := true },
   { name := "y||z", level := .one, gender := .kille, present := true },
   { name := "x||y", level := .three, gender := .kille, present := true },
   { name := "z", level := .three, gender := .kille, present := true },
   { name := "w1", level := .two, gender := .kille, present := true },
   { name := "w2", level := .two, gender := .kille, present := true }]

/-- C3 counterexample: both cohesion rules pass every rule validation and
generation succeeds, yet the endpoints of the second (active) cohesion rule
land in different teams — its union was never applied because the canonical
pair key collided with the first rule's. -/
theorem generateTeams_cohesion_dropped_counterexample :
    validationsPass c3Students [] cxBlocks 2 ∧
    ¬ pairKeyInjOn (presentKeySetOf c3Students) ∧
    (⟨"x||y", "z"⟩ : BlockRule) ∈ cxBlocks ∧
    normalizeName "x||y" ≠ "" ∧ normalizeName "z" ≠ "" ∧
    normalizeName "x||y" ≠ normalizeName "z" ∧
    normalizeName "x||y" ∈ allKeySetOf c3Students ∧
    normalizeName "z" ∈ allKeySetOf c3Students ∧
    normalizeName "x||y" ∈ presentKeySetOf c3Students ∧
    normalizeName "z" ∈ presentKeySetOf c3Students ∧
    (∃ t a, generateTeams c3Students [] cxBlocks 2 1 (fun _ => 0) = .ok t a ∧
      ∀ tm ∈ t, ¬ ((∃ s1 ∈ tm, normalizeName s1.name = normalizeName "x||y") ∧
        ∃ s2 ∈ tm, normalizeName s2.name = normalizeName "z")) := by
  refine ⟨by unfold validationsPass; with_unfolding_all decide,
    by unfold pairKeyInjOn; with_unfolding_all decide,
    by with_unfolding_all decide, by with_unfolding_all decide,
    by with_unfolding_all decide, by with_unfolding_all decide,
    by with_unfolding_all decide, by with_unfolding_all decide,
    by with_unfolding_all decide, by with_unfolding_all decide,
    [[{ name := "x", level := .one, gender := .kille, present := true }, { name := "y||z", level := .one, gender := .kille, present := true }, { name := "x||y", level := .three, gender := .kille, present := true }], [{ name := "z", level := .three, gender := .kille, present := true }, { name := "w2", level := .two, gender := .kille, present := true }, { name := "w1", level := .two, gender := .kille, present := true }]], 1,
    by with_unfolding_all decide, by with_unfolding_all decide⟩

end Teambuilder
